import Mathlib

/-!
Verification of the tensor-network contraction-order optimizer (`src/main.rs`).

The Rust program is shallowly embedded over `Nat`:
* `u64` values are natural numbers; wherever Rust arithmetic can wrap, the
  model reduces modulo `2 ^ 64`; wherever Rust uses checked arithmetic
  (`checked_mul`, `checked_add`), the model returns `Option Nat` with `none`
  on overflow.
* Rust panics (`unwrap` failures, out-of-bounds indexing) are modelled by
  `Option`-valued functions returning `none`.
* The `FnvHashMap` generation tables are modelled as association lists kept
  in insertion order; the claims settled here are independent of the
  iteration order of the hash map.
-/

/-- Largest value representable in a `u64`. -/
def u64Max : Nat := 2 ^ 64 - 1

/-- Auxiliary popcount with an explicit iteration bound (64 iterations model
`u64::count_ones`, which only ever sees 64 bits). -/
def countOnesAux : Nat → Nat → Nat
  | 0, _ => 0
  | fuel + 1, n => n % 2 + countOnesAux fuel (n / 2)

/-- Model of `u64::count_ones`: number of set bits among the 64 low bits. -/
def countOnes (n : Nat) : Nat := countOnesAux 64 n

/-- Auxiliary bit length with an explicit iteration bound. -/
def bitLenAux : Nat → Nat → Nat
  | 0, _ => 0
  | fuel + 1, n => if n = 0 then 0 else bitLenAux fuel (n / 2) + 1

/-- Bit length of the 64 low bits: index of the highest set bit plus one,
and `0` for `0`.  `u64::leading_zeros n` is `64 - bitLen n`. -/
def bitLen (n : Nat) : Nat := bitLenAux 64 n

/-- The state record `TensorNetwork` of `main.rs`.  In Rust `legs_dim` is a
shared reference `&Vec<Dimension>`; here every state carries the list. -/
structure TensorNetwork where
  legs_dim : List Nat
  cpu : Nat
  mem : Nat
  id : Nat
  parent : Nat
  tensors : List Nat
  allows_outer : List Bool
deriving DecidableEq

/-- Loop body of `TensorNetwork::measure`: walk `legs_dim`, multiply `s` by
the dimensions at set bits of `t`, return early once `t` is zero.  The
unchecked Rust multiplication `s *= d` is modelled as wrapping
(multiplication modulo `2 ^ 64`; with debug assertions Rust would panic at
the same spot, and the program only calls `measure` on masks whose product
was previously checked, where both semantics agree). -/
def measureAux : List Nat → Nat → Nat → Nat
  | [], s, _ => s
  | d :: rest, s, t =>
    if t % 2 ≠ 0 then measureAux rest (s * d % 2 ^ 64) (t / 2)
    else if t = 0 then s
    else measureAux rest s (t / 2)

/-- `TensorNetwork::measure`. -/
def TensorNetwork.measure (tn : TensorNetwork) (tensor : Nat) : Nat :=
  measureAux tn.legs_dim 1 tensor

/-- Loop body of `TensorNetwork::checked_measure`: like `measureAux` but
`s.checked_mul(d)` returns `none` as soon as a product leaves `u64`. -/
def checkedMeasureAux : List Nat → Nat → Nat → Option Nat
  | [], s, _ => some s
  | d :: rest, s, t =>
    if t % 2 ≠ 0 then
      if s * d ≤ u64Max then checkedMeasureAux rest (s * d) (t / 2) else none
    else if t = 0 then some s
    else checkedMeasureAux rest s (t / 2)

/-- `TensorNetwork::checked_measure`. -/
def TensorNetwork.checked_measure (tn : TensorNetwork) (tensor : Nat) : Option Nat :=
  checkedMeasureAux tn.legs_dim 1 tensor

/-- `u64::saturating_pow(x, 3)`: the cube, saturating at `u64::MAX`. -/
def satPow3 (x : Nat) : Nat := min (x * x * x) u64Max

/-- `TensorNetwork::contract_tensors`.  Returns `none` when the two tensors
share no leg (outer product) or when the checked cost arithmetic overflows.
Callers (`generate_children`) only pass in-bounds indices; the model reads
out-of-bounds positions as `0` where Rust would panic. -/
def TensorNetwork.contract_tensors (tn : TensorNetwork) (i0 j0 : Nat) :
    Option TensorNetwork :=
  let i := min i0 j0
  let j := max i0 j0
  let ti := tn.tensors.getD i 0
  let tj := tn.tensors.getD j 0
  let legs := ti &&& tj
  if legs = 0 then none
  else
    match tn.checked_measure (ti ||| tj) with
    | none => none
    | some m =>
      if tn.cpu + m ≤ u64Max then
        let cpu := tn.cpu + m
        let ti_dot_tj := ti ^^^ tj
        let ti_size := tn.measure ti
        let tj_size := tn.measure tj
        let legs_sizep3 := satPow3 (tn.measure legs)
        let child_tensors := ((tn.tensors.eraseIdx j).eraseIdx i).concat ti_dot_tj
        let allow_tij : Bool :=
          decide ((ti_dot_tj &&& tj = 0 ∧ legs_sizep3 > ti_size) ∨
            (ti_dot_tj &&& ti = 0 ∧ legs_sizep3 > tj_size))
        let child_allow := ((tn.allows_outer.eraseIdx j).eraseIdx i).concat allow_tij
        let mem := ((tn.tensors.map tn.measure).sum +
          max ti_size (max tj_size (tn.measure ti_dot_tj))) % 2 ^ 64
        some { legs_dim := tn.legs_dim
               cpu := cpu
               mem := max tn.mem mem
               parent := tn.id
               id := tn.id ||| legs
               tensors := child_tensors
               allows_outer := child_allow }
      else none

/-- `TensorNetwork::generate_children`: all children over pairs `i < j`.
The outer-product warning of the Rust code only prints a message and does
not influence the produced children, so it has no counterpart here. -/
def TensorNetwork.generate_children (tn : TensorNetwork) : List TensorNetwork :=
  (List.range tn.tensors.length).flatMap fun i =>
    ((List.range tn.tensors.length).drop (i + 1)).filterMap fun j =>
      tn.contract_tensors i j

/-- `TensorNetwork::new`.  The Rust constructor unwraps
`checked_measure` on every input tensor (panic on overflow, modelled as
`none`); the unchecked `u64` sum for `mem` is modelled as wrapping. -/
def TensorNetwork.new (legs_dim : List Nat) (tensors : List Nat) :
    Option TensorNetwork :=
  let tn0 : TensorNetwork :=
    { legs_dim := legs_dim
      cpu := 0
      mem := 0
      id := 0
      parent := 0
      tensors := tensors
      allows_outer := List.replicate tensors.length true }
  (tensors.mapM (fun t => tn0.checked_measure t)).map fun sizes =>
    { tn0 with mem := sizes.sum % 2 ^ 64 }

/-- The quantity `(xor.count_zeros() - xor.leading_zeros())` computed by both
searches from the XOR of all tensor masks; the code comments call it the
number of closed legs. -/
def ncOf (tensors : List Nat) : Nat :=
  let x := tensors.foldl (fun a t => a ^^^ t) 0
  (64 - countOnes x) - (64 - bitLen x)

/-- The greedy loop of `greedy_search`: while `id < maxTn`, step to the first
child of minimal `cpu` (Rust `Iterator::min_by_key` returns the first
minimum).  `unwrap` on an empty children list is a panic, hence `none`.
The fuel argument only bounds the iteration count; every iteration shrinks
the tensor list by one, so `tensors.length + 1` iterations always reach a
decision. -/
def greedyLoop : Nat → TensorNetwork → Nat → List Nat →
    Option (List Nat × TensorNetwork)
  | 0, _, _, _ => none
  | fuel + 1, tn, maxTn, seq =>
    if tn.id < maxTn then
      match tn.generate_children with
      | [] => none
      | c :: cs =>
        let next := cs.foldl (fun acc c2 => if c2.cpu < acc.cpu then c2 else acc) c
        greedyLoop fuel next maxTn (seq.concat next.id)
    else some (seq, tn)

/-- `greedy_search`. -/
def greedySearch (legs_dim tensors : List Nat) :
    Option (List Nat × TensorNetwork) :=
  let maxTn := 2 ^ ncOf tensors - 1
  (TensorNetwork.new legs_dim tensors).bind fun tn0 =>
    greedyLoop (tensors.length + 1)
      { tn0 with allows_outer := List.replicate tn0.tensors.length false } maxTn [0]

/-- One generation table of `exhaustive_search`, modelled as an association
list from `id` to state, kept in insertion order. -/
abbrev GenMap := List (Nat × TensorNetwork)

/-- The `Entry::Vacant` / `Entry::Occupied` logic of the inner loop of
`exhaustive_search`: insert a child keyed by its `id`, overwriting an
existing entry only when the child is strictly cheaper. -/
def insertChild (m : GenMap) (child : TensorNetwork) : GenMap :=
  match m.lookup child.id with
  | none => m.concat (child.id, child)
  | some existing =>
    if child.cpu < existing.cpu then
      m.map fun kv => if kv.1 = child.id then (child.id, child) else kv
    else m

/-- Processing of one child inside the main loop of `exhaustive_search`.
Indexing `next_generations[child_generation - generation - 1]` is only
in-bounds when `generation < child_generation < n_c`; outside that range the
Rust program panics (usize underflow or index out of bounds), hence `none`. -/
def processChild (n_c generation : Nat) (acc : List GenMap × TensorNetwork)
    (child : TensorNetwork) : Option (List GenMap × TensorNetwork) :=
  if child.cpu < acc.2.cpu then
    let cg := countOnes child.id
    if cg = n_c then some (acc.1, child)
    else if generation < cg ∧ cg < n_c then
      some (acc.1.set cg (insertChild (acc.1.getD cg []) child), acc.2)
    else none
  else some acc

/-- Processing of one parent state of the current generation. -/
def processParent (n_c generation : Nat) (acc : List GenMap × TensorNetwork)
    (parent : TensorNetwork) : Option (List GenMap × TensorNetwork) :=
  if parent.cpu < acc.2.cpu then
    parent.generate_children.foldlM (processChild n_c generation) acc
  else pure acc

/-- Processing of one whole generation: iterate over the table of the
current generation (frozen, as enforced by `split_first_mut` in Rust). -/
def processGeneration (n_c : Nat) (acc : List GenMap × TensorNetwork)
    (generation : Nat) : Option (List GenMap × TensorNetwork) :=
  ((acc.1.getD generation []).map Prod.snd).foldlM (processParent n_c generation) acc

/-- The parent-chain walk at the end of `exhaustive_search`.  Every table
entry is keyed by an `id` whose popcount equals its table index and records
a parent of strictly smaller popcount, so 65 iterations always suffice; a
failed lookup or out-of-range table index is a panic (`none`). -/
def reconstructLoop (maps : List GenMap) : Nat → Nat → List Nat → Option (List Nat)
  | 0, _, _ => none
  | fuel + 1, id, seq =>
    if id = 0 then some seq
    else
      ((maps.getD (countOnes id) []).lookup id).bind fun st =>
        reconstructLoop maps fuel st.parent (seq.concat st.parent)

/-- `exhaustive_search`.  `generation_maps` has one table per non-terminal
generation; accessing `generation_maps[0]` when `n_c = 0` is an
out-of-bounds panic (`none`). -/
def exhaustiveSearch (legs_dim tensors : List Nat) :
    Option (List Nat × TensorNetwork) :=
  (greedySearch legs_dim tensors).bind fun gres =>
    let n_c := ncOf tensors
    (TensorNetwork.new legs_dim tensors).bind fun root =>
      if n_c = 0 then none
      else
        let maps0 : List GenMap := (List.replicate n_c []).set 0 [(0, root)]
        ((List.range n_c).foldlM (processGeneration n_c) (maps0, gres.2)).bind
          fun acc =>
            (reconstructLoop acc.1 65 acc.2.parent [acc.2.id, acc.2.parent]).map
              fun seq => (seq.reverse, acc.2)

/-- Worklist step of `is_connex`.  The Rust code pops the last element of
`to_visit`, scans `to_reach` from the back, moves every mask sharing a bit
with the visitor onto `to_visit` and returns `true` as soon as `to_reach`
becomes empty right after such a move.  The model keeps the visit stack with
its top at the head, so popping is `head` and the masks moved in one scan
are prepended; one step of the model is exactly one iteration of the outer
Rust loop, and the early `return true` fires exactly when the scan matched
everything that was left (`remaining = []` with at least one match). -/
def connexAux : Nat → List Nat → List Nat → Bool
  | 0, _, _ => false
  | _ + 1, _, [] => false
  | fuel + 1, toReach, t :: rest =>
    let matched := toReach.filter fun x => t &&& x ≠ 0
    let remaining := toReach.filter fun x => t &&& x = 0
    if remaining.isEmpty && !matched.isEmpty then true
    else connexAux fuel remaining (matched ++ rest)

/-- `is_connex`.  `pop().unwrap()` on an empty input is a panic (`none`);
otherwise the flood fill starts from the last tensor of the list.  Each
worklist step removes one element from the combined lists, so
`2 * length + 1` fuel always suffices. -/
def isConnex (tensor_repr : List Nat) : Option Bool :=
  tensor_repr.getLast?.map fun start =>
    connexAux (2 * tensor_repr.length + 1) tensor_repr.dropLast [start]

/-- Occurrence flag stored in `legs_map` by `represent_binary`: `true` iff
the label occurs exactly once over all legs of all tensors (an open leg). -/
def labelOnce (alllegs : List Int) (l : Int) : Bool := alllegs.count l == 1

/-- `i8::abs` as compiled without debug assertions: the absolute value,
except that `(-128).abs()` wraps to `-128` (with debug assertions Rust
panics there instead; either behaviour breaks the claimed ordering). -/
def rustAbsI8 (l : Int) : Int := if l = -128 then -128 else l.natAbs

/-- The sort key comparison of `represent_binary`:
`legs_indices.sort_by_key(|l| (legs_map[l].0, l.abs()))`, i.e. lexicographic
on (open flag with `false < true`, wrapped absolute value). -/
def legKeyLe (alllegs : List Int) (a b : Int) : Prop :=
  (labelOnce alllegs a = false ∧ labelOnce alllegs b = true) ∨
    (labelOnce alllegs a = labelOnce alllegs b ∧ rustAbsI8 a ≤ rustAbsI8 b)

instance (alllegs : List Int) : DecidableRel (legKeyLe alllegs) := fun _ _ => by
  unfold legKeyLe; infer_instance

/-- The sorting pass of `represent_binary` on the list of distinct labels
(`legs_map.keys()` is iterated in an unspecified hash order, so the input
list order is a parameter; `sort_by_key` is a stable comparison sort and
insertion sort realises the same specification). -/
def sortLegs (alllegs : List Int) (labels : List Int) : List Int :=
  labels.insertionSort (legKeyLe alllegs)

/-- The ordering property claimed for the bit encoding: contracted labels
(seen twice) come before open labels (seen once), and inside each group the
true absolute values are non-decreasing. -/
def specLe (alllegs : List Int) (a b : Int) : Prop :=
  (labelOnce alllegs a = false ∧ labelOnce alllegs b = true) ∨
    (labelOnce alllegs a = labelOnce alllegs b ∧ a.natAbs ≤ b.natAbs)

instance (alllegs : List Int) : DecidableRel (specLe alllegs) := fun _ _ => by
  unfold specLe; infer_instance

/-- The product the specification ascribes to `measure`: the dimensions at
the set bit positions below `legs_dim.length` (set bits at or beyond the
length contribute nothing), with empty product `1`. -/
def maskProd (legs_dim : List Nat) (mask : Nat) : Nat :=
  ∏ i ∈ Finset.range legs_dim.length, if mask.testBit i then legs_dim.getD i 1 else 1

/-- XOR of all entries of a tensor list (the open-leg mask of a state). -/
def xorSum (l : List Nat) : Nat := l.foldr (fun a b => a ^^^ b) 0

/-- `ReachN n root tn`: state `tn` is obtained from `root` by `n` successive
`contract_tensors` steps over in-bounds pairs `i < j` (the pairs
`generate_children` enumerates). -/
inductive ReachN : Nat → TensorNetwork → TensorNetwork → Prop
  | refl (tn : TensorNetwork) : ReachN 0 tn tn
  | step {n : Nat} {a b c : TensorNetwork} {i j : Nat} :
      ReachN n a b → i < j → j < b.tensors.length →
      b.contract_tensors i j = some c → ReachN (n + 1) a c

/-- No live tensor carries an already-contracted leg. -/
def disjointInv (tn : TensorNetwork) : Prop := ∀ t ∈ tn.tensors, t &&& tn.id = 0

/-- Every leg (bit position) is carried by at most two live tensors — the
structural invariant `represent_binary` enforces on the input. -/
def incidenceInv (tn : TensorNetwork) : Prop :=
  ∀ b : Nat, tn.tensors.countP (fun t => t.testBit b) ≤ 2

/-- All masks of the state fit in 64 bits. -/
def boundedInv (tn : TensorNetwork) : Prop :=
  tn.id < 2 ^ 64 ∧ ∀ t ∈ tn.tensors, t < 2 ^ 64

/-- The conjunction of the state invariants of a validly-encoded network. -/
def goodState (tn : TensorNetwork) : Prop :=
  disjointInv tn ∧ incidenceInv tn ∧ boundedInv tn

/-- Adjacency used by the flood fill of `is_connex`, relative to the list
`r` of masks still to be reached: an edge goes to a mask of `r` sharing at
least one bit with the current mask. -/
def connexEdge (r : List Nat) (a b : Nat) : Prop := b ∈ r ∧ a &&& b ≠ 0

/-- `v` is reachable from `s` through a nonempty chain of masks of `r`,
consecutive masks sharing at least one bit.  This is the graph reachability
of the specification, phrased from the flood-fill start. -/
def ConnectedFrom (r : List Nat) (s v : Nat) : Prop :=
  Relation.TransGen (connexEdge r) s v

/-- `p` produces `c` by one pair contraction over in-bounds indices, exactly
the steps `generate_children` enumerates. -/
def Generates (p c : TensorNetwork) : Prop :=
  ∃ i j, i < j ∧ j < p.tensors.length ∧ p.contract_tensors i j = some c

/-- `tn` is reachable from `root` by some number of contraction steps. -/
def Reaches (root tn : TensorNetwork) : Prop := ∃ n, ReachN n root tn

/-- A contraction chain from `root` to a state, recording the `id` of every
state after the root, in order. -/
inductive GenChain (root : TensorNetwork) : TensorNetwork → List Nat → Prop
  | nil : GenChain root root []
  | snoc {p c : TensorNetwork} {ms : List Nat} :
      GenChain root p ms → Generates p c → GenChain root c (ms.concat c.id)

/-- The first pair `i < j` of live tensors whose shared-leg mask is exactly
`legs`; on the states of a validly-encoded search this pair is unique, so
the decoded step of the specification's reconstruction is unambiguous. -/
def findPair (tn : TensorNetwork) (legs : Nat) : Option (Nat × Nat) :=
  (List.range tn.tensors.length).findSome? fun i =>
    ((List.range tn.tensors.length).drop (i + 1)).findSome? fun j =>
      if tn.tensors.getD i 0 &&& tn.tensors.getD j 0 = legs then some (i, j)
      else none

/-- Reapply one decoded reconstruction step: the legs to contract are the
XOR of the current `id` with the next recorded mask, and the pair to
contract is the pair sharing exactly those legs. -/
def replayStep (tn : TensorNetwork) (next : Nat) : Option TensorNetwork :=
  (findPair tn (tn.id ^^^ next)).bind fun p => tn.contract_tensors p.1 p.2

/-- Reapply a whole recorded mask sequence from a starting state. -/
def replay : TensorNetwork → List Nat → Option TensorNetwork
  | tn, [] => some tn
  | tn, m :: rest => (replayStep tn m).bind fun c => replay c rest

/-- Invariants of the generation tables of `exhaustive_search`, relative to
the root state, the table count `n_c` and the generation `gen` currently
being processed: tables are keyed by the `id` of the stored state, whose
popcount is the table index; every entry is a reachable, well-formed state;
table 0 holds exactly the root; and every non-root entry records a parent
of strictly smaller popcount, at most `gen`, whose own (already frozen)
entry generates it. -/
structure MapsInv (root : TensorNetwork) (n_c gen : Nat) (maps : List GenMap) :
    Prop where
  len_eq : maps.length = n_c
  keys_nodup : ∀ g : Nat, ((maps.getD g []).map Prod.fst).Nodup
  entry_key : ∀ g : Nat, ∀ e ∈ maps.getD g [], e.2.id = e.1 ∧ countOnes e.1 = g
  entry_state : ∀ g : Nat, ∀ e ∈ maps.getD g [], goodState e.2 ∧ Reaches root e.2
  zero_table : maps.getD 0 [] = [(0, root)]
  chain : ∀ g : Nat, ∀ e ∈ maps.getD g [], e.1 ≠ 0 →
    countOnes e.2.parent < g ∧ countOnes e.2.parent ≤ gen ∧
    ∃ pe, (maps.getD (countOnes e.2.parent) []).lookup e.2.parent = some pe ∧
      Generates pe e.2

/-- Invariant of the running best state: it is either still the greedy
result, or a strictly cheaper terminal state produced by the loop, whose
recorded parent has a (frozen) table entry that generates it. -/
def BestInv (root g0 : TensorNetwork) (n_c gen : Nat) (maps : List GenMap)
    (best : TensorNetwork) : Prop :=
  best = g0 ∨
    (goodState best ∧ Reaches root best ∧ best.cpu < g0.cpu ∧
      countOnes best.parent < n_c ∧ countOnes best.parent ≤ gen ∧
      ∃ pe, (maps.getD (countOnes best.parent) []).lookup best.parent = some pe ∧
        Generates pe best)

/-- The combined accumulator invariant of the main loop. -/
def SearchInv (root g0 : TensorNetwork) (n_c gen : Nat)
    (acc : List GenMap × TensorNetwork) : Prop :=
  MapsInv root n_c gen acc.1 ∧ BestInv root g0 n_c gen acc.1 acc.2

/-- Two states agreeing on every field that influences the search except
the `allows_outer` flags and the `mem` bookkeeping; `greedy_search` runs on
a root whose `allows_outer` flags are all cleared, which changes neither the
produced children's `id`, `cpu`, `parent` nor their `tensors`. -/
def coreEq (a b : TensorNetwork) : Prop :=
  a.legs_dim = b.legs_dim ∧ a.cpu = b.cpu ∧ a.id = b.id ∧ a.parent = b.parent ∧
    a.tensors = b.tensors

/-- The tensor obtained by accumulating the root tensors at the positions of
one merge class. -/
def posXor (ts : List Nat) (cls : List Nat) : Nat :=
  xorSum (cls.map fun p => ts.getD p 0)

/-- Two positions of the root tensor list are linked when their tensors
share a leg that the state `m` has already contracted. -/
def edgeRel (ts : List Nat) (m : Nat) (p q : Nat) : Prop :=
  ts.getD p 0 &&& ts.getD q 0 &&& m ≠ 0

/-- The merge-history invariant of a reachable state: `P` lists, for every
live tensor in order, the class of root positions it was accumulated from.
Classes partition the root positions, a leg is contracted exactly when both
its carriers lie in one class, and every class is connected through
contracted legs. -/
def PartOk (ts : List Nat) (tn : TensorNetwork) (P : List (List Nat)) : Prop :=
  tn.tensors = P.map (posXor ts) ∧
  P.flatten.Perm (List.range ts.length) ∧
  (∀ cls ∈ P, cls ≠ []) ∧
  (∀ b : Nat, tn.id.testBit b = true ↔
    ∃ cls ∈ P, 2 ≤ cls.countP (fun p => (ts.getD p 0).testBit b)) ∧
  (∀ cls ∈ P, ∀ p ∈ cls, ∀ q ∈ cls,
    p = q ∨ Relation.TransGen (edgeRel ts tn.id) p q)

/-! ### Bit-counting lemmas -/

theorem countOnesAux_eq_sum (fuel : Nat) :
    ∀ n : Nat, countOnesAux fuel n =
      ∑ i ∈ Finset.range fuel, if n.testBit i then 1 else 0 := by
  induction fuel with
  | zero => intro n; simp [countOnesAux]
  | succ f ih =>
    intro n
    rw [Finset.sum_range_succ' (fun i => if n.testBit i then 1 else 0) f]
    have h0 : (if n.testBit 0 then 1 else 0) = n % 2 := by
      rcases Nat.mod_two_eq_zero_or_one n with h | h <;> simp [Nat.testBit_zero, h]
    have hs : ∀ i, (if n.testBit (i + 1) then (1 : Nat) else 0)
        = (if (n / 2).testBit i then 1 else 0) := by
      intro i; rw [Nat.testBit_succ]
    simp only [countOnesAux, ih (n / 2), hs, h0]
    omega

theorem countOnes_eq_sum (n : Nat) :
    countOnes n = ∑ i ∈ Finset.range 64, if n.testBit i then 1 else 0 :=
  countOnesAux_eq_sum 64 n

theorem land_eq_zero_iff (a b : Nat) :
    a &&& b = 0 ↔ ∀ i, ¬(a.testBit i = true ∧ b.testBit i = true) := by
  constructor
  · intro h i hi
    have hb := congrArg (fun x => Nat.testBit x i) h
    simp only [Nat.testBit_land, Nat.zero_testBit, hi.1, hi.2, Bool.and_self] at hb
    exact Bool.noConfusion hb
  · intro h
    apply Nat.eq_of_testBit_eq
    intro i
    rw [Nat.testBit_land, Nat.zero_testBit]
    cases ha : a.testBit i with
    | false => simp
    | true =>
      cases hb : b.testBit i with
      | false => simp
      | true => exact absurd ⟨ha, hb⟩ (h i)

theorem countOnes_lor_of_disjoint {a b : Nat} (h : a &&& b = 0) :
    countOnes (a ||| b) = countOnes a + countOnes b := by
  rw [countOnes_eq_sum, countOnes_eq_sum, countOnes_eq_sum, ← Finset.sum_add_distrib]
  apply Finset.sum_congr rfl
  intro i _
  rw [Nat.testBit_lor]
  have hi := (land_eq_zero_iff a b).1 h i
  cases ha : a.testBit i <;> cases hb : b.testBit i <;> simp_all

theorem countOnes_pos {n : Nat} (h0 : n ≠ 0) (h64 : n < 2 ^ 64) : 1 ≤ countOnes n := by
  by_contra hc
  push_neg at hc
  have hz : countOnes n = 0 := by omega
  apply h0
  apply Nat.eq_of_testBit_eq
  intro i
  rw [Nat.zero_testBit]
  by_cases hi : i < 64
  · rw [countOnes_eq_sum] at hz
    have hterm := (Finset.sum_eq_zero_iff).mp hz i (Finset.mem_range.mpr hi)
    by_contra ht
    rw [Bool.not_eq_false] at ht
    rw [ht] at hterm
    simp at hterm
  · have : (2 : Nat) ^ 64 ≤ 2 ^ i := Nat.pow_le_pow_right (by norm_num) (by omega)
    exact Nat.testBit_lt_two_pow (lt_of_lt_of_le h64 this)

/-! ### The cost kernel against its specification -/

theorem maskProd_nil (mask : Nat) : maskProd [] mask = 1 := by
  simp [maskProd]

theorem maskProd_zero (dims : List Nat) : maskProd dims 0 = 1 := by
  simp [maskProd, Nat.zero_testBit]

theorem maskProd_cons (d : Nat) (rest : List Nat) (t : Nat) :
    maskProd (d :: rest) t = (if t % 2 = 1 then d else 1) * maskProd rest (t / 2) := by
  unfold maskProd
  rw [List.length_cons, Finset.prod_range_succ', mul_comm]
  congr 1
  · rw [Nat.testBit_zero]
    simp
  · apply Finset.prod_congr rfl
    intro i _
    rw [Nat.testBit_succ]
    simp

theorem measureAux_cons (d : Nat) (rest : List Nat) (s t : Nat) :
    measureAux (d :: rest) s t =
      if t % 2 ≠ 0 then measureAux rest (s * d % 2 ^ 64) (t / 2)
      else if t = 0 then s else measureAux rest s (t / 2) := rfl

theorem checkedMeasureAux_cons (d : Nat) (rest : List Nat) (s t : Nat) :
    checkedMeasureAux (d :: rest) s t =
      if t % 2 ≠ 0 then
        (if s * d ≤ u64Max then checkedMeasureAux rest (s * d) (t / 2) else none)
      else if t = 0 then some s else checkedMeasureAux rest s (t / 2) := rfl

theorem measureAux_eq (dims : List Nat) :
    ∀ s t : Nat, s < 2 ^ 64 → measureAux dims s t = s * maskProd dims t % 2 ^ 64 := by
  induction dims with
  | nil =>
    intro s t hs
    rw [measureAux, maskProd_nil, mul_one, Nat.mod_eq_of_lt hs]
  | cons d rest ih =>
    intro s t hs
    rw [maskProd_cons, measureAux_cons]
    by_cases h1 : t % 2 ≠ 0
    · have ht : t % 2 = 1 := by omega
      have hlt : s * d % 2 ^ 64 < 2 ^ 64 := Nat.mod_lt _ (by norm_num)
      rw [if_pos h1, if_pos ht, ih (s * d % 2 ^ 64) (t / 2) hlt, Nat.mod_mul_mod,
        mul_assoc]
    · push_neg at h1
      rw [if_neg (by omega : ¬ t % 2 ≠ 0), if_neg (by omega : ¬ t % 2 = 1), one_mul]
      by_cases h0 : t = 0
      · subst h0
        rw [if_pos rfl, maskProd_zero, mul_one, Nat.mod_eq_of_lt hs]
      · rw [if_neg h0, ih s (t / 2) hs]

theorem checkedMeasureAux_zero (dims : List Nat) (s : Nat) :
    checkedMeasureAux dims s 0 = some s := by
  cases dims <;> simp [checkedMeasureAux]

theorem one_le_maskProd {dims : List Nat} (hd : ∀ d ∈ dims, 1 ≤ d) (t : Nat) :
    1 ≤ maskProd dims t := by
  apply Finset.one_le_prod'
  intro i hi
  by_cases h : t.testBit i
  · rw [if_pos h, List.getD_eq_getElem dims 1 (Finset.mem_range.mp hi)]
    exact hd _ (List.getElem_mem _)
  · rw [if_neg h]

theorem checkedMeasureAux_eq (dims : List Nat) (hd : ∀ d ∈ dims, 1 ≤ d) :
    ∀ s t : Nat, s ≤ u64Max →
      checkedMeasureAux dims s t =
        if s * maskProd dims t ≤ u64Max then some (s * maskProd dims t) else none := by
  induction dims with
  | nil =>
    intro s t hs
    rw [maskProd_nil, mul_one, if_pos hs]
    rfl
  | cons d rest ih =>
    have hd' : ∀ x ∈ rest, 1 ≤ x := fun x hx => hd x (List.mem_cons_of_mem _ hx)
    intro s t hs
    rw [maskProd_cons, checkedMeasureAux_cons]
    by_cases h1 : t % 2 ≠ 0
    · have ht : t % 2 = 1 := by omega
      rw [if_pos h1, if_pos ht]
      by_cases hov : s * d ≤ u64Max
      · rw [if_pos hov, ih hd' (s * d) (t / 2) hov, ← mul_assoc]
      · rw [if_neg hov]
        have hP := one_le_maskProd hd' (t / 2)
        have hge : s * d ≤ s * d * maskProd rest (t / 2) :=
          Nat.le_mul_of_pos_right _ hP
        rw [if_neg (by rw [← mul_assoc]; omega)]
    · push_neg at h1
      rw [if_neg (by omega : ¬ t % 2 ≠ 0), if_neg (by omega : ¬ t % 2 = 1), one_mul]
      by_cases h0 : t = 0
      · subst h0
        rw [if_pos rfl, maskProd_zero, mul_one, if_pos hs]
      · rw [if_neg h0, ih hd' s (t / 2) hs]

/-- C10: `measure` and `checked_measure` are total over all masks.  The
result is the product of `legs_dim[i]` over the set bits `i` below
`legs_dim.len()` (higher set bits are silently ignored, because `maskProd`
only ranges over positions below the length and both loops drop the
remaining mask after the list is exhausted); the empty mask yields `1`;
`measure` computes the product unchecked (modulo `2 ^ 64`), and on the
validated dimension lists the program uses (every dimension at least 1 — the
encoder even enforces at least 2), `checked_measure` returns `none` exactly
when the product exceeds `u64::MAX`. -/
theorem c10_measure_total (tn : TensorNetwork) (mask : Nat) :
    tn.measure mask = maskProd tn.legs_dim mask % 2 ^ 64 ∧
    tn.measure 0 = 1 ∧ tn.checked_measure 0 = some 1 ∧
    ((∀ d ∈ tn.legs_dim, 1 ≤ d) →
      tn.checked_measure mask =
        if maskProd tn.legs_dim mask ≤ u64Max then some (maskProd tn.legs_dim mask)
        else none) := by
  refine ⟨?_, ?_, ?_, ?_⟩
  · rw [TensorNetwork.measure, measureAux_eq tn.legs_dim 1 mask (by norm_num), one_mul]
  · rw [TensorNetwork.measure, measureAux_eq tn.legs_dim 1 0 (by norm_num),
      maskProd_zero]
    norm_num
  · exact checkedMeasureAux_zero tn.legs_dim 1
  · intro hd
    rw [TensorNetwork.checked_measure,
      checkedMeasureAux_eq tn.legs_dim hd 1 mask (by norm_num [u64Max]), one_mul]

/-- Witness for C10 at a concrete network: dimensions `[4,3,5]`, mask `7`,
whose checked size evaluates to `4 * 3 * 5 = 60`. -/
theorem c10_witness :
    (∀ d ∈ ([4, 3, 5] : List Nat), 1 ≤ d) ∧
    ({ legs_dim := [4, 3, 5], cpu := 0, mem := 0, id := 0, parent := 0,
       tensors := [], allows_outer := [] : TensorNetwork }.checked_measure 7 =
      some 60) := by
  refine ⟨by decide, ?_⟩
  rw [(c10_measure_total
    { legs_dim := [4, 3, 5], cpu := 0, mem := 0, id := 0, parent := 0,
      tensors := [], allows_outer := [] } 7).2.2.2 (by decide)]
  decide

/-! ### Pair contraction (claim C4) -/

/-- C4: for in-bounds indices `i < j`, `contract_tensors` refuses pairs with
no shared leg, and otherwise (absent overflow) produces the child with
`cpu = parent.cpu + size(ti|tj)` via checked arithmetic, tensor list
obtained by removing position `j`, then position `i`, then pushing
`ti ^ tj`, `id = parent.id | (ti & tj)` and `parent` field equal to the
parent's `id`. -/
theorem c4_contract_tensors (tn : TensorNetwork) (i j : Nat) (hij : i < j)
    (hj : j < tn.tensors.length) :
    (tn.tensors.getD i 0 &&& tn.tensors.getD j 0 = 0 →
      tn.contract_tensors i j = none) ∧
    (∀ s : Nat, tn.tensors.getD i 0 &&& tn.tensors.getD j 0 ≠ 0 →
      tn.checked_measure (tn.tensors.getD i 0 ||| tn.tensors.getD j 0) = some s →
      tn.cpu + s ≤ u64Max →
      (tn.contract_tensors i j).map (fun c => (c.cpu, c.tensors, c.id, c.parent)) =
        some (tn.cpu + s,
          ((tn.tensors.eraseIdx j).eraseIdx i).concat
            (tn.tensors.getD i 0 ^^^ tn.tensors.getD j 0),
          tn.id ||| (tn.tensors.getD i 0 &&& tn.tensors.getD j 0), tn.id)) := by
  have hmin : min i j = i := Nat.min_eq_left (Nat.le_of_lt hij)
  have hmax : max i j = j := Nat.max_eq_right (Nat.le_of_lt hij)
  constructor
  · intro h0
    simp only [TensorNetwork.contract_tensors, hmin, hmax]
    rw [if_pos h0]
  · intro s hne hcm hadd
    simp only [TensorNetwork.contract_tensors, hmin, hmax]
    rw [if_neg hne, hcm]
    simp only [if_pos hadd, Option.map_some']

/-- Witness for C4 at the two-tensor network of the specification's first
scenario (dimensions `[4,3,5]`, tensors `3` and `5`): contracting them costs
`4 * 3 * 5 = 60` and leaves the single tensor `6`. -/
theorem c4_witness :
    ((3 : Nat) &&& 5 ≠ 0) ∧
    (({ legs_dim := [4, 3, 5], cpu := 0, mem := 32, id := 0, parent := 0,
        tensors := [3, 5], allows_outer := [true, true] :
        TensorNetwork }.contract_tensors 0 1).map
      (fun c => (c.cpu, c.tensors, c.id, c.parent)) = some (60, [6], 1, 0)) := by
  refine ⟨by decide, ?_⟩
  have h := (c4_contract_tensors
    { legs_dim := [4, 3, 5], cpu := 0, mem := 32, id := 0, parent := 0,
      tensors := [3, 5], allows_outer := [true, true] } 0 1
    (by decide) (by decide)).2 60 (by decide) (by decide) (by decide)
  exact h.trans (by decide)

/-! ### Permutation lemmas for the tensor-list surgery of a contraction -/

theorem xorSum_cons (a : Nat) (l : List Nat) : xorSum (a :: l) = a ^^^ xorSum l := rfl

theorem xorSum_perm {l l' : List Nat} (h : l.Perm l') : xorSum l = xorSum l' := by
  induction h with
  | nil => rfl
  | cons x _ ih => rw [xorSum_cons, xorSum_cons, ih]
  | swap x y l =>
    rw [xorSum_cons, xorSum_cons, xorSum_cons, xorSum_cons, ← Nat.xor_assoc,
      Nat.xor_comm y x, Nat.xor_assoc]
  | trans _ _ ih1 ih2 => exact ih1.trans ih2

theorem perm_getElem_eraseIdx (l : List Nat) (i : Nat) (hi : i < l.length) :
    l.Perm (l[i] :: l.eraseIdx i) := by
  induction l generalizing i with
  | nil => simp at hi
  | cons a tl ih =>
    cases i with
    | zero => simp
    | succ n =>
      have hn : n < tl.length := by simpa using hi
      have h1 := (ih n hn).cons a
      have h2 := List.Perm.swap tl[n] a (tl.eraseIdx n)
      rw [List.getElem_cons_succ, List.eraseIdx_cons_succ]
      exact h1.trans h2

theorem perm_two_eraseIdx (l : List Nat) (i j : Nat) (hij : i < j)
    (hj : j < l.length) :
    l.Perm (l.getD i 0 :: l.getD j 0 :: (l.eraseIdx j).eraseIdx i) := by
  have hi : i < l.length := lt_trans hij hj
  have hej : (l.eraseIdx j).length = l.length - 1 := by
    rw [List.length_eraseIdx]
    simp [hj]
  have hie : i < (l.eraseIdx j).length := by omega
  have h1 := perm_getElem_eraseIdx l j hj
  have h2 := (perm_getElem_eraseIdx (l.eraseIdx j) i hie).cons l[j]
  have h3 : (l.eraseIdx j)[i] = l[i] := by
    rw [List.getElem_eraseIdx]
    exact dif_pos hij
  rw [h3] at h2
  have h4 := List.Perm.swap l[i] l[j] ((l.eraseIdx j).eraseIdx i)
  rw [List.getD_eq_getElem l 0 hi, List.getD_eq_getElem l 0 hj]
  exact (h1.trans h2).trans h4

theorem countP_two_eraseIdx (p : Nat → Bool) (l : List Nat) (i j : Nat)
    (hij : i < j) (hj : j < l.length) :
    l.countP p = ((l.eraseIdx j).eraseIdx i).countP p +
      (if p (l.getD i 0) then 1 else 0) + (if p (l.getD j 0) then 1 else 0) := by
  have h := (perm_two_eraseIdx l i j hij hj).countP_eq p
  rw [h, List.countP_cons, List.countP_cons]
  omega

/-! ### Inversion of a successful contraction -/

theorem contract_tensors_some_elim {tn c : TensorNetwork} {i j : Nat}
    (hij : i < j) (hc : tn.contract_tensors i j = some c) :
    c.tensors = ((tn.tensors.eraseIdx j).eraseIdx i).concat
      (tn.tensors.getD i 0 ^^^ tn.tensors.getD j 0) ∧
    c.id = tn.id ||| (tn.tensors.getD i 0 &&& tn.tensors.getD j 0) ∧
    c.parent = tn.id ∧ c.legs_dim = tn.legs_dim ∧
    tn.tensors.getD i 0 &&& tn.tensors.getD j 0 ≠ 0 ∧ tn.cpu ≤ c.cpu := by
  have hmin : min i j = i := Nat.min_eq_left (Nat.le_of_lt hij)
  have hmax : max i j = j := Nat.max_eq_right (Nat.le_of_lt hij)
  simp only [TensorNetwork.contract_tensors, hmin, hmax] at hc
  split at hc
  · exact Option.noConfusion hc
  · rename_i h0
    split at hc
    · exact Option.noConfusion hc
    · rename_i m hm
      split at hc
      · have hcc := Option.some.inj hc
        subst hcc
        exact ⟨rfl, rfl, rfl, rfl, h0, Nat.le_add_right _ _⟩
      · exact Option.noConfusion hc

/-! ### Leg conservation (claim C7) -/

theorem contract_step_xorSum {tn c : TensorNetwork} {i j : Nat} (hij : i < j)
    (hj : j < tn.tensors.length) (hc : tn.contract_tensors i j = some c) :
    xorSum c.tensors = xorSum tn.tensors := by
  obtain ⟨ht, -, -, -, -, -⟩ := contract_tensors_some_elim hij hc
  rw [ht, List.concat_eq_append]
  rw [xorSum_perm (List.perm_append_singleton _ _), xorSum_cons]
  rw [xorSum_perm (perm_two_eraseIdx tn.tensors i j hij hj), xorSum_cons, xorSum_cons]
  rw [Nat.xor_assoc]

/-- C7: along any chain of `contract_tensors` steps, the XOR of the live
tensor masks — the open-leg mask — never changes. -/
theorem c7_leg_conservation (n : Nat) (root tn : TensorNetwork)
    (h : ReachN n root tn) : xorSum tn.tensors = xorSum root.tensors := by
  induction h with
  | refl _ => rfl
  | step _ hij hj hc ih => rw [contract_step_xorSum hij hj hc, ih]

/-- Witness for C7: one concrete step on the two-tensor network; the XOR of
the tensors is `6` before and after the contraction. -/
theorem c7_witness :
    xorSum [6] = xorSum [3, 5] ∧ xorSum [3, 5] = 6 := by
  constructor
  · exact c7_leg_conservation 1
      { legs_dim := [4, 3, 5], cpu := 0, mem := 32, id := 0, parent := 0,
        tensors := [3, 5], allows_outer := [true, true] }
      { legs_dim := [4, 3, 5], cpu := 60, mem := 52, id := 1, parent := 0,
        tensors := [6], allows_outer := [false] }
      (@ReachN.step 0
        { legs_dim := [4, 3, 5], cpu := 0, mem := 32, id := 0, parent := 0,
          tensors := [3, 5], allows_outer := [true, true] }
        { legs_dim := [4, 3, 5], cpu := 0, mem := 32, id := 0, parent := 0,
          tensors := [3, 5], allows_outer := [true, true] }
        { legs_dim := [4, 3, 5], cpu := 60, mem := 52, id := 1, parent := 0,
          tensors := [6], allows_outer := [false] }
        0 1 (ReachN.refl _) (by decide) (by decide) (by decide))
  · decide

/-! ### Identity growth (claim C3) -/

theorem land_land_left_zero {a b c : Nat} (h : a &&& c = 0) : (a &&& b) &&& c = 0 := by
  rw [land_eq_zero_iff] at h ⊢
  intro k hk
  rw [Nat.testBit_land, Bool.and_eq_true] at hk
  exact h k ⟨hk.1.1, hk.2⟩

theorem land_lor_right_zero {t x y : Nat} (hx : t &&& x = 0) (hy : t &&& y = 0) :
    t &&& (x ||| y) = 0 := by
  rw [land_eq_zero_iff] at hx hy ⊢
  intro k hk
  rw [Nat.testBit_lor, Bool.or_eq_true] at hk
  rcases hk.2 with h | h
  · exact hx k ⟨hk.1, h⟩
  · exact hy k ⟨hk.1, h⟩

theorem xor_disjoint_child_id {ti tj idv : Nat} (hi : ti &&& idv = 0)
    (hj : tj &&& idv = 0) : (ti ^^^ tj) &&& (idv ||| (ti &&& tj)) = 0 := by
  rw [land_eq_zero_iff] at hi hj ⊢
  intro k hk
  obtain ⟨h1, h2⟩ := hk
  rw [Nat.testBit_xor] at h1
  rw [Nat.testBit_lor, Bool.or_eq_true] at h2
  rcases h2 with h | h
  · cases ha : ti.testBit k with
    | true => exact hi k ⟨ha, h⟩
    | false =>
      cases hb : tj.testBit k with
      | true => exact hj k ⟨hb, h⟩
      | false => rw [ha, hb] at h1; exact Bool.noConfusion h1
  · rw [Nat.testBit_land, Bool.and_eq_true] at h
    rw [h.1, h.2] at h1
    exact Bool.noConfusion h1

/-- A successful contraction preserves the structural state invariants. -/
theorem contract_step_good {tn c : TensorNetwork} {i j : Nat} (hij : i < j)
    (hj : j < tn.tensors.length) (hc : tn.contract_tensors i j = some c)
    (hg : goodState tn) : goodState c := by
  obtain ⟨hdisj, hinc, hbid, hbt⟩ :
      disjointInv tn ∧ incidenceInv tn ∧ tn.id < 2 ^ 64 ∧
        ∀ t ∈ tn.tensors, t < 2 ^ 64 := ⟨hg.1, hg.2.1, hg.2.2.1, hg.2.2.2⟩
  obtain ⟨ht, hid, -, -, hne, -⟩ := contract_tensors_some_elim hij hc
  have hi : i < tn.tensors.length := lt_trans hij hj
  have hgi : tn.tensors.getD i 0 = tn.tensors[i] := List.getD_eq_getElem _ 0 hi
  have hgj : tn.tensors.getD j 0 = tn.tensors[j] := List.getD_eq_getElem _ 0 hj
  have hti_mem : tn.tensors.getD i 0 ∈ tn.tensors := by
    rw [hgi]; exact List.getElem_mem hi
  have htj_mem : tn.tensors.getD j 0 ∈ tn.tensors := by
    rw [hgj]; exact List.getElem_mem hj
  have he_sub : ∀ t ∈ (tn.tensors.eraseIdx j).eraseIdx i, t ∈ tn.tensors :=
    fun t htm =>
      List.Sublist.mem
        (List.Sublist.mem htm (List.eraseIdx_sublist (tn.tensors.eraseIdx j) i))
        (List.eraseIdx_sublist tn.tensors j)
  have hmem : ∀ t ∈ c.tensors,
      t ∈ (tn.tensors.eraseIdx j).eraseIdx i ∨
        t = tn.tensors.getD i 0 ^^^ tn.tensors.getD j 0 := by
    intro t htm
    rw [ht, List.concat_eq_append] at htm
    rcases List.mem_append.1 htm with h | h
    · exact Or.inl h
    · exact Or.inr (List.mem_singleton.1 h)
  refine ⟨?_, ?_, ?_, ?_⟩
  · intro t htm
    rw [hid]
    rcases hmem t htm with h | h
    · refine land_lor_right_zero (hdisj t (he_sub t h)) ?_
      by_contra hcon
      rw [land_eq_zero_iff] at hcon
      push_neg at hcon
      obtain ⟨k, hk1, hk2⟩ := hcon
      rw [Nat.testBit_land, Bool.and_eq_true] at hk2
      obtain ⟨hki, hkj⟩ := hk2
      have hcount := countP_two_eraseIdx (fun t => t.testBit k) tn.tensors i j hij hj
      have hpe : 0 < ((tn.tensors.eraseIdx j).eraseIdx i).countP
          (fun t => t.testBit k) := List.countP_pos_iff.2 ⟨t, h, hk1⟩
      have h2 := hinc k
      rw [hcount, if_pos hki, if_pos hkj] at h2
      omega
    · rw [h]
      exact xor_disjoint_child_id (hdisj _ hti_mem) (hdisj _ htj_mem)
  · intro b
    have hcount := countP_two_eraseIdx (fun t => t.testBit b) tn.tensors i j hij hj
    have h2 := hinc b
    have hcc : c.tensors.countP (fun t => t.testBit b) =
        ((tn.tensors.eraseIdx j).eraseIdx i).countP (fun t => t.testBit b) +
          (if (tn.tensors.getD i 0 ^^^ tn.tensors.getD j 0).testBit b then 1 else 0) := by
      rw [ht, List.concat_eq_append, List.countP_append, List.countP_cons,
        List.countP_nil]
      omega
    have hx : (tn.tensors.getD i 0 ^^^ tn.tensors.getD j 0).testBit b =
        ((tn.tensors.getD i 0).testBit b).xor ((tn.tensors.getD j 0).testBit b) :=
      Nat.testBit_xor _ _ _
    rw [hcc, hx]
    cases ha : (tn.tensors.getD i 0).testBit b <;>
      cases hb : (tn.tensors.getD j 0).testBit b <;>
      simp only [ha, hb, Bool.false_xor, Bool.true_xor, Bool.not_true,
        Bool.not_false, if_true, if_false] at hcount ⊢ <;>
      simp only [Bool.false_eq_true, if_true, if_false, ite_true, ite_false,
        reduceIte] at hcount ⊢ <;>
      omega
  · rw [hid]
    exact Nat.or_lt_two_pow hbid
      (lt_of_le_of_lt Nat.and_le_left (hbt _ hti_mem))
  · intro t htm
    rcases hmem t htm with h | h
    · exact hbt t (he_sub t h)
    · rw [h]
      exact Nat.xor_lt_two_pow (hbt _ hti_mem) (hbt _ htj_mem)

/-- A successful contraction on a state whose live tensors avoid the
contracted mask grows the popcount of `id` by the popcount of the newly
shared legs, which is at least one. -/
theorem contract_step_popcount {tn c : TensorNetwork} {i j : Nat} (hij : i < j)
    (hj : j < tn.tensors.length) (hdisj : disjointInv tn)
    (hbt : ∀ t ∈ tn.tensors, t < 2 ^ 64)
    (hc : tn.contract_tensors i j = some c) :
    countOnes c.id = countOnes tn.id +
      countOnes (tn.tensors.getD i 0 &&& tn.tensors.getD j 0) ∧
    1 ≤ countOnes (tn.tensors.getD i 0 &&& tn.tensors.getD j 0) := by
  obtain ⟨-, hid, -, -, hne, -⟩ := contract_tensors_some_elim hij hc
  have hi : i < tn.tensors.length := lt_trans hij hj
  have hti_mem : tn.tensors.getD i 0 ∈ tn.tensors := by
    rw [List.getD_eq_getElem _ 0 hi]; exact List.getElem_mem hi
  have hshared_lt : tn.tensors.getD i 0 &&& tn.tensors.getD j 0 < 2 ^ 64 :=
    lt_of_le_of_lt Nat.and_le_left (hbt _ hti_mem)
  have hdisj2 : tn.id &&& (tn.tensors.getD i 0 &&& tn.tensors.getD j 0) = 0 := by
    rw [Nat.land_comm]
    exact land_land_left_zero (hdisj _ hti_mem)
  constructor
  · rw [hid, countOnes_lor_of_disjoint hdisj2]
  · exact countOnes_pos hne hshared_lt

/-- The invariants propagate along any reachable chain, and the popcount of
`id` grows by at least one per step. -/
theorem reachN_good_popcount {n : Nat} {root tn : TensorNetwork}
    (h : ReachN n root tn) (hg : goodState root) :
    goodState tn ∧ countOnes root.id + n ≤ countOnes tn.id := by
  induction h with
  | refl _ => exact ⟨hg, by omega⟩
  | step _ hij hjlen hc ih =>
    obtain ⟨hgb, hcount⟩ := ih hg
    have hgc := contract_step_good hij hjlen hc hgb
    have hstep := contract_step_popcount hij hjlen hgb.1 hgb.2.2.2 hc
    exact ⟨hgc, by omega⟩

/-- C3 (amended): a contraction step grows `popcount(id)` by
`popcount(ti AND tj)`, the number of legs contracted in that step, which is
at least 1 but can exceed 1; consequently along a parent chain from a
validly-encoded root, `popcount(id)` is at least — rather than equal to —
the number of pair contractions performed. -/
theorem c3_popcount_growth :
    (∀ (tn c : TensorNetwork) (i j : Nat), i < j → j < tn.tensors.length →
      disjointInv tn → (∀ t ∈ tn.tensors, t < 2 ^ 64) →
      tn.contract_tensors i j = some c →
      countOnes c.id = countOnes tn.id +
        countOnes (tn.tensors.getD i 0 &&& tn.tensors.getD j 0) ∧
      1 ≤ countOnes (tn.tensors.getD i 0 &&& tn.tensors.getD j 0)) ∧
    (∀ (n : Nat) (root tn : TensorNetwork), ReachN n root tn → goodState root →
      countOnes root.id + n ≤ countOnes tn.id) :=
  ⟨fun _ _ _ _ hij hj hd hb hc => contract_step_popcount hij hj hd hb hc,
   fun _ _ _ h hg => (reachN_good_popcount h hg).2⟩

/-- Counterexample to C3 as stated: on the validly-encoded two-tensor
network with masks `[3, 3]` (both legs shared), a single contraction step
takes `popcount(id)` from 0 to 2 — not to 1. -/
theorem c3_counterexample :
    ((TensorNetwork.new [2, 2] [3, 3]).bind fun r => r.contract_tensors 0 1).map
      (fun c => (countOnes c.id, countOnes c.parent)) = some (2, 0) ∧
    (2 : Nat) ≠ 0 + 1 := by decide

/-- Witness for the amended C3 at the two-tensor network `[3, 5]` over
dimensions `[4, 3, 5]`: the single step contracts exactly one leg. -/
theorem c3_witness :
    countOnes (1 : Nat) = countOnes (0 : Nat) + countOnes ((3 : Nat) &&& 5) ∧
    1 ≤ countOnes ((3 : Nat) &&& 5) := by
  have h := c3_popcount_growth.1
    { legs_dim := [4, 3, 5], cpu := 0, mem := 32, id := 0, parent := 0,
      tensors := [3, 5], allows_outer := [true, true] }
    { legs_dim := [4, 3, 5], cpu := 60, mem := 52, id := 1, parent := 0,
      tensors := [6], allows_outer := [false] }
    0 1 (by decide) (by decide)
    (by intro t htm; exact Nat.and_zero t)
    (by decide) (by decide)
  exact h

/-! ### Greedy bounds exhaustive from above (claim C2) -/

theorem foldlM_option_inv {α β : Type} (P : β → Prop) (f : β → α → Option β)
    (hf : ∀ acc x acc', P acc → f acc x = some acc' → P acc') :
    ∀ (l : List α) (acc acc' : β), List.foldlM f acc l = some acc' → P acc → P acc' := by
  intro l
  induction l with
  | nil =>
    intro acc acc' h hp
    rw [List.foldlM_nil] at h
    have heq := Option.some.inj h
    exact heq ▸ hp
  | cons x xs ih =>
    intro acc acc' h hp
    rw [List.foldlM_cons] at h
    cases hfx : f acc x with
    | none => rw [hfx] at h; exact Option.noConfusion h
    | some b =>
      rw [hfx] at h
      simp only [Option.bind_eq_bind, Option.some_bind] at h
      exact ih b acc' h (hf acc x b hp hfx)

theorem processChild_cpu_le {n_c g B : Nat} {acc acc' : List GenMap × TensorNetwork}
    {child : TensorNetwork} (hp : acc.2.cpu ≤ B)
    (h : processChild n_c g acc child = some acc') : acc'.2.cpu ≤ B := by
  simp only [processChild] at h
  split at h
  · rename_i hlt
    split at h
    · have heq := Option.some.inj h
      rw [← heq]
      exact le_trans (le_of_lt hlt) hp
    · split at h
      · have heq := Option.some.inj h
        rw [← heq]
        exact hp
      · exact Option.noConfusion h
  · have heq := Option.some.inj h
    exact heq ▸ hp

theorem processParent_cpu_le {n_c g B : Nat} {acc acc' : List GenMap × TensorNetwork}
    {parent : TensorNetwork} (hp : acc.2.cpu ≤ B)
    (h : processParent n_c g acc parent = some acc') : acc'.2.cpu ≤ B := by
  simp only [processParent] at h
  split at h
  · exact foldlM_option_inv (fun a => a.2.cpu ≤ B) (processChild n_c g)
      (fun a x a' hpa hx => processChild_cpu_le hpa hx)
      parent.generate_children acc acc' h hp
  · have heq := Option.some.inj h
    exact heq ▸ hp

theorem processGeneration_cpu_le {n_c g B : Nat}
    {acc acc' : List GenMap × TensorNetwork} (hp : acc.2.cpu ≤ B)
    (h : processGeneration n_c acc g = some acc') : acc'.2.cpu ≤ B := by
  simp only [processGeneration] at h
  exact foldlM_option_inv (fun a => a.2.cpu ≤ B) (processParent n_c g)
    (fun a x a' hpa hx => processParent_cpu_le hpa hx)
    _ acc acc' h hp

/-- C2: whenever both searches return, the greedy result's `cpu` is an upper
bound for the exhaustive result's `cpu` — the exhaustive loop starts from
the greedy state as its incumbent best and only ever replaces it with a
strictly cheaper terminal state. -/
theorem c2_greedy_ge_exhaustive (ld ts : List Nat) (bc gc : Nat)
    (hex : (exhaustiveSearch ld ts).map (fun r => r.2.cpu) = some bc)
    (hg : (greedySearch ld ts).map (fun r => r.2.cpu) = some gc) :
    bc ≤ gc := by
  rw [Option.map_eq_some'] at hex hg
  obtain ⟨⟨sr, br⟩, hex1, hex2⟩ := hex
  obtain ⟨⟨sg, bg⟩, hg1, hg2⟩ := hg
  rw [exhaustiveSearch, hg1] at hex1
  simp only [Option.some_bind] at hex1
  cases hroot : TensorNetwork.new ld ts with
  | none =>
    rw [hroot] at hex1
    exact Option.noConfusion hex1
  | some root =>
    rw [hroot] at hex1
    simp only [Option.some_bind] at hex1
    by_cases hnc : ncOf ts = 0
    · rw [if_pos hnc] at hex1
      exact Option.noConfusion hex1
    · rw [if_neg hnc] at hex1
      cases hfold : (List.range (ncOf ts)).foldlM (processGeneration (ncOf ts))
          ((List.replicate (ncOf ts) []).set 0 [(0, root)], (sg, bg).2) with
      | none =>
        rw [hfold] at hex1
        exact Option.noConfusion hex1
      | some acc =>
        rw [hfold] at hex1
        simp only [Option.some_bind] at hex1
        cases hrec : reconstructLoop acc.1 65 acc.2.parent [acc.2.id, acc.2.parent] with
        | none =>
          rw [hrec] at hex1
          exact Option.noConfusion hex1
        | some seq =>
          rw [hrec] at hex1
          simp only [Option.map_some'] at hex1
          have heq := Option.some.inj hex1
          have hbr : acc.2 = br := congrArg Prod.snd heq
          have hinv := foldlM_option_inv
            (fun a : List GenMap × TensorNetwork => a.2.cpu ≤ bg.cpu)
            (processGeneration (ncOf ts))
            (fun a x a' hpa hx => processGeneration_cpu_le hpa hx)
            _ _ _ hfold (le_refl _)
          simp only at hex2 hg2
          rw [← hex2, ← hg2, ← hbr]
          exact hinv

/-- Witness for C2 at the two-tensor network (dimensions `[4,3,5]`, masks
`[3,5]`): both searches return cost 60, and the theorem yields `60 ≤ 60`. -/
theorem c2_witness :
    ((exhaustiveSearch [4, 3, 5] [3, 5]).map (fun r => r.2.cpu) = some 60) ∧
    ((greedySearch [4, 3, 5] [3, 5]).map (fun r => r.2.cpu) = some 60) ∧
    (60 : Nat) ≤ 60 :=
  ⟨by decide, by decide,
    c2_greedy_ge_exhaustive [4, 3, 5] [3, 5] 60 60 (by decide) (by decide)⟩

/-! ### The zero-open-leg slip (claim C1) -/

/-- C1 is a code bug: on the valid, connected input with tensors `[3, 3]`
over dimensions `[2, 2]` (two tensors sharing both legs, so the XOR of the
masks is 0), `C = 2 ≤ 64`, yet `(xor.count_zeros() - xor.leading_zeros())`
evaluates to 0 instead of the 2 the code comment promises.  Greedy then
stops at the root with `id = 0 ≠ (1 << 2) - 1 = 3`, and `exhaustive_search`
indexes `generation_maps[0]` in an empty vector — a panic, `none` in the
model — instead of terminating with the terminal state. -/
theorem c1_zero_open_legs_bug :
    isConnex [3, 3] = some true ∧
    ncOf [3, 3] = 0 ∧ (2 : Nat) ^ 2 - 1 = 3 ∧
    (greedySearch [2, 2] [3, 3]).map (fun r => (r.2.id, r.2.cpu)) = some (0, 0) ∧
    exhaustiveSearch [2, 2] [3, 3] = none := by
  refine ⟨by decide, by decide, by decide, by decide, ?_⟩
  decide

/-! ### The all-children-overflow panic (claim C6) -/

/-- C6 is a code bug: on the valid, connected input with tensors `[3, 5]`
over dimensions `[2^22, 2^22, 2^22]`, the root is constructible (each
tensor sizes to `2^44`), but the only pair's contraction costs `2^66`,
which overflows, so `contract_tensors` returns `none` and the children list
is empty; `greedy_search` then panics on `unwrap` of `min_by_key` (`none`
in the model) instead of discarding the overflow silently and completing
with `best` equal to the greedy result. -/
theorem c6_overflow_panic_bug :
    isConnex [3, 5] = some true ∧
    (TensorNetwork.new [2 ^ 22, 2 ^ 22, 2 ^ 22] [3, 5]).isSome = true ∧
    ((TensorNetwork.new [2 ^ 22, 2 ^ 22, 2 ^ 22] [3, 5]).map
      (fun r => r.contract_tensors 0 1)) = some none ∧
    ((TensorNetwork.new [2 ^ 22, 2 ^ 22, 2 ^ 22] [3, 5]).map
      (fun r => r.generate_children)) = some [] ∧
    greedySearch [2 ^ 22, 2 ^ 22, 2 ^ 22] [3, 5] = none ∧
    exhaustiveSearch [2 ^ 22, 2 ^ 22, 2 ^ 22] [3, 5] = none := by
  refine ⟨by decide, by decide, by decide, by decide, by decide, ?_⟩
  decide

/-! ### Connectivity check (claim C8) -/

theorem connectedFrom_mem {r : List Nat} {a b : Nat}
    (h : Relation.TransGen (connexEdge r) a b) : b ∈ r := by
  induction h with
  | single h1 => exact h1.1
  | tail _ h2 _ => exact h2.1

theorem connexAux_sound (r : List Nat) (start : Nat) :
    ∀ (fuel : Nat) (tr tv : List Nat),
      (∀ x ∈ tr, x ∈ r) →
      (∀ t ∈ tv, t = start ∨ ConnectedFrom r start t) →
      connexAux fuel tr tv = true → ∀ v ∈ tr, ConnectedFrom r start v := by
  intro fuel
  induction fuel with
  | zero =>
    intro tr tv _ _ h
    exact absurd h (by simp [connexAux])
  | succ f ih =>
    intro tr tv htr htv h v hv
    cases tv with
    | nil => simp [connexAux] at h
    | cons t rest =>
      simp only [connexAux] at h
      have hreach_matched : ∀ m ∈ tr.filter (fun x => t &&& x ≠ 0),
          ConnectedFrom r start m := by
        intro m hmm
        rw [List.mem_filter] at hmm
        have hedge : connexEdge r t m := ⟨htr m hmm.1, by simpa using hmm.2⟩
        rcases htv t (List.mem_cons_self t rest) with h1 | h1
        · exact Relation.TransGen.single (h1 ▸ hedge)
        · exact h1.tail hedge
      by_cases hcase : ((tr.filter (fun x => t &&& x = 0)).isEmpty &&
          !(tr.filter (fun x => t &&& x ≠ 0)).isEmpty) = true
      · rw [Bool.and_eq_true, List.isEmpty_iff] at hcase
        by_cases hv0 : t &&& v = 0
        · have hvr : v ∈ tr.filter (fun x => t &&& x = 0) := by
            rw [List.mem_filter]
            exact ⟨hv, by simpa using hv0⟩
          rw [hcase.1] at hvr
          exact absurd hvr (List.not_mem_nil v)
        · exact hreach_matched v (by rw [List.mem_filter]; exact ⟨hv, by simpa using hv0⟩)
      · rw [if_neg hcase] at h
        have hsub : ∀ x ∈ tr.filter (fun x => t &&& x = 0), x ∈ r := fun x hx =>
          htr x (List.mem_filter.1 hx).1
        have hvisit : ∀ t' ∈ tr.filter (fun x => t &&& x ≠ 0) ++ rest,
            t' = start ∨ ConnectedFrom r start t' := by
          intro t' ht'
          rcases List.mem_append.1 ht' with h1 | h1
          · exact Or.inr (hreach_matched t' h1)
          · exact htv t' (List.mem_cons_of_mem t h1)
        have hrec := ih _ _ hsub hvisit h
        by_cases hv0 : t &&& v = 0
        · exact hrec v (by rw [List.mem_filter]; exact ⟨hv, by simpa using hv0⟩)
        · exact hreach_matched v (by rw [List.mem_filter]; exact ⟨hv, by simpa using hv0⟩)

theorem chain_transfer {t : Nat} {tr : List Nat} {t0 v : Nat}
    (h : Relation.TransGen (connexEdge tr) t0 v) :
    v ∈ tr.filter (fun x => t &&& x = 0) →
    (∃ m ∈ tr.filter (fun x => t &&& x ≠ 0),
      Relation.TransGen (connexEdge (tr.filter (fun x => t &&& x = 0))) m v) ∨
    (t0 ≠ t ∧
      Relation.TransGen (connexEdge (tr.filter (fun x => t &&& x = 0))) t0 v) := by
  induction h with
  | single hedge =>
    intro hv
    by_cases ht0 : t0 = t
    · subst ht0
      have hv2 := (List.mem_filter.1 hv).2
      simp only [decide_eq_true_eq] at hv2
      exact absurd hv2 hedge.2
    · exact Or.inr ⟨ht0, Relation.TransGen.single ⟨hv, hedge.2⟩⟩
  | tail h1 hedge ih =>
    intro hv
    rename_i b c
    by_cases hbt : t &&& b = 0
    · have hbr : b ∈ tr.filter (fun x => t &&& x = 0) := by
        rw [List.mem_filter]
        exact ⟨connectedFrom_mem h1, by simpa using hbt⟩
      rcases ih hbr with ⟨m, hmm, hc⟩ | ⟨hne, hc⟩
      · exact Or.inl ⟨m, hmm, hc.tail ⟨hv, hedge.2⟩⟩
      · exact Or.inr ⟨hne, hc.tail ⟨hv, hedge.2⟩⟩
    · have hbm : b ∈ tr.filter (fun x => t &&& x ≠ 0) := by
        rw [List.mem_filter]
        exact ⟨connectedFrom_mem h1, by simpa using hbt⟩
      exact Or.inl ⟨b, hbm, Relation.TransGen.single ⟨hv, hedge.2⟩⟩

theorem length_filter_split (t : Nat) (l : List Nat) :
    (l.filter fun x => t &&& x ≠ 0).length +
      (l.filter fun x => t &&& x = 0).length = l.length := by
  induction l with
  | nil => rfl
  | cons a as ih =>
    rw [List.filter_cons, List.filter_cons]
    by_cases h : t &&& a = 0
    · rw [if_neg (by simp [h]), if_pos (by simp [h])]
      simp only [List.length_cons]
      omega
    · rw [if_pos (by simp [h]), if_neg (by simp [h])]
      simp only [List.length_cons]
      omega

theorem connexAux_complete :
    ∀ (fuel : Nat) (tr tv : List Nat), tr.length + tv.length < fuel →
      (∀ v ∈ tr, ∃ t0 ∈ tv, Relation.TransGen (connexEdge tr) t0 v) →
      tr ≠ [] → connexAux fuel tr tv = true := by
  intro fuel
  induction fuel with
  | zero =>
    intro tr tv hf
    exact absurd hf (Nat.not_lt_zero _)
  | succ f ih =>
    intro tr tv hf hre htr
    cases tv with
    | nil =>
      obtain ⟨v, hv⟩ := List.exists_mem_of_ne_nil tr htr
      obtain ⟨t0, ht0, -⟩ := hre v hv
      exact absurd ht0 (List.not_mem_nil t0)
    | cons t rest =>
      simp only [connexAux]
      by_cases hcase : ((tr.filter (fun x => t &&& x = 0)).isEmpty &&
          !(tr.filter (fun x => t &&& x ≠ 0)).isEmpty) = true
      · rw [if_pos hcase]
      · rw [if_neg hcase]
        by_cases hre0 : tr.filter (fun x => t &&& x = 0) = []
        · have hmatched : tr.filter (fun x => t &&& x ≠ 0) = [] := by
            by_contra hne
            apply hcase
            rw [Bool.and_eq_true, List.isEmpty_iff]
            refine ⟨hre0, ?_⟩
            cases hemp : (tr.filter (fun x => t &&& x ≠ 0)).isEmpty with
            | false => rfl
            | true => exact absurd (List.isEmpty_iff.1 hemp) hne
          have hnil : tr = [] := by
            rw [List.eq_nil_iff_forall_not_mem]
            intro a ha
            by_cases h0 : t &&& a = 0
            · have : a ∈ tr.filter (fun x => t &&& x = 0) := by
                rw [List.mem_filter]; exact ⟨ha, by simpa using h0⟩
              rw [hre0] at this
              exact List.not_mem_nil a this
            · have : a ∈ tr.filter (fun x => t &&& x ≠ 0) := by
                rw [List.mem_filter]; exact ⟨ha, by simpa using h0⟩
              rw [hmatched] at this
              exact List.not_mem_nil a this
          exact absurd hnil htr
        · apply ih
          · have hsplit := length_filter_split t tr
            rw [List.length_append]
            simp only [List.length_cons] at hf
            omega
          · intro v hv
            obtain ⟨t0, ht0, hchain⟩ := hre v (List.mem_filter.1 hv).1
            rcases chain_transfer hchain hv with ⟨m, hmm, hc⟩ | ⟨hne, hc⟩
            · exact ⟨m, List.mem_append.2 (Or.inl hmm), hc⟩
            · have hrest : t0 ∈ rest := by
                rcases List.mem_cons.1 ht0 with h1 | h1
                · exact absurd h1 hne
                · exact h1
              exact ⟨t0, List.mem_append.2 (Or.inr hrest), hc⟩
          · exact hre0

/-- C8 (amended): for a one-tensor list `is_connex` returns `false` — not
`true` — because the emptiness check of the flood fill only runs after a
removal; for every list whose `dropLast` is nonempty, the check succeeds if
and only if every tensor of `dropLast` is reachable from the flood-fill
start (the last tensor) through a chain of tensors sharing at least one
bit, i.e. it fails exactly when some tensor is unreachable. -/
theorem c8_connex_corrected (l : List Nat) (hl : l ≠ []) :
    (l.length = 1 → isConnex l = some false) ∧
    (l.dropLast ≠ [] →
      (isConnex l = some true ↔
        ∀ v ∈ l.dropLast, ConnectedFrom l.dropLast (l.getLastD 0) v)) := by
  obtain ⟨x, hx⟩ : ∃ x, l.getLast? = some x := by
    cases hlx : l.getLast? with
    | none => exact absurd (List.getLast?_eq_none_iff.1 hlx) hl
    | some y => exact ⟨y, rfl⟩
  have hxD : l.getLastD 0 = x := by
    rw [List.getLastD_eq_getLast?, hx]
    rfl
  have hic : isConnex l = some (connexAux (2 * l.length + 1) l.dropLast [x]) := by
    rw [isConnex, hx, Option.map_some']
  constructor
  · intro h1
    have hdrop : l.dropLast = [] := by
      have := List.length_dropLast l
      rw [h1] at this
      exact List.eq_nil_of_length_eq_zero this
    rw [hic, hdrop, h1]
    rfl
  · intro hdne
    rw [hic, hxD]
    constructor
    · intro htrue v hv
      have hs := Option.some.inj htrue
      exact connexAux_sound l.dropLast x _ l.dropLast [x] (fun y hy => hy)
        (fun t ht => Or.inl (List.mem_singleton.1 ht)) hs v hv
    · intro hall
      congr 1
      apply connexAux_complete
      · have := List.length_dropLast l
        have hpos : 1 ≤ l.length := by
          cases l with
          | nil => exact absurd rfl hl
          | cons a as => simp
        simp only [List.length_singleton]
        omega
      · intro v hv
        exact ⟨x, List.mem_singleton.2 rfl, hall v hv⟩
      · exact hdne

/-- Counterexample to C8 as stated: `is_connex` on the one-tensor list `[5]`
returns `false`, not `true`. -/
theorem c8_counterexample :
    isConnex [5] = some false ∧ isConnex [5] ≠ some true := by decide

/-- Witness for the amended C8 at the connected two-tensor list `[3, 5]`:
the flood fill starts at `5`, reaches `3`, and the check succeeds. -/
theorem c8_witness : isConnex [3, 5] = some true := by
  apply ((c8_connex_corrected [3, 5] (by decide)).2 (by decide)).mpr
  intro v hv
  have hv3 : v = 3 := by simpa using hv
  subst hv3
  exact Relation.TransGen.single ⟨by decide, by decide⟩

/-! ### Bit ordering of the encoder (claim C9) -/

theorem legKeyLe_total (alllegs : List Int) (a b : Int) :
    legKeyLe alllegs a b ∨ legKeyLe alllegs b a := by
  cases ha : labelOnce alllegs a <;> cases hb : labelOnce alllegs b
  · rcases le_total (rustAbsI8 a) (rustAbsI8 b) with h | h
    · exact Or.inl (Or.inr ⟨by rw [ha, hb], h⟩)
    · exact Or.inr (Or.inr ⟨by rw [ha, hb], h⟩)
  · exact Or.inl (Or.inl ⟨ha, hb⟩)
  · exact Or.inr (Or.inl ⟨hb, ha⟩)
  · rcases le_total (rustAbsI8 a) (rustAbsI8 b) with h | h
    · exact Or.inl (Or.inr ⟨by rw [ha, hb], h⟩)
    · exact Or.inr (Or.inr ⟨by rw [ha, hb], h⟩)

theorem legKeyLe_trans (alllegs : List Int) (a b c : Int)
    (h1 : legKeyLe alllegs a b) (h2 : legKeyLe alllegs b c) :
    legKeyLe alllegs a c := by
  rcases h1 with ⟨ha1, hb1⟩ | ⟨hab, hle1⟩
  · rcases h2 with ⟨hb2, hc2⟩ | ⟨hbc, hle2⟩
    · rw [hb1] at hb2
      exact Bool.noConfusion hb2
    · exact Or.inl ⟨ha1, hbc ▸ hb1⟩
  · rcases h2 with ⟨hb2, hc2⟩ | ⟨hbc, hle2⟩
    · exact Or.inl ⟨hab.trans hb2, hc2⟩
    · exact Or.inr ⟨hab.trans hbc, le_trans hle1 hle2⟩

/-- C9 (amended): for every input whose labels avoid `i8::MIN = -128` —
where `i8::abs` misbehaves — the sorted label list places every contracted
label before every open label, and within each group the true absolute
values are non-decreasing along positions.  `specLe` states exactly that
pairwise property; the quantification over the unsorted `labels` list
covers every iteration order of the `legs_map` hash keys. -/
theorem c9_sort_corrected (alllegs labels : List Int)
    (h128 : (-128 : Int) ∉ labels) :
    List.Pairwise (specLe alllegs) (sortLegs alllegs labels) := by
  haveI : IsTotal Int (legKeyLe alllegs) := ⟨legKeyLe_total alllegs⟩
  haveI : IsTrans Int (legKeyLe alllegs) := ⟨legKeyLe_trans alllegs⟩
  have hsorted := List.sorted_insertionSort (legKeyLe alllegs) labels
  have hperm := List.perm_insertionSort (legKeyLe alllegs) labels
  refine List.Pairwise.imp_of_mem ?_ hsorted
  intro a b ha hb hr
  have ha' : a ∈ labels := hperm.mem_iff.1 ha
  have hb' : b ∈ labels := hperm.mem_iff.1 hb
  have hra : rustAbsI8 a = (a.natAbs : Int) := by
    rw [rustAbsI8, if_neg (fun hc : a = -128 => h128 (hc ▸ ha'))]
  have hrb : rustAbsI8 b = (b.natAbs : Int) := by
    rw [rustAbsI8, if_neg (fun hc : b = -128 => h128 (hc ▸ hb'))]
  rcases hr with ⟨h1, h2⟩ | ⟨h1, h2⟩
  · exact Or.inl ⟨h1, h2⟩
  · refine Or.inr ⟨h1, ?_⟩
    rw [hra, hrb] at h2
    exact_mod_cast h2

/-- Counterexample to C9 as stated: with tensors carrying legs
`[[1, -128], [1, -1]]` (a valid input: `1` is contracted, `-128` and `-1`
are open), the key of `-128` is its wrapped absolute value `-128`, so every
hash iteration order sorts the labels to `[1, -128, -1]`, which violates
the claimed within-group ordering by absolute value (`128 > 1` yet `-128`
sits before `-1`). -/
theorem c9_counterexample :
    sortLegs [1, -128, 1, -1] [1, -128, -1] = [1, -128, -1] ∧
    sortLegs [1, -128, 1, -1] [1, -1, -128] = [1, -128, -1] ∧
    sortLegs [1, -128, 1, -1] [-128, 1, -1] = [1, -128, -1] ∧
    sortLegs [1, -128, 1, -1] [-128, -1, 1] = [1, -128, -1] ∧
    sortLegs [1, -128, 1, -1] [-1, 1, -128] = [1, -128, -1] ∧
    sortLegs [1, -128, 1, -1] [-1, -128, 1] = [1, -128, -1] ∧
    ¬ List.Pairwise (specLe [1, -128, 1, -1]) [1, -128, -1] := by decide

/-- Witness for the amended C9 on a `-128`-free input with contracted
labels `1, 2` and open label `-1`. -/
theorem c9_witness :
    ((-128 : Int) ∉ ([1, 2, -1] : List Int)) ∧
    List.Pairwise (specLe [1, 2, 1, -1, 2]) (sortLegs [1, 2, 1, -1, 2] [1, 2, -1]) :=
  ⟨by decide, c9_sort_corrected [1, 2, 1, -1, 2] [1, 2, -1] (by decide)⟩

/-! ### Association-list and table helpers -/

theorem lookup_mem {l : List (Nat × TensorNetwork)} {k : Nat} {v : TensorNetwork}
    (h : l.lookup k = some v) : (k, v) ∈ l := by
  induction l with
  | nil => exact Option.noConfusion h
  | cons e rest ih =>
    rw [List.lookup] at h
    split at h
    · rename_i hbeq
      have hk : k = e.1 := by simpa using hbeq
      have hv := Option.some.inj h
      rw [hk, ← hv]
      simp
    · exact List.mem_cons_of_mem _ (ih h)

theorem lookup_of_mem_nodup {l : List (Nat × TensorNetwork)} {k : Nat}
    {v : TensorNetwork} (hn : (l.map Prod.fst).Nodup) (h : (k, v) ∈ l) :
    l.lookup k = some v := by
  induction l with
  | nil => exact absurd h (List.not_mem_nil _)
  | cons e rest ih =>
    rw [List.map_cons, List.nodup_cons] at hn
    rcases List.mem_cons.1 h with h1 | h1
    · rw [← h1, List.lookup]
      simp
    · have hk : (k == e.1) = false := by
        rw [beq_eq_false_iff_ne]
        intro hkk
        exact hn.1 (hkk ▸ List.mem_map.2 ⟨(k, v), h1, rfl⟩)
      rw [List.lookup, hk]
      exact ih hn.2 h1

theorem lookup_none_of_not_mem_keys {l : List (Nat × TensorNetwork)} {k : Nat}
    (h : k ∉ l.map Prod.fst) : l.lookup k = none := by
  induction l with
  | nil => rfl
  | cons e rest ih =>
    rw [List.map_cons, List.mem_cons] at h
    push_neg at h
    have hk : (k == e.1) = false := by
      rw [beq_eq_false_iff_ne]
      exact h.1
    rw [List.lookup, hk]
    exact ih h.2

theorem keys_of_lookup_some {l : List (Nat × TensorNetwork)} {k : Nat}
    {v : TensorNetwork} (h : l.lookup k = some v) : k ∈ l.map Prod.fst :=
  List.mem_map.2 ⟨(k, v), lookup_mem h, rfl⟩

theorem getD_set_self {l : List GenMap} {i : Nat} (v : GenMap)
    (h : i < l.length) : (l.set i v).getD i [] = v := by
  rw [List.getD_eq_getElem _ _ (by rw [List.length_set]; exact h)]
  exact List.getElem_set_self _

theorem getD_set_ne {l : List GenMap} {i k : Nat} (v : GenMap) (h : i ≠ k) :
    (l.set i v).getD k [] = l.getD k [] := by
  by_cases hk : k < l.length
  · rw [List.getD_eq_getElem _ _ (by rw [List.length_set]; exact hk),
      List.getD_eq_getElem _ _ hk]
    exact List.getElem_set_ne h _
  · rw [List.getD_eq_default _ _ (by rw [List.length_set]; omega),
      List.getD_eq_default _ _ (by omega)]

/-! ### Characterizing the children list -/

theorem mem_generate_children {tn c : TensorNetwork} :
    c ∈ tn.generate_children ↔ Generates tn c := by
  rw [TensorNetwork.generate_children, Generates]
  constructor
  · intro h
    obtain ⟨i, hi, hc⟩ := List.mem_flatMap.1 h
    obtain ⟨j, hj, hcj⟩ := List.mem_filterMap.1 hc
    rw [List.mem_range] at hi
    have hj2 : i + 1 ≤ j ∧ j < tn.tensors.length := by
      obtain ⟨m, hm, rfl⟩ := List.mem_drop_iff_getElem.1 hj
      rw [List.getElem_range]
      constructor
      · omega
      · have := List.length_range tn.tensors.length ▸ hm
        omega
    exact ⟨i, j, by omega, hj2.2, hcj⟩
  · rintro ⟨i, j, hij, hj, hc⟩
    apply List.mem_flatMap.2
    refine ⟨i, List.mem_range.2 (lt_trans hij hj), ?_⟩
    apply List.mem_filterMap.2
    refine ⟨j, ?_, hc⟩
    have hlen : (List.range tn.tensors.length).length = tn.tensors.length :=
      List.length_range _
    apply List.mem_drop_iff_getElem.2
    refine ⟨j - (i + 1), by omega, ?_⟩
    rw [List.getElem_range]
    omega

/-! ### Uniqueness of the decoded pair -/

theorem exists_testBit_of_ne_zero {n : Nat} (h : n ≠ 0) :
    ∃ b, n.testBit b = true := by
  by_contra hc
  push_neg at hc
  apply h
  apply Nat.eq_of_testBit_eq
  intro i
  rw [Nat.zero_testBit]
  cases ht : n.testBit i with
  | false => rfl
  | true => exact absurd ht (hc i)

theorem three_le_countP (p : Nat → Bool) (l : List Nat) {a b c : Nat}
    (hab : a < b) (hbc : b < c) (hc : c < l.length)
    (pa : p (l.getD a 0) = true) (pb : p (l.getD b 0) = true)
    (pc : p (l.getD c 0) = true) : 3 ≤ l.countP p := by
  have hb : b < l.length := lt_trans hbc hc
  have ha : a < l.length := lt_trans hab hb
  have hcount := countP_two_eraseIdx p l a c (lt_trans hab hbc) hc
  have hlen1 : (l.eraseIdx c).length = l.length - 1 := by
    rw [List.length_eraseIdx]
    simp [hc]
  have hb1 : b < (l.eraseIdx c).length := by omega
  have he1 : (l.eraseIdx c)[b] = l[b] := by
    rw [List.getElem_eraseIdx]
    exact dif_pos hbc
  have hlen2 : ((l.eraseIdx c).eraseIdx a).length = l.length - 2 := by
    rw [List.length_eraseIdx, hlen1, if_pos (show a < l.length - 1 by omega)]
    omega
  have hb2 : b - 1 < ((l.eraseIdx c).eraseIdx a).length := by omega
  have hb1' : b - 1 + 1 = b := by omega
  have he2 : ((l.eraseIdx c).eraseIdx a)[b - 1] = (l.eraseIdx c)[b] := by
    rw [List.getElem_eraseIdx, dif_neg (by omega)]
    simp only [hb1']
  have hmem : l[b] ∈ (l.eraseIdx c).eraseIdx a := by
    rw [← he1, ← he2]
    exact List.getElem_mem _
  have hpos : 0 < ((l.eraseIdx c).eraseIdx a).countP p := by
    apply List.countP_pos_iff.2
    refine ⟨l[b], hmem, ?_⟩
    rw [List.getD_eq_getElem _ 0 hb] at pb
    exact pb
  rw [hcount, if_pos pa, if_pos pc]
  omega

theorem three_distinct_le_countP (p : Nat → Bool) (l : List Nat) (x y z : Nat)
    (hxy : x ≠ y) (hxz : x ≠ z) (hyz : y ≠ z)
    (hx : x < l.length) (hy : y < l.length) (hz : z < l.length)
    (px : p (l.getD x 0) = true) (py : p (l.getD y 0) = true)
    (pz : p (l.getD z 0) = true) : 3 ≤ l.countP p := by
  rcases Nat.lt_trichotomy x y with h1 | h1 | h1
  · rcases Nat.lt_trichotomy y z with h2 | h2 | h2
    · exact three_le_countP p l h1 h2 hz px py pz
    · exact absurd h2 hyz
    · rcases Nat.lt_trichotomy x z with h3 | h3 | h3
      · exact three_le_countP p l h3 h2 hy px pz py
      · exact absurd h3 hxz
      · exact three_le_countP p l h3 h1 hy pz px py
  · exact absurd h1 hxy
  · rcases Nat.lt_trichotomy x z with h2 | h2 | h2
    · exact three_le_countP p l h1 h2 hz py px pz
    · exact absurd h2 hxz
    · rcases Nat.lt_trichotomy y z with h3 | h3 | h3
      · exact three_le_countP p l h3 h2 hx py pz px
      · exact absurd h3 hyz
      · exact three_le_countP p l h3 h1 hx pz py px

theorem pair_unique {tn : TensorNetwork} (hinc : incidenceInv tn)
    {i j i' j' b : Nat} (hij : i < j) (hj : j < tn.tensors.length)
    (hij' : i' < j') (hj' : j' < tn.tensors.length)
    (hbi : (tn.tensors.getD i 0).testBit b = true)
    (hbj : (tn.tensors.getD j 0).testBit b = true)
    (hbi' : (tn.tensors.getD i' 0).testBit b = true)
    (hbj' : (tn.tensors.getD j' 0).testBit b = true) :
    i' = i ∧ j' = j := by
  have h2 := hinc b
  have hi : i < tn.tensors.length := lt_trans hij hj
  have hi' : i' < tn.tensors.length := lt_trans hij' hj'
  have hmem_i' : i' = i ∨ i' = j := by
    by_contra hcon
    push_neg at hcon
    have h3 := three_distinct_le_countP (fun t => t.testBit b) tn.tensors i j i'
      (Nat.ne_of_lt hij) (fun h => hcon.1 h.symm) (fun h => hcon.2 h.symm)
      hi hj hi' hbi hbj hbi'
    omega
  have hmem_j' : j' = i ∨ j' = j := by
    by_contra hcon
    push_neg at hcon
    have h3 := three_distinct_le_countP (fun t => t.testBit b) tn.tensors i j j'
      (Nat.ne_of_lt hij) (fun h => hcon.1 h.symm) (fun h => hcon.2 h.symm)
      hi hj hj' hbi hbj hbj'
    omega
  rcases hmem_i' with h4 | h4 <;> rcases hmem_j' with h5 | h5 <;> omega

/-! ### The replay of a recorded chain -/

theorem findPair_some_spec {tn : TensorNetwork} {legs : Nat} {p : Nat × Nat}
    (h : findPair tn legs = some p) :
    p.1 < p.2 ∧ p.2 < tn.tensors.length ∧
      tn.tensors.getD p.1 0 &&& tn.tensors.getD p.2 0 = legs := by
  obtain ⟨i, hi, hinner⟩ := List.exists_of_findSome?_eq_some h
  obtain ⟨j, hj, hif⟩ := List.exists_of_findSome?_eq_some hinner
  by_cases hcond : tn.tensors.getD i 0 &&& tn.tensors.getD j 0 = legs
  · rw [if_pos hcond] at hif
    have hp := Option.some.inj hif
    rw [← hp]
    rw [List.mem_range] at hi
    obtain ⟨m, hm, hjeq⟩ := List.mem_drop_iff_getElem.1 hj
    rw [List.getElem_range] at hjeq
    have hmlen := List.length_range tn.tensors.length ▸ hm
    exact ⟨by omega, by omega, by rw [← hjeq] at hcond ⊢; exact hcond⟩
  · rw [if_neg hcond] at hif
    exact Option.noConfusion hif

theorem findPair_isSome_of_exists {tn : TensorNetwork} {legs i j : Nat}
    (hij : i < j) (hj : j < tn.tensors.length)
    (hshared : tn.tensors.getD i 0 &&& tn.tensors.getD j 0 = legs) :
    ∃ p, findPair tn legs = some p := by
  cases hfp : findPair tn legs with
  | some p => exact ⟨p, rfl⟩
  | none =>
    exfalso
    rw [findPair, List.findSome?_eq_none_iff] at hfp
    have h1 := hfp i (List.mem_range.2 (lt_trans hij hj))
    rw [List.findSome?_eq_none_iff] at h1
    have hjmem : j ∈ (List.range tn.tensors.length).drop (i + 1) := by
      apply List.mem_drop_iff_getElem.2
      have hlen : (List.range tn.tensors.length).length = tn.tensors.length :=
        List.length_range _
      refine ⟨j - (i + 1), by omega, ?_⟩
      rw [List.getElem_range]
      omega
    have h2 := h1 j hjmem
    rw [if_pos hshared] at h2
    exact Option.noConfusion h2

theorem xor_lor_cancel {a s : Nat} (hdisj : a &&& s = 0) : a ^^^ (a ||| s) = s := by
  apply Nat.eq_of_testBit_eq
  intro k
  rw [Nat.testBit_xor, Nat.testBit_lor]
  have hk := (land_eq_zero_iff a s).1 hdisj k
  cases ha : a.testBit k <;> cases hs : s.testBit k <;> simp_all

theorem replayStep_of_generates {tn c : TensorNetwork} (hg : goodState tn)
    (hgen : Generates tn c) : replayStep tn c.id = some c := by
  obtain ⟨i, j, hij, hj, hc⟩ := hgen
  obtain ⟨-, hid, -, -, hne, -⟩ := contract_tensors_some_elim hij hc
  have hi : i < tn.tensors.length := lt_trans hij hj
  have hti_mem : tn.tensors.getD i 0 ∈ tn.tensors := by
    rw [List.getD_eq_getElem _ 0 hi]
    exact List.getElem_mem hi
  have hdisj : tn.id &&& (tn.tensors.getD i 0 &&& tn.tensors.getD j 0) = 0 := by
    rw [Nat.land_comm]
    exact land_land_left_zero (hg.1 _ hti_mem)
  have hdel : tn.id ^^^ c.id = tn.tensors.getD i 0 &&& tn.tensors.getD j 0 := by
    rw [hid]
    exact xor_lor_cancel hdisj
  rw [replayStep, hdel]
  obtain ⟨p, hp⟩ := findPair_isSome_of_exists hij hj rfl
  obtain ⟨hp1, hp2, hp3⟩ := findPair_some_spec hp
  obtain ⟨b, hb⟩ := exists_testBit_of_ne_zero hne
  rw [Nat.testBit_land, Bool.and_eq_true] at hb
  have hbp : (tn.tensors.getD p.1 0).testBit b = true ∧
      (tn.tensors.getD p.2 0).testBit b = true := by
    have h5 := congrArg (fun x => Nat.testBit x b) hp3
    simp only [Nat.testBit_land] at h5
    rw [hb.1, hb.2] at h5
    simpa using h5
  have huniq := pair_unique hg.2.1 hij hj hp1 hp2 hb.1 hb.2 hbp.1 hbp.2
  rw [hp]
  simp only [Option.some_bind]
  rw [huniq.1, huniq.2]
  exact hc

theorem genChain_reaches {root tn : TensorNetwork} {ms : List Nat}
    (h : GenChain root tn ms) : Reaches root tn := by
  induction h with
  | nil => exact ⟨0, ReachN.refl root⟩
  | snoc hch hgen ih =>
    obtain ⟨n, hn⟩ := ih
    obtain ⟨i, j, hij, hj, hc⟩ := hgen
    exact ⟨n + 1, ReachN.step hn hij hj hc⟩

theorem reaches_good {root tn : TensorNetwork} (h : Reaches root tn)
    (hg : goodState root) : goodState tn := by
  obtain ⟨n, hn⟩ := h
  exact (reachN_good_popcount hn hg).1

theorem replay_nil (tn : TensorNetwork) : replay tn [] = some tn := rfl

theorem replay_cons (tn : TensorNetwork) (m : Nat) (rest : List Nat) :
    replay tn (m :: rest) = (replayStep tn m).bind fun c => replay c rest := rfl

theorem replay_append (tn : TensorNetwork) (l1 l2 : List Nat) :
    replay tn (l1 ++ l2) = (replay tn l1).bind fun c => replay c l2 := by
  induction l1 generalizing tn with
  | nil => simp [replay]
  | cons m rest ih =>
    rw [List.cons_append, replay_cons, replay_cons]
    cases h : replayStep tn m with
    | none => rfl
    | some c =>
      simp only [Option.some_bind]
      exact ih c

theorem genChain_replay {root tn : TensorNetwork} {ms : List Nat}
    (hgr : goodState root) (h : GenChain root tn ms) :
    replay root ms = some tn := by
  induction h with
  | nil => rfl
  | snoc hch hgen ih =>
    rw [List.concat_eq_append, replay_append, ih]
    simp only [Option.some_bind]
    rw [replay_cons,
      replayStep_of_generates (reaches_good (genChain_reaches hch) hgr) hgen]
    simp only [Option.some_bind]
    rfl

/-! ### Fold invariants of the main loop of the exhaustive search -/

theorem foldlM_option_inv_mem {α β : Type} (P : β → Prop) (f : β → α → Option β) :
    ∀ l : List α,
      (∀ acc x acc', x ∈ l → P acc → f acc x = some acc' → P acc') →
      ∀ acc acc' : β, List.foldlM f acc l = some acc' → P acc → P acc' := by
  intro l
  induction l with
  | nil =>
    intro _ acc acc' h hp
    rw [List.foldlM_nil] at h
    exact (Option.some.inj h) ▸ hp
  | cons x xs ih =>
    intro hf acc acc' h hp
    rw [List.foldlM_cons] at h
    cases hfx : f acc x with
    | none => rw [hfx] at h; exact Option.noConfusion h
    | some b =>
      rw [hfx] at h
      simp only [Option.bind_eq_bind, Option.some_bind] at h
      exact ih (fun a y a' hy => hf a y a' (List.mem_cons_of_mem _ hy)) b acc' h
        (hf acc x b (List.mem_cons_self _ _) hp hfx)

theorem lookup_isSome_of_mem_keys {l : List (Nat × TensorNetwork)} {k : Nat}
    (h : k ∈ l.map Prod.fst) : ∃ v, l.lookup k = some v := by
  induction l with
  | nil => exact absurd h (by simp)
  | cons e rest ih =>
    rw [List.map_cons, List.mem_cons] at h
    by_cases hk : k = e.1
    · refine ⟨e.2, ?_⟩
      rw [List.lookup, beq_iff_eq.2 hk]
    · rcases h with h1 | h1
      · exact absurd h1 hk
      · obtain ⟨v, hv⟩ := ih h1
        refine ⟨v, ?_⟩
        rw [List.lookup, beq_eq_false_iff_ne.2 hk]
        exact hv

theorem insertChild_mem {m : GenMap} {child : TensorNetwork}
    {e : Nat × TensorNetwork} (h : e ∈ insertChild m child) :
    e ∈ m ∨ e = (child.id, child) := by
  unfold insertChild at h
  split at h
  · rw [List.concat_eq_append, List.mem_append] at h
    rcases h with h1 | h1
    · exact Or.inl h1
    · exact Or.inr (List.mem_singleton.1 h1)
  · split at h
    · obtain ⟨kv, hkv, hekv⟩ := List.mem_map.1 h
      by_cases hk : kv.1 = child.id
      · rw [if_pos hk] at hekv
        exact Or.inr hekv.symm
      · rw [if_neg hk] at hekv
        exact Or.inl (hekv ▸ hkv)
    · exact Or.inl h

theorem insertChild_keys (m : GenMap) (child : TensorNetwork) :
    (insertChild m child).map Prod.fst = m.map Prod.fst ∨
    ((insertChild m child).map Prod.fst = (m.map Prod.fst).concat child.id ∧
      child.id ∉ m.map Prod.fst) := by
  unfold insertChild
  split
  · rename_i heq
    right
    constructor
    · rw [List.concat_eq_append, List.concat_eq_append, List.map_append]
      rfl
    · intro hmem
      obtain ⟨v, hv⟩ := lookup_isSome_of_mem_keys hmem
      rw [hv] at heq
      exact Option.noConfusion heq
  · split
    · left
      rw [List.map_map]
      apply List.map_congr_left
      intro kv _
      simp only [Function.comp_apply]
      by_cases hk : kv.1 = child.id
      · rw [if_pos hk]
        exact hk.symm
      · rw [if_neg hk]
    · left
      rfl

theorem insertChild_nodup {m : GenMap} {child : TensorNetwork}
    (hn : (m.map Prod.fst).Nodup) :
    ((insertChild m child).map Prod.fst).Nodup := by
  rcases insertChild_keys m child with h | ⟨h, hnm⟩
  · rw [h]
    exact hn
  · rw [h, List.concat_eq_append, List.nodup_append]
    refine ⟨hn, List.nodup_singleton _, ?_⟩
    intro a ha hb
    rw [List.mem_singleton] at hb
    exact hnm (hb ▸ ha)

theorem countOnes_zero : countOnes 0 = 0 := by decide

theorem MapsInv.mono {root : TensorNetwork} {n_c gen gen' : Nat}
    {maps : List GenMap} (h : MapsInv root n_c gen maps) (hle : gen ≤ gen') :
    MapsInv root n_c gen' maps := by
  refine ⟨h.len_eq, h.keys_nodup, h.entry_key, h.entry_state, h.zero_table, ?_⟩
  intro g e he hne
  obtain ⟨h1, h2, h3⟩ := h.chain g e he hne
  exact ⟨h1, le_trans h2 hle, h3⟩

theorem bestInv_mono {root g0 : TensorNetwork} {n_c gen gen' : Nat}
    {maps : List GenMap} {best : TensorNetwork}
    (h : BestInv root g0 n_c gen maps best) (hle : gen ≤ gen') :
    BestInv root g0 n_c gen' maps best := by
  rcases h with h | ⟨h1, h2, h3, h4, h5, h6⟩
  · exact Or.inl h
  · exact Or.inr ⟨h1, h2, h3, h4, le_trans h5 hle, h6⟩

theorem bestInv_cpu_le {root g0 : TensorNetwork} {n_c gen : Nat}
    {maps : List GenMap} {best : TensorNetwork}
    (h : BestInv root g0 n_c gen maps best) : best.cpu ≤ g0.cpu := by
  rcases h with h | ⟨-, -, h3, -⟩
  · rw [h]
  · exact le_of_lt h3

theorem bestInv_set_high {root g0 : TensorNetwork} {n_c gen cg : Nat}
    {maps : List GenMap} {best : TensorNetwork} {tbl : GenMap}
    (h : BestInv root g0 n_c gen maps best) (hgt : gen < cg) :
    BestInv root g0 n_c gen (maps.set cg tbl) best := by
  rcases h with h | ⟨h1, h2, h3, h4, h5, h6⟩
  · exact Or.inl h
  · refine Or.inr ⟨h1, h2, h3, h4, h5, ?_⟩
    rw [getD_set_ne _ (by omega)]
    exact h6

theorem processChild_preserve {root g0 : TensorNetwork} {n_c gen : Nat}
    {maps maps' : List GenMap} {best best' : TensorNetwork}
    {parent child : TensorNetwork}
    (hgen : gen < n_c)
    (hinv : MapsInv root n_c gen maps)
    (hbest : BestInv root g0 n_c gen maps best)
    (hplook : (maps.getD gen []).lookup parent.id = some parent)
    (hpgood : goodState parent) (hpreach : Reaches root parent)
    (hpkey : countOnes parent.id = gen)
    (hgc : Generates parent child)
    (h : processChild n_c gen (maps, best) child = some (maps', best')) :
    MapsInv root n_c gen maps' ∧ BestInv root g0 n_c gen maps' best' ∧
      maps'.getD gen [] = maps.getD gen [] := by
  obtain ⟨i, j, hij, hjl, hct⟩ := hgc
  have helim := contract_tensors_some_elim hij hct
  have hcgood : goodState child := contract_step_good hij hjl hct hpgood
  have hcreach : Reaches root child := by
    obtain ⟨n, hn⟩ := hpreach
    exact ⟨n + 1, ReachN.step hn hij hjl hct⟩
  have hcpar : child.parent = parent.id := helim.2.2.1
  simp only [processChild] at h
  split at h
  · rename_i hlt
    split at h
    · rename_i hcg
      have heq := Option.some.inj h
      have hm : maps' = maps := (congrArg Prod.fst heq).symm
      have hb : best' = child := (congrArg Prod.snd heq).symm
      subst hm
      subst hb
      refine ⟨hinv, Or.inr ⟨hcgood, hcreach, ?_, ?_, ?_, ?_⟩, rfl⟩
      · exact lt_of_lt_of_le hlt (bestInv_cpu_le hbest)
      · rw [hcpar, hpkey]
        exact hgen
      · rw [hcpar, hpkey]
      · rw [hcpar, hpkey]
        exact ⟨parent, hplook, i, j, hij, hjl, hct⟩
    · split at h
      · rename_i hrange
        have heq := Option.some.inj h
        have hm : maps' =
            maps.set (countOnes child.id)
              (insertChild (maps.getD (countOnes child.id) []) child) :=
          (congrArg Prod.fst heq).symm
        have hb : best' = best := (congrArg Prod.snd heq).symm
        subst hm
        subst hb
        have hcglt : countOnes child.id < maps.length := by
          rw [hinv.len_eq]
          exact hrange.2
        refine ⟨?_, bestInv_set_high hbest hrange.1, ?_⟩
        · refine ⟨?_, ?_, ?_, ?_, ?_, ?_⟩
          · rw [List.length_set]
            exact hinv.len_eq
          · intro g
            by_cases hg : countOnes child.id = g
            · subst hg
              rw [getD_set_self _ hcglt]
              exact insertChild_nodup (hinv.keys_nodup _)
            · rw [getD_set_ne _ hg]
              exact hinv.keys_nodup g
          · intro g e he
            by_cases hg : countOnes child.id = g
            · subst hg
              rw [getD_set_self _ hcglt] at he
              rcases insertChild_mem he with h1 | h1
              · exact hinv.entry_key _ e h1
              · subst h1
                exact ⟨rfl, rfl⟩
            · rw [getD_set_ne _ hg] at he
              exact hinv.entry_key g e he
          · intro g e he
            by_cases hg : countOnes child.id = g
            · subst hg
              rw [getD_set_self _ hcglt] at he
              rcases insertChild_mem he with h1 | h1
              · exact hinv.entry_state _ e h1
              · subst h1
                exact ⟨hcgood, hcreach⟩
            · rw [getD_set_ne _ hg] at he
              exact hinv.entry_state g e he
          · rw [getD_set_ne _ (by omega)]
            exact hinv.zero_table
          · intro g e he hne
            by_cases hg : countOnes child.id = g
            · subst hg
              rw [getD_set_self _ hcglt] at he
              rcases insertChild_mem he with h1 | h1
              · obtain ⟨hc1, hc2, pe, hpe, hgpe⟩ := hinv.chain _ e h1 hne
                refine ⟨hc1, hc2, pe, ?_, hgpe⟩
                rw [getD_set_ne _ (by omega)]
                exact hpe
              · subst h1
                have hc1 : countOnes child.parent < countOnes child.id := by
                  rw [hcpar, hpkey]
                  exact hrange.1
                refine ⟨hc1, ?_, parent, ?_, i, j, hij, hjl, hct⟩
                · show countOnes child.parent ≤ gen
                  rw [hcpar, hpkey]
                · show ((maps.set (countOnes child.id)
                    (insertChild (maps.getD (countOnes child.id) []) child)).getD
                      (countOnes child.parent) []).lookup child.parent = some parent
                  rw [getD_set_ne _ (by omega), hcpar, hpkey]
                  exact hplook
            · rw [getD_set_ne _ hg] at he
              obtain ⟨hc1, hc2, pe, hpe, hgpe⟩ := hinv.chain g e he hne
              refine ⟨hc1, hc2, pe, ?_, hgpe⟩
              rw [getD_set_ne _ (by omega)]
              exact hpe
        · rw [getD_set_ne _ (by omega)]
      · exact Option.noConfusion h
  · have heq := Option.some.inj h
    have hm : maps' = maps := (congrArg Prod.fst heq).symm
    have hb : best' = best := (congrArg Prod.snd heq).symm
    subst hm
    subst hb
    exact ⟨hinv, hbest, rfl⟩

theorem processParent_preserve {root g0 : TensorNetwork} {n_c gen : Nat}
    {M0 : GenMap} {acc acc' : List GenMap × TensorNetwork}
    {parent : TensorNetwork}
    (hgen : gen < n_c)
    (hp : parent ∈ M0.map Prod.snd)
    (hinv : MapsInv root n_c gen acc.1 ∧ BestInv root g0 n_c gen acc.1 acc.2 ∧
      acc.1.getD gen [] = M0)
    (h : processParent n_c gen acc parent = some acc') :
    MapsInv root n_c gen acc'.1 ∧ BestInv root g0 n_c gen acc'.1 acc'.2 ∧
      acc'.1.getD gen [] = M0 := by
  simp only [processParent] at h
  split at h
  · refine foldlM_option_inv_mem
      (fun a => MapsInv root n_c gen a.1 ∧ BestInv root g0 n_c gen a.1 a.2 ∧
        a.1.getD gen [] = M0)
      (processChild n_c gen) parent.generate_children ?_ acc acc' h hinv
    intro a child a' hcmem hPa hstep
    obtain ⟨ha1, ha2, ha3⟩ := hPa
    obtain ⟨kv, hkv_mem, hkv_snd⟩ := List.mem_map.1 hp
    have hentry : (kv.1, parent) ∈ a.1.getD gen [] := by
      rw [ha3, ← hkv_snd]
      rw [Prod.mk.eta]
      exact hkv_mem
    have hkey := ha1.entry_key gen (kv.1, parent) hentry
    have hstate := ha1.entry_state gen (kv.1, parent) hentry
    have hplook : (a.1.getD gen []).lookup parent.id = some parent := by
      apply lookup_of_mem_nodup (ha1.keys_nodup gen)
      have hid : parent.id = kv.1 := hkey.1
      rw [hid]
      exact hentry
    have hpkey : countOnes parent.id = gen := by
      have hid : parent.id = kv.1 := hkey.1
      rw [hid]
      exact hkey.2
    have hggen : Generates parent child := mem_generate_children.1 hcmem
    obtain ⟨m1, b1⟩ := a
    obtain ⟨m2, b2⟩ := a'
    have hres := processChild_preserve hgen ha1 ha2 hplook hstate.1 hstate.2
      hpkey hggen hstep
    exact ⟨hres.1, hres.2.1, hres.2.2.trans ha3⟩
  · rw [Option.pure_def] at h
    have heq := Option.some.inj h
    rw [← heq]
    exact hinv

theorem processGeneration_preserve {root g0 : TensorNetwork} {n_c gen : Nat}
    {acc acc' : List GenMap × TensorNetwork}
    (hgen : gen < n_c)
    (hinv : SearchInv root g0 n_c gen acc)
    (h : processGeneration n_c acc gen = some acc') :
    SearchInv root g0 n_c (gen + 1) acc' := by
  obtain ⟨hm, hb⟩ := hinv
  simp only [processGeneration] at h
  have hres := foldlM_option_inv_mem
    (fun a => MapsInv root n_c gen a.1 ∧ BestInv root g0 n_c gen a.1 a.2 ∧
      a.1.getD gen [] = acc.1.getD gen [])
    (processParent n_c gen) ((acc.1.getD gen []).map Prod.snd)
    (fun a p a' hpm hPa hstep => processParent_preserve hgen hpm hPa hstep)
    acc acc' h ⟨hm, hb, rfl⟩
  exact ⟨MapsInv.mono hres.1 (Nat.le_succ gen), bestInv_mono hres.2.1 (Nat.le_succ gen)⟩

theorem searchFold_preserve {root g0 : TensorNetwork} {n_c : Nat} :
    ∀ (cnt start : Nat) (acc acc' : List GenMap × TensorNetwork),
      start + cnt ≤ n_c →
      SearchInv root g0 n_c start acc →
      (List.range' start cnt).foldlM (processGeneration n_c) acc = some acc' →
      SearchInv root g0 n_c (start + cnt) acc' := by
  intro cnt
  induction cnt with
  | zero =>
    intro start acc acc' hle hinv h
    rw [List.range'_zero, List.foldlM_nil] at h
    exact (Option.some.inj h) ▸ hinv
  | succ c ih =>
    intro start acc acc' hle hinv h
    rw [List.range'_succ, List.foldlM_cons] at h
    cases hg : processGeneration n_c acc start with
    | none => rw [hg] at h; exact Option.noConfusion h
    | some acc1 =>
      rw [hg] at h
      simp only [Option.bind_eq_bind, Option.some_bind] at h
      have h1 := processGeneration_preserve (by omega) hinv hg
      have h2 := ih (start + 1) acc1 acc' (by omega) h1 h
      have h3 : start + 1 + c = start + (c + 1) := by omega
      rw [h3] at h2
      exact h2

theorem getD_replicate (n g : Nat) :
    (List.replicate n ([] : GenMap)).getD g [] = [] := by
  by_cases h : g < n
  · rw [List.getD_eq_getElem _ _ (by rw [List.length_replicate]; exact h)]
    exact List.getElem_replicate _ _
  · rw [List.getD_eq_default _ _ (by rw [List.length_replicate]; omega)]

theorem searchInv_init {root g0 : TensorNetwork} {n_c : Nat}
    (hroot : goodState root) (hid : root.id = 0) (hnc : 0 < n_c) :
    SearchInv root g0 n_c 0
      ((List.replicate n_c ([] : GenMap)).set 0 [(0, root)], g0) := by
  have hlen : (0 : Nat) < (List.replicate n_c ([] : GenMap)).length := by
    rw [List.length_replicate]
    exact hnc
  constructor
  · refine ⟨?_, ?_, ?_, ?_, ?_, ?_⟩
    · rw [List.length_set, List.length_replicate]
    · intro g
      by_cases hg : g = 0
      · rw [hg, getD_set_self _ hlen]
        simp
      · rw [getD_set_ne _ (Ne.symm hg), getD_replicate]
        exact List.nodup_nil
    · intro g e he
      by_cases hg : g = 0
      · rw [hg, getD_set_self _ hlen] at he
        rw [List.mem_singleton] at he
        rw [he, hg]
        exact ⟨hid, countOnes_zero⟩
      · rw [getD_set_ne _ (Ne.symm hg), getD_replicate] at he
        exact absurd he (List.not_mem_nil _)
    · intro g e he
      by_cases hg : g = 0
      · rw [hg, getD_set_self _ hlen] at he
        rw [List.mem_singleton] at he
        rw [he]
        exact ⟨hroot, 0, ReachN.refl root⟩
      · rw [getD_set_ne _ (Ne.symm hg), getD_replicate] at he
        exact absurd he (List.not_mem_nil _)
    · rw [getD_set_self _ hlen]
    · intro g e he hne
      by_cases hg : g = 0
      · rw [hg, getD_set_self _ hlen] at he
        rw [List.mem_singleton] at he
        rw [he] at hne
        exact absurd rfl hne
      · rw [getD_set_ne _ (Ne.symm hg), getD_replicate] at he
        exact absurd he (List.not_mem_nil _)
  · exact Or.inl rfl

theorem reconstructLoop_succ (maps : List GenMap) (fuel idv : Nat)
    (seq : List Nat) :
    reconstructLoop maps (fuel + 1) idv seq =
      if idv = 0 then some seq
      else ((maps.getD (countOnes idv) []).lookup idv).bind fun st =>
        reconstructLoop maps fuel st.parent (seq.concat st.parent) := rfl

theorem reconstruct_walk {root : TensorNetwork} {n_c gen : Nat}
    {maps : List GenMap} (hinv : MapsInv root n_c gen maps) :
    ∀ (fuel k : Nat) (e : TensorNetwork), countOnes k < fuel →
      (maps.getD (countOnes k) []).lookup k = some e →
      ∃ ms : List Nat, GenChain root e ms ∧
        (k = 0 → ms = [] ∧ ∀ seq, reconstructLoop maps fuel k seq = some seq) ∧
        (k ≠ 0 → ms.getLast? = some k ∧
          ∀ seq : List Nat, reconstructLoop maps fuel k seq =
            some (seq ++ (ms.dropLast.reverse ++ [0]))) := by
  intro fuel
  induction fuel with
  | zero =>
    intro k e hf hlk
    exact absurd hf (Nat.not_lt_zero _)
  | succ f ih =>
    intro k e hf hlk
    by_cases hk : k = 0
    · subst hk
      rw [countOnes_zero, hinv.zero_table] at hlk
      have h0 : ([((0 : Nat), root)] : GenMap).lookup 0 = some root := rfl
      rw [h0] at hlk
      have he : e = root := (Option.some.inj hlk).symm
      subst he
      refine ⟨[], GenChain.nil, fun _ => ⟨rfl, fun seq => ?_⟩,
        fun hh => absurd rfl hh⟩
      rw [reconstructLoop_succ, if_pos rfl]
    · have hmem := lookup_mem hlk
      have hkey : e.id = k := (hinv.entry_key (countOnes k) (k, e) hmem).1
      obtain ⟨hc1, hc2, pe, hpelook, hgen⟩ :=
        hinv.chain (countOnes k) (k, e) hmem hk
      have hc1' : countOnes e.parent < countOnes k := hc1
      have hpelook' :
          (maps.getD (countOnes e.parent) []).lookup e.parent = some pe :=
        hpelook
      have hgen' : Generates pe e := hgen
      obtain ⟨ms', hch', hz', hnz'⟩ :=
        ih e.parent pe (by omega) hpelook'
      refine ⟨ms'.concat e.id, GenChain.snoc hch' hgen',
        fun hh => absurd hh hk, fun _ => ⟨?_, ?_⟩⟩
      · rw [List.concat_eq_append, List.getLast?_concat, hkey]
      · intro seq
        rw [reconstructLoop_succ, if_neg hk, hlk]
        simp only [Option.some_bind]
        have hdrop : (ms'.concat e.id).dropLast = ms' := by
          rw [List.concat_eq_append, List.dropLast_concat]
        rw [hdrop]
        by_cases hk' : e.parent = 0
        · obtain ⟨hms0, hrl⟩ := hz' hk'
          subst hms0
          rw [hrl (seq.concat e.parent), List.concat_eq_append, hk']
          rfl
        · obtain ⟨hlast', hrl⟩ := hnz' hk'
          rw [hrl (seq.concat e.parent)]
          have hne' : ms' ≠ [] := by
            intro hh
            rw [hh] at hlast'
            exact Option.noConfusion hlast'
          have hsplit : ms'.dropLast ++ [e.parent] = ms' := by
            have hd := List.dropLast_append_getLast hne'
            have hget : ms'.getLast hne' = e.parent := by
              have h2 := List.getLast?_eq_getLast ms' hne'
              rw [h2] at hlast'
              exact Option.some.inj hlast'
            rw [hget] at hd
            exact hd
          have hrev : ms'.reverse = e.parent :: ms'.dropLast.reverse := by
            conv_lhs => rw [← hsplit]
            rw [List.reverse_append]
            rfl
          rw [hrev]
          simp [List.concat_eq_append, List.append_assoc]

/-! ### Splitting and tracing the search folds -/

theorem foldlM_option_append {α β : Type} (f : β → α → Option β) (l1 l2 : List α)
    (a c : β) (h : (l1 ++ l2).foldlM f a = some c) :
    ∃ b, l1.foldlM f a = some b ∧ l2.foldlM f b = some c := by
  rw [List.foldlM_append] at h
  cases hb : l1.foldlM f a with
  | none => rw [hb] at h; exact Option.noConfusion h
  | some b =>
    rw [hb] at h
    simp only [Option.bind_eq_bind, Option.some_bind] at h
    exact ⟨b, rfl, h⟩

theorem foldlM_option_split {α β : Type} (f : β → α → Option β) {l : List α}
    {x : α} (hx : x ∈ l) (a c : β) (h : l.foldlM f a = some c) :
    ∃ l1 l2 a1 a2, l = l1 ++ x :: l2 ∧ l1.foldlM f a = some a1 ∧
      f a1 x = some a2 ∧ l2.foldlM f a2 = some c := by
  obtain ⟨l1, l2, hl⟩ := List.append_of_mem hx
  subst hl
  obtain ⟨a1, h1, h2⟩ := foldlM_option_append f l1 (x :: l2) a c h
  rw [List.foldlM_cons] at h2
  cases hfa : f a1 x with
  | none => rw [hfa] at h2; exact Option.noConfusion h2
  | some a2 =>
    rw [hfa] at h2
    simp only [Option.bind_eq_bind, Option.some_bind] at h2
    exact ⟨l1, l2, a1, a2, rfl, h1, hfa, h2⟩

theorem foldPG_cpu_le {n_c : Nat} {l : List Nat}
    {a b : List GenMap × TensorNetwork}
    (h : l.foldlM (processGeneration n_c) a = some b) : b.2.cpu ≤ a.2.cpu :=
  foldlM_option_inv (fun x => x.2.cpu ≤ a.2.cpu) (processGeneration n_c)
    (fun acc g acc' hp hstep => processGeneration_cpu_le hp hstep)
    l a b h (le_refl _)

theorem foldPP_cpu_le {n_c gen : Nat} {l : List TensorNetwork}
    {a b : List GenMap × TensorNetwork}
    (h : l.foldlM (processParent n_c gen) a = some b) : b.2.cpu ≤ a.2.cpu :=
  foldlM_option_inv (fun x => x.2.cpu ≤ a.2.cpu) (processParent n_c gen)
    (fun acc p acc' hp hstep => processParent_cpu_le hp hstep)
    l a b h (le_refl _)

theorem foldPC_cpu_le {n_c gen : Nat} {l : List TensorNetwork}
    {a b : List GenMap × TensorNetwork}
    (h : l.foldlM (processChild n_c gen) a = some b) : b.2.cpu ≤ a.2.cpu :=
  foldlM_option_inv (fun x => x.2.cpu ≤ a.2.cpu) (processChild n_c gen)
    (fun acc c acc' hp hstep => processChild_cpu_le hp hstep)
    l a b h (le_refl _)

theorem processChild_freeze {n_c gen G : Nat}
    {acc acc' : List GenMap × TensorNetwork} {child : TensorNetwork}
    (hG : G ≤ gen) (h : processChild n_c gen acc child = some acc') :
    acc'.1.getD G [] = acc.1.getD G [] ∧ acc'.1.length = acc.1.length := by
  simp only [processChild] at h
  split at h
  · split at h
    · rw [← Option.some.inj h]
      exact ⟨rfl, rfl⟩
    · split at h
      · rename_i hrange
        rw [← Option.some.inj h]
        refine ⟨getD_set_ne _ (by omega), List.length_set _ _ _⟩
      · exact Option.noConfusion h
  · rw [← Option.some.inj h]
    exact ⟨rfl, rfl⟩

theorem processParent_freeze {n_c gen G : Nat}
    {acc acc' : List GenMap × TensorNetwork} {parent : TensorNetwork}
    (hG : G ≤ gen) (h : processParent n_c gen acc parent = some acc') :
    acc'.1.getD G [] = acc.1.getD G [] ∧ acc'.1.length = acc.1.length := by
  simp only [processParent] at h
  split at h
  · exact foldlM_option_inv
      (fun x => x.1.getD G [] = acc.1.getD G [] ∧ x.1.length = acc.1.length)
      (processChild n_c gen)
      (fun a c a' hp hstep =>
        ⟨(processChild_freeze hG hstep).1.trans hp.1,
          (processChild_freeze hG hstep).2.trans hp.2⟩)
      parent.generate_children acc acc' h ⟨rfl, rfl⟩
  · rw [Option.pure_def] at h
    rw [← Option.some.inj h]
    exact ⟨rfl, rfl⟩

theorem processGeneration_freeze {n_c gen G : Nat}
    {acc acc' : List GenMap × TensorNetwork}
    (hG : G ≤ gen) (h : processGeneration n_c acc gen = some acc') :
    acc'.1.getD G [] = acc.1.getD G [] ∧ acc'.1.length = acc.1.length := by
  simp only [processGeneration] at h
  exact foldlM_option_inv
    (fun x => x.1.getD G [] = acc.1.getD G [] ∧ x.1.length = acc.1.length)
    (processParent n_c gen)
    (fun a p a' hp hstep =>
      ⟨(processParent_freeze hG hstep).1.trans hp.1,
        (processParent_freeze hG hstep).2.trans hp.2⟩)
    _ acc acc' h ⟨rfl, rfl⟩

theorem foldPG_freeze {n_c G : Nat} {l : List Nat}
    {a b : List GenMap × TensorNetwork}
    (hl : ∀ g ∈ l, G ≤ g) (h : l.foldlM (processGeneration n_c) a = some b) :
    b.1.getD G [] = a.1.getD G [] ∧ b.1.length = a.1.length :=
  foldlM_option_inv_mem
    (fun x => x.1.getD G [] = a.1.getD G [] ∧ x.1.length = a.1.length)
    (processGeneration n_c) l
    (fun acc g acc' hg hp hstep =>
      ⟨(processGeneration_freeze (hl g hg) hstep).1.trans hp.1,
        (processGeneration_freeze (hl g hg) hstep).2.trans hp.2⟩)
    a b h ⟨rfl, rfl⟩

theorem lookup_concat_of_some {m : GenMap} {K : Nat} {v : TensorNetwork}
    (x : Nat × TensorNetwork) (h : m.lookup K = some v) :
    (m.concat x).lookup K = some v := by
  induction m with
  | nil => exact Option.noConfusion h
  | cons e rest ih =>
    rw [List.lookup] at h
    rw [List.concat_eq_append, List.cons_append, List.lookup]
    split at h
    · exact h
    · rw [← List.concat_eq_append]
      exact ih h

theorem lookup_concat_self {m : GenMap} {K : Nat} (c : TensorNetwork)
    (h : m.lookup K = none) : (m.concat (K, c)).lookup K = some c := by
  induction m with
  | nil =>
    rw [List.concat_eq_append, List.nil_append, List.lookup]
    simp
  | cons e rest ih =>
    rw [List.lookup] at h
    rw [List.concat_eq_append, List.cons_append, List.lookup]
    split at h
    · exact Option.noConfusion h
    · rw [← List.concat_eq_append]
      exact ih h

theorem lookup_map_replace {m : GenMap} {cid K : Nat} {c : TensorNetwork}
    (hne : K ≠ cid) :
    (m.map fun kv => if kv.1 = cid then (cid, c) else kv).lookup K =
      m.lookup K := by
  induction m with
  | nil => rfl
  | cons e rest ih =>
    rw [List.map_cons, List.lookup, List.lookup]
    by_cases he : e.1 = cid
    · rw [if_pos he]
      have h1 : (K == ((cid, c) : Nat × TensorNetwork).1) = false := by
        rw [beq_eq_false_iff_ne]
        exact hne
      have h2 : (K == e.1) = false := by
        rw [beq_eq_false_iff_ne, he]
        exact hne
      rw [h1, h2]
      exact ih
    · rw [if_neg he]
      cases hbeq : (K == e.1) with
      | true => rfl
      | false => exact ih

theorem lookup_map_replace_self {m : GenMap} {cid : Nat} {c v : TensorNetwork}
    (h : m.lookup cid = some v) :
    (m.map fun kv => if kv.1 = cid then (cid, c) else kv).lookup cid =
      some c := by
  induction m with
  | nil => exact Option.noConfusion h
  | cons e rest ih =>
    rw [List.lookup] at h
    rw [List.map_cons, List.lookup]
    by_cases he : e.1 = cid
    · rw [if_pos he]
      simp
    · rw [if_neg he]
      have hbeq : (cid == e.1) = false := by
        rw [beq_eq_false_iff_ne]
        exact fun hh => he hh.symm
      rw [hbeq] at h
      rw [hbeq]
      exact ih h

theorem insertChild_lookup_le {m : GenMap} {child : TensorNetwork} {K : Nat}
    {v : TensorNetwork} (h : m.lookup K = some v) :
    ∃ v', (insertChild m child).lookup K = some v' ∧ v'.cpu ≤ v.cpu := by
  unfold insertChild
  split
  · exact ⟨v, lookup_concat_of_some _ h, le_refl _⟩
  · rename_i existing hl
    split
    · rename_i hcpu
      by_cases hK : K = child.id
      · have hv : existing = v := by
          rw [← hK] at hl
          rw [hl] at h
          exact Option.some.inj h
        refine ⟨child, ?_, ?_⟩
        · rw [hK]
          exact lookup_map_replace_self hl
        · rw [← hv]
          exact le_of_lt hcpu
      · refine ⟨v, ?_, le_refl _⟩
        rw [lookup_map_replace hK]
        exact h
    · exact ⟨v, h, le_refl _⟩

theorem insertChild_lookup_self (m : GenMap) (child : TensorNetwork) :
    ∃ v', (insertChild m child).lookup child.id = some v' ∧
      v'.cpu ≤ child.cpu := by
  unfold insertChild
  split
  · rename_i hl
    exact ⟨child, lookup_concat_self child hl, le_refl _⟩
  · rename_i existing hl
    split
    · exact ⟨child, lookup_map_replace_self hl, le_refl _⟩
    · rename_i hcpu
      exact ⟨existing, hl, by omega⟩

theorem processChild_presence {n_c gen G K : Nat}
    {acc acc' : List GenMap × TensorNetwork} {child v : TensorNetwork}
    (hp : (acc.1.getD G []).lookup K = some v)
    (h : processChild n_c gen acc child = some acc') :
    ∃ v', (acc'.1.getD G []).lookup K = some v' ∧ v'.cpu ≤ v.cpu := by
  simp only [processChild] at h
  split at h
  · split at h
    · rw [← Option.some.inj h]
      exact ⟨v, hp, le_refl _⟩
    · split at h
      · rw [← Option.some.inj h]
        by_cases hG : countOnes child.id = G
        · by_cases hlen : countOnes child.id < acc.1.length
          · rw [← hG] at hp
            rw [← hG, getD_set_self _ hlen]
            exact insertChild_lookup_le hp
          · rw [List.set_eq_of_length_le (by omega)]
            exact ⟨v, hp, le_refl _⟩
        · rw [getD_set_ne _ hG]
          exact ⟨v, hp, le_refl _⟩
      · exact Option.noConfusion h
  · rw [← Option.some.inj h]
    exact ⟨v, hp, le_refl _⟩

theorem processParent_presence {n_c gen G K : Nat}
    {acc acc' : List GenMap × TensorNetwork} {parent v : TensorNetwork}
    (hp : (acc.1.getD G []).lookup K = some v)
    (h : processParent n_c gen acc parent = some acc') :
    ∃ v', (acc'.1.getD G []).lookup K = some v' ∧ v'.cpu ≤ v.cpu := by
  simp only [processParent] at h
  split at h
  · exact foldlM_option_inv
      (fun x => ∃ v', (x.1.getD G []).lookup K = some v' ∧ v'.cpu ≤ v.cpu)
      (processChild n_c gen)
      (fun a c a' hpa hstep => by
        obtain ⟨v1, hv1, hc1⟩ := hpa
        obtain ⟨v2, hv2, hc2⟩ := processChild_presence hv1 hstep
        exact ⟨v2, hv2, le_trans hc2 hc1⟩)
      parent.generate_children acc acc' h ⟨v, hp, le_refl _⟩
  · rw [Option.pure_def] at h
    rw [← Option.some.inj h]
    exact ⟨v, hp, le_refl _⟩

theorem processGeneration_presence {n_c gen G K : Nat}
    {acc acc' : List GenMap × TensorNetwork} {v : TensorNetwork}
    (hp : (acc.1.getD G []).lookup K = some v)
    (h : processGeneration n_c acc gen = some acc') :
    ∃ v', (acc'.1.getD G []).lookup K = some v' ∧ v'.cpu ≤ v.cpu := by
  simp only [processGeneration] at h
  exact foldlM_option_inv
    (fun x => ∃ v', (x.1.getD G []).lookup K = some v' ∧ v'.cpu ≤ v.cpu)
    (processParent n_c gen)
    (fun a p a' hpa hstep => by
      obtain ⟨v1, hv1, hc1⟩ := hpa
      obtain ⟨v2, hv2, hc2⟩ := processParent_presence hv1 hstep
      exact ⟨v2, hv2, le_trans hc2 hc1⟩)
    _ acc acc' h ⟨v, hp, le_refl _⟩

theorem foldPG_presence {n_c G K : Nat} {l : List Nat}
    {a b : List GenMap × TensorNetwork} {v : TensorNetwork}
    (hp : (a.1.getD G []).lookup K = some v)
    (h : l.foldlM (processGeneration n_c) a = some b) :
    ∃ v', (b.1.getD G []).lookup K = some v' ∧ v'.cpu ≤ v.cpu :=
  foldlM_option_inv
    (fun x => ∃ v', (x.1.getD G []).lookup K = some v' ∧ v'.cpu ≤ v.cpu)
    (processGeneration n_c)
    (fun acc g acc' hpa hstep => by
      obtain ⟨v1, hv1, hc1⟩ := hpa
      obtain ⟨v2, hv2, hc2⟩ := processGeneration_presence hv1 hstep
      exact ⟨v2, hv2, le_trans hc2 hc1⟩)
    l a b h ⟨v, hp, le_refl _⟩

theorem processChild_forces {n_c gen : Nat}
    {acc acc' : List GenMap × TensorNetwork} {child : TensorNetwork}
    (hcg : countOnes child.id = n_c)
    (h : processChild n_c gen acc child = some acc') :
    acc'.2.cpu ≤ child.cpu := by
  simp only [processChild] at h
  split at h
  · rw [← Option.some.inj h]
  · rename_i hge
    rw [← Option.some.inj h]
    exact Nat.le_of_not_lt hge

/-! ### The greedy chain -/

theorem genChain_cons {a b c : TensorNetwork} {ms : List Nat}
    (hg : Generates a b) (h : GenChain b c ms) :
    GenChain a c (b.id :: ms) := by
  induction h with
  | nil => exact GenChain.snoc GenChain.nil hg
  | snoc hch hgen ih => exact GenChain.snoc ih hgen

theorem foldl_min_mem (c : TensorNetwork) (cs : List TensorNetwork) :
    cs.foldl (fun acc c2 => if c2.cpu < acc.cpu then c2 else acc) c ∈ c :: cs := by
  induction cs generalizing c with
  | nil => exact List.mem_singleton.2 rfl
  | cons d rest ih =>
    rw [List.foldl_cons]
    rcases List.mem_cons.1 (ih (if d.cpu < c.cpu then d else c)) with h1 | h1
    · rw [h1]
      by_cases hd : d.cpu < c.cpu
      · rw [if_pos hd]
        exact List.mem_cons_of_mem _ (List.mem_cons_self _ _)
      · rw [if_neg hd]
        exact List.mem_cons_self _ _
    · exact List.mem_cons_of_mem _ (List.mem_cons_of_mem _ h1)

theorem greedyLoop_succ (fuel : Nat) (tn : TensorNetwork) (maxTn : Nat)
    (seq : List Nat) :
    greedyLoop (fuel + 1) tn maxTn seq =
      if tn.id < maxTn then
        match tn.generate_children with
        | [] => none
        | c :: cs =>
          greedyLoop fuel
            (cs.foldl (fun acc c2 => if c2.cpu < acc.cpu then c2 else acc) c)
            maxTn
            (seq.concat
              (cs.foldl (fun acc c2 => if c2.cpu < acc.cpu then c2 else acc) c).id)
      else some (seq, tn) := rfl

theorem greedyLoop_chain : ∀ (fuel : Nat) (tn : TensorNetwork) (maxTn : Nat)
    (seq seq' : List Nat) (res : TensorNetwork),
    greedyLoop fuel tn maxTn seq = some (seq', res) →
    ∃ ms, GenChain tn res ms ∧ ¬ res.id < maxTn := by
  intro fuel
  induction fuel with
  | zero => intro tn maxTn seq seq' res h; exact Option.noConfusion h
  | succ f ih =>
    intro tn maxTn seq seq' res h
    rw [greedyLoop_succ] at h
    split at h
    · split at h
      · exact Option.noConfusion h
      · rename_i c cs hc
        obtain ⟨ms, hch, hterm⟩ := ih _ _ _ _ _ h
        have hmem : (cs.foldl (fun acc c2 => if c2.cpu < acc.cpu then c2 else acc) c)
            ∈ tn.generate_children := by
          rw [hc]
          exact foldl_min_mem c cs
        exact ⟨_, genChain_cons (mem_generate_children.1 hmem) hch, hterm⟩
    · rename_i hge
      have heq := Option.some.inj h
      have hres : res = tn := (congrArg Prod.snd heq).symm
      subst hres
      exact ⟨[], GenChain.nil, hge⟩

theorem contract_tensors_cpu_elim {tn c : TensorNetwork} {i j : Nat}
    (hij : i < j) (hc : tn.contract_tensors i j = some c) :
    ∃ m, tn.checked_measure
        (tn.tensors.getD i 0 ||| tn.tensors.getD j 0) = some m ∧
      c.cpu = tn.cpu + m ∧ tn.cpu + m ≤ u64Max := by
  have hmin : min i j = i := Nat.min_eq_left (Nat.le_of_lt hij)
  have hmax : max i j = j := Nat.max_eq_right (Nat.le_of_lt hij)
  simp only [TensorNetwork.contract_tensors, hmin, hmax] at hc
  split at hc
  · exact Option.noConfusion hc
  · split at hc
    · exact Option.noConfusion hc
    · rename_i m hm
      split at hc
      · rename_i hov
        have hcc := Option.some.inj hc
        subst hcc
        exact ⟨m, hm, rfl, hov⟩
      · exact Option.noConfusion hc

theorem checked_measure_pos {tn : TensorNetwork} {t m : Nat}
    (hd : ∀ d ∈ tn.legs_dim, 1 ≤ d)
    (h : tn.checked_measure t = some m) : 1 ≤ m := by
  rw [TensorNetwork.checked_measure,
    checkedMeasureAux_eq tn.legs_dim hd 1 t (by decide), one_mul] at h
  split at h
  · have hm := Option.some.inj h
    have hP := one_le_maskProd hd t
    omega
  · exact Option.noConfusion h

theorem generates_cpu_lt {p c : TensorNetwork}
    (hd : ∀ d ∈ p.legs_dim, 1 ≤ d) (hg : Generates p c) : p.cpu < c.cpu := by
  obtain ⟨i, j, hij, hjl, hc⟩ := hg
  obtain ⟨m, hm, hcpu, -⟩ := contract_tensors_cpu_elim hij hc
  have h1 := checked_measure_pos hd hm
  omega

theorem generates_legs_dim {p c : TensorNetwork} (hg : Generates p c) :
    c.legs_dim = p.legs_dim := by
  obtain ⟨i, j, hij, hjl, hc⟩ := hg
  exact (contract_tensors_some_elim hij hc).2.2.2.1

theorem genChain_legs_dim {root s : TensorNetwork} {ms : List Nat}
    (h : GenChain root s ms) : s.legs_dim = root.legs_dim := by
  induction h with
  | nil => rfl
  | snoc hch hgen ih => rw [generates_legs_dim hgen, ih]

theorem contract_tensors_coreEq {a b : TensorNetwork} (h : coreEq a b)
    (i j : Nat) :
    (a.contract_tensors i j = none ∧ b.contract_tensors i j = none) ∨
    ∃ ca cb, a.contract_tensors i j = some ca ∧
      b.contract_tensors i j = some cb ∧ coreEq ca cb := by
  obtain ⟨h1, h2, h3, h4, h5⟩ := h
  have hcm : b.checked_measure = a.checked_measure := by
    funext t
    rw [TensorNetwork.checked_measure, TensorNetwork.checked_measure, h1]
  simp only [TensorNetwork.contract_tensors, ← h5, ← h2, ← h3, ← h1, hcm]
  split
  · exact Or.inl ⟨rfl, rfl⟩
  · split
    · exact Or.inl ⟨rfl, rfl⟩
    · split
      · exact Or.inr ⟨_, _, rfl, rfl, rfl, rfl, rfl, rfl, rfl⟩
      · exact Or.inl ⟨rfl, rfl⟩

theorem genChain_coreEq {a b s : TensorNetwork} {ms : List Nat}
    (hab : coreEq a b) (h : GenChain a s ms) :
    ∃ s', GenChain b s' ms ∧ coreEq s s' := by
  induction h with
  | nil => exact ⟨b, GenChain.nil, hab⟩
  | snoc hch hgen ih =>
    obtain ⟨p', hch', hpp'⟩ := ih
    obtain ⟨i, j, hij, hjl, hc⟩ := hgen
    rcases contract_tensors_coreEq hpp' i j with ⟨hn, -⟩ | ⟨ca, cb, hca, hcb, hcc⟩
    · rw [hc] at hn
      exact Option.noConfusion hn
    · have hcac : ca = _ := Option.some.inj (hca.symm.trans hc)
      subst hcac
      have hjl' : j < p'.tensors.length := by
        rw [← hpp'.2.2.2.2]
        exact hjl
      have hid := hcc.2.2.1
      refine ⟨cb, ?_, hcc⟩
      rw [hid]
      exact GenChain.snoc hch' ⟨i, j, hij, hjl', hcb⟩

theorem greedySearch_chain {ld ts : List Nat} {gres : List Nat × TensorNetwork}
    {root : TensorNetwork}
    (hroot : TensorNetwork.new ld ts = some root)
    (hg : greedySearch ld ts = some gres) :
    ∃ g0 ms, GenChain root g0 ms ∧ coreEq gres.2 g0 ∧
      ¬ gres.2.id < 2 ^ ncOf ts - 1 := by
  simp only [greedySearch] at hg
  rw [hroot] at hg
  simp only [Option.some_bind] at hg
  obtain ⟨ms, hch, hterm⟩ := greedyLoop_chain _ _ _ _ _ _ hg
  obtain ⟨g0, hch', hcore⟩ :=
    genChain_coreEq (⟨rfl, rfl, rfl, rfl, rfl⟩ :
      coreEq { root with
        allows_outer := List.replicate root.tensors.length false } root) hch
  exact ⟨g0, ms, hch', hcore, hterm⟩


/-! ### Bits of `id` along a chain: carriers and incidence -/

theorem contract_bit_counts {p c : TensorNetwork} {i j : Nat} (hij : i < j)
    (hjl : j < p.tensors.length)
    (hc : p.contract_tensors i j = some c) (b : Nat) :
    c.id.testBit b =
      (p.id.testBit b ||
        ((p.tensors.getD i 0).testBit b && (p.tensors.getD j 0).testBit b)) ∧
    c.tensors.countP (fun t => t.testBit b) =
      ((p.tensors.eraseIdx j).eraseIdx i).countP (fun t => t.testBit b) +
        (if ((p.tensors.getD i 0).testBit b ^^ (p.tensors.getD j 0).testBit b)
          then 1 else 0) := by
  obtain ⟨hct, hcid, -, -, -, -⟩ := contract_tensors_some_elim hij hc
  constructor
  · rw [hcid, Nat.testBit_lor, Nat.testBit_land]
  · rw [hct, List.concat_eq_append, List.countP_append, List.countP_cons,
      List.countP_nil, Nat.testBit_xor]
    omega

theorem contract_count_step {p c : TensorNetwork} {i j b rc : Nat}
    (hij : i < j) (hjl : j < p.tensors.length) (hgp : goodState p)
    (hc : p.contract_tensors i j = some c)
    (ih1 : p.id.testBit b = true → rc = 2)
    (ih2 : p.id.testBit b = false →
      p.tensors.countP (fun t => t.testBit b) = rc)
    (hrc : rc ≤ 2) :
    (c.id.testBit b = true → rc = 2) ∧
    (c.id.testBit b = false →
      c.tensors.countP (fun t => t.testBit b) = rc) := by
  have hstep := contract_bit_counts hij hjl hc b
  have h2e : p.tensors.countP (fun t => t.testBit b) =
      ((p.tensors.eraseIdx j).eraseIdx i).countP (fun t => t.testBit b) +
        (if (p.tensors.getD i 0).testBit b then 1 else 0) +
        (if (p.tensors.getD j 0).testBit b then 1 else 0) :=
    countP_two_eraseIdx (fun t => t.testBit b) p.tensors i j hij hjl
  constructor
  · intro hb
    rw [hstep.1, Bool.or_eq_true] at hb
    rcases hb with hb | hb
    · exact ih1 hb
    · rw [Bool.and_eq_true] at hb
      have hpb : p.id.testBit b = false := by
        have hmem : p.tensors.getD i 0 ∈ p.tensors := by
          rw [List.getD_eq_getElem _ 0 (lt_trans hij hjl)]
          exact List.getElem_mem _
        have hdisj := hgp.1 _ hmem
        rw [land_eq_zero_iff] at hdisj
        cases hq : p.id.testBit b with
        | false => rfl
        | true => exact absurd ⟨hb.1, hq⟩ (hdisj b)
      have halive := ih2 hpb
      rw [hb.1, hb.2] at h2e
      simp only [if_true] at h2e
      omega
  · intro hb
    rw [hstep.1] at hb
    have hboth := Bool.or_eq_false_iff.1 hb
    have halive := ih2 hboth.1
    rw [hstep.2]
    have hand := hboth.2
    cases hbi : (p.tensors.getD i 0).testBit b with
    | true =>
      have hbj : (p.tensors.getD j 0).testBit b = false := by
        cases hq : (p.tensors.getD j 0).testBit b with
        | false => rfl
        | true => rw [hbi, hq] at hand; exact Bool.noConfusion hand
      rw [hbi, hbj] at h2e
      rw [hbj]
      simp at h2e ⊢
      omega
    | false =>
      rw [hbi] at h2e
      cases hbj : (p.tensors.getD j 0).testBit b with
      | true =>
        rw [hbj] at h2e
        simp at h2e ⊢
        omega
      | false =>
        rw [hbj] at h2e
        simp at h2e ⊢
        omega

theorem reach_bit_counts {n : Nat} {root tn : TensorNetwork}
    (h : ReachN n root tn) (hg : goodState root) (hid : root.id = 0) (b : Nat) :
    (tn.id.testBit b = true →
      root.tensors.countP (fun t => t.testBit b) = 2) ∧
    (tn.id.testBit b = false →
      tn.tensors.countP (fun t => t.testBit b) =
        root.tensors.countP (fun t => t.testBit b)) := by
  induction h with
  | refl _ =>
    refine ⟨?_, fun _ => rfl⟩
    intro hb
    rw [hid, Nat.zero_testBit] at hb
    exact Bool.noConfusion hb
  | step hre hij hjlen hc ih =>
    obtain ⟨hgmid, -⟩ := reachN_good_popcount hre hg
    exact contract_count_step hij hjlen hgmid hc (ih hg hid).1 (ih hg hid).2
      (hg.2.1 b)

theorem sum_indicator_lt {k : Nat} (hk : k ≤ 64) :
    (∑ i ∈ Finset.range 64, if i < k then (1 : Nat) else 0) = k := by
  have hfil : (Finset.range 64).filter (fun i => i < k) = Finset.range k := by
    ext i
    simp only [Finset.mem_filter, Finset.mem_range]
    omega
  rw [Finset.sum_ite, Finset.sum_const, Finset.sum_const, smul_eq_mul,
    smul_eq_mul, hfil, Finset.card_range]
  omega

theorem countOnes_le_64 (n : Nat) : countOnes n ≤ 64 := by
  rw [countOnes_eq_sum]
  calc (∑ i ∈ Finset.range 64, if n.testBit i then (1 : Nat) else 0)
      ≤ ∑ i ∈ Finset.range 64, if i < 64 then (1 : Nat) else 0 :=
        Finset.sum_le_sum (fun i hi => by
          rw [if_pos (Finset.mem_range.1 hi)]
          split <;> omega)
    _ = 64 := sum_indicator_lt (le_refl 64)

theorem countOnes_two_pow_sub_one {k : Nat} (hk : k ≤ 64) :
    countOnes (2 ^ k - 1) = k := by
  rw [countOnes_eq_sum]
  have he : ∀ i, (if (2 ^ k - 1).testBit i then (1 : Nat) else 0) =
      if i < k then 1 else 0 := by
    intro i
    rw [Nat.testBit_two_pow_sub_one]
    by_cases h : i < k
    · simp [h]
    · simp [h]
  simp only [he]
  exact sum_indicator_lt hk

theorem countOnes_le_of_high_false {x k : Nat} (hk : k ≤ 64)
    (h : ∀ b, k ≤ b → x.testBit b = false) : countOnes x ≤ k := by
  rw [countOnes_eq_sum]
  calc (∑ i ∈ Finset.range 64, if x.testBit i then (1 : Nat) else 0)
      ≤ ∑ i ∈ Finset.range 64, if i < k then (1 : Nat) else 0 := by
        apply Finset.sum_le_sum
        intro i hi
        by_cases hik : i < k
        · rw [if_pos hik]
          split <;> omega
        · simp [h i (by omega), hik]
    _ = k := sum_indicator_lt hk

theorem ncOf_le_64 (ts : List Nat) : ncOf ts ≤ 64 := by
  simp only [ncOf]
  omega

theorem chain_id_high_false {root s : TensorNetwork} {ms : List Nat}
    (h : GenChain root s ms) (hg : goodState root) (hid : root.id = 0)
    (hsorted : ∀ b, ncOf root.tensors ≤ b →
      root.tensors.countP (fun t => t.testBit b) ≤ 1) :
    ∀ b, ncOf root.tensors ≤ b → s.id.testBit b = false := by
  intro b hb
  obtain ⟨n, hn⟩ := genChain_reaches h
  cases hq : s.id.testBit b with
  | false => rfl
  | true =>
    have h2 := (reach_bit_counts hn hg hid b).1 hq
    have h1 := hsorted b hb
    omega

theorem greedy_terminal_id {root g0 : TensorNetwork} {ms : List Nat}
    (hch : GenChain root g0 ms) (hg : goodState root) (hid : root.id = 0)
    (hsorted : ∀ b, ncOf root.tensors ≤ b →
      root.tensors.countP (fun t => t.testBit b) ≤ 1)
    (hterm : ¬ g0.id < 2 ^ ncOf root.tensors - 1) :
    g0.id = 2 ^ ncOf root.tensors - 1 ∧
      countOnes g0.id = ncOf root.tensors := by
  have hhigh := chain_id_high_false hch hg hid hsorted
  have hlt : g0.id < 2 ^ ncOf root.tensors :=
    Nat.lt_pow_two_of_testBit _ hhigh
  have heq : g0.id = 2 ^ ncOf root.tensors - 1 := by omega
  refine ⟨heq, ?_⟩
  rw [heq]
  exact countOnes_two_pow_sub_one (ncOf_le_64 _)

theorem new_elim {ld ts : List Nat} {root : TensorNetwork}
    (h : TensorNetwork.new ld ts = some root) :
    root.id = 0 ∧ root.parent = 0 ∧ root.cpu = 0 ∧ root.tensors = ts ∧
      root.legs_dim = ld := by
  simp only [TensorNetwork.new] at h
  rw [Option.map_eq_some'] at h
  obtain ⟨sizes, -, hroot⟩ := h
  rw [← hroot]
  exact ⟨rfl, rfl, rfl, rfl, rfl⟩

theorem new_goodState {ld ts : List Nat} {root : TensorNetwork}
    (h : TensorNetwork.new ld ts = some root)
    (hb : ∀ t ∈ ts, t < 2 ^ 64)
    (hinc : ∀ b : Nat, ts.countP (fun t => t.testBit b) ≤ 2) :
    goodState root := by
  obtain ⟨hid, -, -, hts, -⟩ := new_elim h
  refine ⟨?_, ?_, ?_, ?_⟩
  · intro t ht
    rw [hid]
    simp
  · intro b
    rw [hts]
    exact hinc b
  · rw [hid]
    exact Nat.two_pow_pos 64
  · intro t ht
    rw [hts] at ht
    exact hb t ht

/-! ### Same `id` determines the live tensors: merge-class machinery -/

theorem xorSum_append (l1 l2 : List Nat) :
    xorSum (l1 ++ l2) = xorSum l1 ^^^ xorSum l2 := by
  induction l1 with
  | nil => simp [xorSum]
  | cons a rest ih =>
    rw [List.cons_append, xorSum_cons, xorSum_cons, ih, Nat.xor_assoc]

theorem posXor_append (ts : List Nat) (c1 c2 : List Nat) :
    posXor ts (c1 ++ c2) = posXor ts c1 ^^^ posXor ts c2 := by
  unfold posXor
  rw [List.map_append, xorSum_append]

theorem posXor_testBit (ts : List Nat) (cls : List Nat) (b : Nat) :
    (posXor ts cls).testBit b =
      decide ((cls.countP fun p => (ts.getD p 0).testBit b) % 2 = 1) := by
  unfold posXor
  induction cls with
  | nil =>
    simp [xorSum, Nat.zero_testBit]
  | cons p rest ih =>
    rw [List.map_cons, xorSum_cons, Nat.testBit_xor, ih]
    have hcnt : (p :: rest).countP (fun q => (ts.getD q 0).testBit b) =
        rest.countP (fun q => (ts.getD q 0).testBit b) +
          (if (ts.getD p 0).testBit b then 1 else 0) := by
      rw [List.countP_cons]
    rw [hcnt]
    cases hb1 : (ts.getD p 0).testBit b
    · rw [if_neg (by decide : ¬ (false = true)), Nat.add_zero, Bool.false_xor]
    · rw [if_pos rfl]
      rcases Nat.mod_two_eq_zero_or_one
          (rest.countP fun q => (ts.getD q 0).testBit b) with h | h
      · have h2 : (rest.countP (fun q => (ts.getD q 0).testBit b) + 1) % 2 = 1 :=
          by omega
        rw [h, h2]
        decide
      · have h2 : (rest.countP (fun q => (ts.getD q 0).testBit b) + 1) % 2 = 0 :=
          by omega
        rw [h, h2]
        decide

theorem map_eraseIdx {α β : Type} (f : α → β) :
    ∀ (l : List α) (i : Nat), (l.eraseIdx i).map f = (l.map f).eraseIdx i := by
  intro l
  induction l with
  | nil => intro i; rfl
  | cons a rest ih =>
    intro i
    cases i with
    | zero => rfl
    | succ n =>
      simp only [List.eraseIdx_cons_succ, List.map_cons, ih]

theorem perm_getElem_eraseIdx_gen {α : Type} (l : List α) (i : Nat)
    (hi : i < l.length) : l.Perm (l[i] :: l.eraseIdx i) := by
  induction l generalizing i with
  | nil => simp at hi
  | cons a tl ih =>
    cases i with
    | zero => simp
    | succ n =>
      have hn : n < tl.length := by simpa using hi
      have h1 := (ih n hn).cons a
      have h2 := List.Perm.swap tl[n] a (tl.eraseIdx n)
      rw [List.getElem_cons_succ, List.eraseIdx_cons_succ]
      exact h1.trans h2

theorem perm_two_eraseIdx_gen {α : Type} (d : α) (l : List α) (i j : Nat)
    (hij : i < j) (hj : j < l.length) :
    l.Perm (l.getD i d :: l.getD j d :: (l.eraseIdx j).eraseIdx i) := by
  have hi : i < l.length := lt_trans hij hj
  have hej : (l.eraseIdx j).length = l.length - 1 := by
    rw [List.length_eraseIdx]
    simp [hj]
  have hie : i < (l.eraseIdx j).length := by omega
  have h1 := perm_getElem_eraseIdx_gen l j hj
  have h2 := (perm_getElem_eraseIdx_gen (l.eraseIdx j) i hie).cons l[j]
  have h3 : (l.eraseIdx j)[i] = l[i] := by
    rw [List.getElem_eraseIdx]
    exact dif_pos hij
  rw [h3] at h2
  have h4 := List.Perm.swap l[i] l[j] ((l.eraseIdx j).eraseIdx i)
  rw [List.getD_eq_getElem l d hi, List.getD_eq_getElem l d hj]
  exact (h1.trans h2).trans h4

theorem tensors_getD_part {ts : List Nat} {tn : TensorNetwork}
    {P : List (List Nat)} (h1 : tn.tensors = P.map (posXor ts)) {i : Nat}
    (hi : i < P.length) :
    tn.tensors.getD i 0 = posXor ts (P.getD i []) := by
  rw [h1, List.getD_eq_getElem _ _ (by rw [List.length_map]; exact hi),
    List.getElem_map, List.getD_eq_getElem _ _ hi]

theorem relTo_trans {r : Nat → Nat → Prop} {a b c : Nat}
    (h1 : a = b ∨ Relation.TransGen r a b)
    (h2 : b = c ∨ Relation.TransGen r b c) :
    a = c ∨ Relation.TransGen r a c := by
  rcases h1 with h1 | h1
  · rw [h1]
    exact h2
  · rcases h2 with h2 | h2
    · rw [← h2]
      exact Or.inr h1
    · exact Or.inr (h1.trans h2)

theorem testBit_ne_zero {n b : Nat} (h : n.testBit b = true) : n ≠ 0 := by
  intro h0
  rw [h0, Nat.zero_testBit] at h
  exact Bool.noConfusion h

theorem edge_of_bits {ts : List Nat} {m p q b : Nat}
    (hp : (ts.getD p 0).testBit b = true)
    (hq : (ts.getD q 0).testBit b = true) (hm : m.testBit b = true) :
    edgeRel ts m p q := by
  unfold edgeRel
  apply testBit_ne_zero (b := b)
  rw [Nat.testBit_land, Nat.testBit_land, hp, hq, hm]
  rfl

theorem edge_mono {ts : List Nat} {m m' p q : Nat}
    (hsub : ∀ b, m.testBit b = true → m'.testBit b = true)
    (h : edgeRel ts m p q) : edgeRel ts m' p q := by
  unfold edgeRel at h ⊢
  obtain ⟨b, hbit⟩ := exists_testBit_of_ne_zero h
  rw [Nat.testBit_land, Nat.testBit_land, Bool.and_eq_true, Bool.and_eq_true]
    at hbit
  exact edge_of_bits hbit.1.1 hbit.1.2 (hsub b hbit.2)

theorem relTo_mono {ts : List Nat} {m m' : Nat} {p q : Nat}
    (hsub : ∀ b, m.testBit b = true → m'.testBit b = true)
    (h : p = q ∨ Relation.TransGen (edgeRel ts m) p q) :
    p = q ∨ Relation.TransGen (edgeRel ts m') p q := by
  rcases h with h | h
  · exact Or.inl h
  · refine Or.inr (Relation.TransGen.mono ?_ h)
    intro x y hxy
    exact edge_mono hsub hxy

theorem list_getD_mem {α : Type} (l : List α) (d : α) {i : Nat}
    (h : i < l.length) : l.getD i d ∈ l := by
  rw [List.getD_eq_getElem _ _ h]
  exact List.getElem_mem _

theorem mem_of_mem_eraseIdx2 {α : Type} {x : α} {l : List α} {i j : Nat}
    (h : x ∈ (l.eraseIdx j).eraseIdx i) : x ∈ l :=
  (List.eraseIdx_sublist _ _).subset ((List.eraseIdx_sublist _ _).subset h)

theorem part_step {ts : List Nat} {p c : TensorNetwork} {P : List (List Nat)}
    {i j : Nat} (hij : i < j) (hjl : j < p.tensors.length)
    (hgp : goodState p) (hc : p.contract_tensors i j = some c)
    (hP : PartOk ts p P) :
    PartOk ts c (((P.eraseIdx j).eraseIdx i).concat
      (P.getD i [] ++ P.getD j [])) := by
  obtain ⟨h1, h2, h3, h4, h5⟩ := hP
  have hlenP : p.tensors.length = P.length := by
    have := congrArg List.length h1
    rw [List.length_map] at this
    exact this
  have hjP : j < P.length := by omega
  have hiP : i < P.length := by omega
  have hi_mem : P.getD i [] ∈ P := list_getD_mem P [] hiP
  have hj_mem : P.getD j [] ∈ P := list_getD_mem P [] hjP
  have hti : p.tensors.getD i 0 = posXor ts (P.getD i []) :=
    tensors_getD_part h1 hiP
  have htj : p.tensors.getD j 0 = posXor ts (P.getD j []) :=
    tensors_getD_part h1 hjP
  obtain ⟨hct, hcid, -, -, hne, -⟩ := contract_tensors_some_elim hij hc
  have hPperm : P.Perm
      (P.getD i [] :: P.getD j [] :: (P.eraseIdx j).eraseIdx i) :=
    perm_two_eraseIdx_gen [] P i j hij hjP
  have hbits := fun b => (contract_bit_counts hij hjl hc b).1
  have hsub : ∀ b, p.id.testBit b = true → c.id.testBit b = true := by
    intro b hbb
    rw [hbits b, Bool.or_eq_true]
    exact Or.inl hbb
  refine ⟨?_, ?_, ?_, ?_, ?_⟩
  · rw [hct, List.map_concat, map_eraseIdx, map_eraseIdx, ← h1,
      posXor_append, ← hti, ← htj]
  · have hflat : ((((P.eraseIdx j).eraseIdx i).concat
        (P.getD i [] ++ P.getD j []))).flatten =
        ((P.eraseIdx j).eraseIdx i).flatten ++
          (P.getD i [] ++ P.getD j []) := by
      rw [List.concat_eq_append, List.flatten_append, List.flatten_cons,
        List.flatten_nil, List.append_nil]
    rw [hflat]
    have hA := hPperm.flatten
    have hB : (P.getD i [] :: P.getD j [] ::
        (P.eraseIdx j).eraseIdx i).flatten =
        P.getD i [] ++ (P.getD j [] ++
          ((P.eraseIdx j).eraseIdx i).flatten) := by
      rw [List.flatten_cons, List.flatten_cons]
    rw [hB] at hA
    have hstep1 : (((P.eraseIdx j).eraseIdx i).flatten ++
        (P.getD i [] ++ P.getD j [])).Perm
        ((P.getD i [] ++ P.getD j []) ++
          ((P.eraseIdx j).eraseIdx i).flatten) := List.perm_append_comm
    rw [List.append_assoc] at hstep1
    exact (hstep1.trans hA.symm).trans h2
  · intro cls hcls
    rw [List.concat_eq_append, List.mem_append] at hcls
    rcases hcls with hcls | hcls
    · exact h3 cls (mem_of_mem_eraseIdx2 hcls)
    · rw [List.mem_singleton] at hcls
      subst hcls
      intro happ
      rw [List.append_eq_nil] at happ
      exact h3 _ hi_mem happ.1
  · intro b
    rw [hbits b]
    constructor
    · intro hb
      rw [Bool.or_eq_true] at hb
      rcases hb with hb | hb
      · obtain ⟨cls, hclsP, hcnt⟩ := (h4 b).1 hb
        have hmem3 := hPperm.mem_iff.1 hclsP
        rcases List.mem_cons.1 hmem3 with hcc | hcc
        · refine ⟨P.getD i [] ++ P.getD j [], ?_, ?_⟩
          · rw [List.concat_eq_append, List.mem_append]
            exact Or.inr (List.mem_singleton.2 rfl)
          · rw [List.countP_append, ← hcc]
            omega
        · rcases List.mem_cons.1 hcc with hcc2 | hcc2
          · refine ⟨P.getD i [] ++ P.getD j [], ?_, ?_⟩
            · rw [List.concat_eq_append, List.mem_append]
              exact Or.inr (List.mem_singleton.2 rfl)
            · rw [List.countP_append, ← hcc2]
              omega
          · refine ⟨cls, ?_, hcnt⟩
            rw [List.concat_eq_append, List.mem_append]
            exact Or.inl hcc2
      · rw [Bool.and_eq_true, hti, htj, posXor_testBit, posXor_testBit,
          decide_eq_true_eq, decide_eq_true_eq] at hb
        refine ⟨P.getD i [] ++ P.getD j [], ?_, ?_⟩
        · rw [List.concat_eq_append, List.mem_append]
          exact Or.inr (List.mem_singleton.2 rfl)
        · rw [List.countP_append]
          omega
    · intro hex
      obtain ⟨cls, hcls, hcnt⟩ := hex
      rw [List.concat_eq_append, List.mem_append] at hcls
      rcases hcls with hcls | hcls
      · have hpb := (h4 b).2 ⟨cls, mem_of_mem_eraseIdx2 hcls, hcnt⟩
        rw [Bool.or_eq_true]
        exact Or.inl hpb
      · rw [List.mem_singleton] at hcls
        subst hcls
        rw [List.countP_append] at hcnt
        by_cases hci : 2 ≤ (P.getD i []).countP
            (fun q => (ts.getD q 0).testBit b)
        · rw [Bool.or_eq_true]
          exact Or.inl ((h4 b).2 ⟨P.getD i [], hi_mem, hci⟩)
        · by_cases hcj : 2 ≤ (P.getD j []).countP
              (fun q => (ts.getD q 0).testBit b)
          · rw [Bool.or_eq_true]
            exact Or.inl ((h4 b).2 ⟨P.getD j [], hj_mem, hcj⟩)
          · rw [Bool.or_eq_true]
            right
            rw [Bool.and_eq_true, hti, htj, posXor_testBit, posXor_testBit,
              decide_eq_true_eq, decide_eq_true_eq]
            constructor <;> omega
  · intro cls hcls p0 hp0 q0 hq0
    rw [List.concat_eq_append, List.mem_append] at hcls
    rcases hcls with hcls | hcls
    · exact relTo_mono hsub
        (h5 cls (mem_of_mem_eraseIdx2 hcls) p0 hp0 q0 hq0)
    · rw [List.mem_singleton] at hcls
      subst hcls
      have hδ : (posXor ts (P.getD i []) &&& posXor ts (P.getD j [])) ≠ 0 := by
        rw [← hti, ← htj]
        exact hne
      obtain ⟨b, hbb⟩ := exists_testBit_of_ne_zero hδ
      rw [Nat.testBit_land, Bool.and_eq_true, posXor_testBit, posXor_testBit,
        decide_eq_true_eq, decide_eq_true_eq] at hbb
      have hcarrI : ∃ x ∈ P.getD i [],
          ((ts.getD x 0).testBit b) = true := by
        apply List.countP_pos_iff.1
        omega
      have hcarrJ : ∃ x ∈ P.getD j [],
          ((ts.getD x 0).testBit b) = true := by
        apply List.countP_pos_iff.1
        omega
      obtain ⟨pi2, hpiI, hpib⟩ := hcarrI
      obtain ⟨pj2, hpjJ, hpjb⟩ := hcarrJ
      have hcb : c.id.testBit b = true := by
        rw [hbits b, Bool.or_eq_true]
        right
        rw [Bool.and_eq_true, hti, htj, posXor_testBit, posXor_testBit,
          decide_eq_true_eq, decide_eq_true_eq]
        exact hbb
      have hconnI : ∀ x ∈ P.getD i [], ∀ y ∈ P.getD i [],
          x = y ∨ Relation.TransGen (edgeRel ts c.id) x y :=
        fun x hx y hy => relTo_mono hsub (h5 _ hi_mem x hx y hy)
      have hconnJ : ∀ x ∈ P.getD j [], ∀ y ∈ P.getD j [],
          x = y ∨ Relation.TransGen (edgeRel ts c.id) x y :=
        fun x hx y hy => relTo_mono hsub (h5 _ hj_mem x hx y hy)
      rw [List.mem_append] at hp0 hq0
      rcases hp0 with hp0 | hp0 <;> rcases hq0 with hq0 | hq0
      · exact hconnI p0 hp0 q0 hq0
      · exact relTo_trans (hconnI p0 hp0 pi2 hpiI)
          (relTo_trans
            (Or.inr (Relation.TransGen.single (edge_of_bits hpib hpjb hcb)))
            (hconnJ pj2 hpjJ q0 hq0))
      · exact relTo_trans (hconnJ p0 hp0 pj2 hpjJ)
          (relTo_trans
            (Or.inr (Relation.TransGen.single (edge_of_bits hpjb hpib hcb)))
            (hconnI pi2 hpiI q0 hq0))
      · exact hconnJ p0 hp0 q0 hq0

theorem map_getD_range : ∀ ts : List Nat,
    (List.range ts.length).map (fun p => ts.getD p 0) = ts := by
  intro ts
  induction ts with
  | nil => rfl
  | cons a rest ih =>
    rw [List.length_cons, List.range_succ_eq_map, List.map_cons, List.map_map]
    have hcomp : ((fun p => (a :: rest).getD p 0) ∘ Nat.succ) =
        fun p => rest.getD p 0 := rfl
    rw [hcomp, ih]
    rfl

theorem flatten_singletons : ∀ l : List Nat,
    (l.map fun p => ([p] : List Nat)).flatten = l := by
  intro l
  induction l with
  | nil => rfl
  | cons a rest ih =>
    rw [List.map_cons, List.flatten_cons, ih]
    rfl

theorem part_init {ts : List Nat} {root : TensorNetwork}
    (h1 : root.tensors = ts) (hid : root.id = 0) :
    PartOk ts root ((List.range ts.length).map fun p => [p]) := by
  refine ⟨?_, ?_, ?_, ?_, ?_⟩
  · rw [h1, List.map_map]
    have hpt : ∀ p ∈ List.range ts.length,
        (posXor ts ∘ fun q => ([q] : List Nat)) p = ts.getD p 0 := by
      intro p _
      simp [posXor, xorSum]
    rw [List.map_congr_left hpt, map_getD_range]
  · rw [flatten_singletons]
  · intro cls hcls
    obtain ⟨p, -, hp⟩ := List.mem_map.1 hcls
    rw [← hp]
    exact List.cons_ne_nil _ _
  · intro b
    rw [hid, Nat.zero_testBit]
    constructor
    · intro hb
      exact Bool.noConfusion hb
    · intro hex
      obtain ⟨cls, hcls, hcnt⟩ := hex
      obtain ⟨p, -, hp⟩ := List.mem_map.1 hcls
      rw [← hp, List.countP_cons, List.countP_nil] at hcnt
      exfalso
      by_cases hc : (ts.getD p 0).testBit b
      · rw [if_pos hc] at hcnt
        omega
      · rw [if_neg hc] at hcnt
        omega
  · intro cls hcls p0 hp0 q0 hq0
    obtain ⟨p, -, hp⟩ := List.mem_map.1 hcls
    rw [← hp] at hp0 hq0
    rw [List.mem_singleton] at hp0 hq0
    exact Or.inl (hp0.trans hq0.symm)

theorem part_reach {root tn : TensorNetwork} {n : Nat}
    (h : ReachN n root tn) (hg : goodState root) (hid : root.id = 0) :
    ∃ P, PartOk root.tensors tn P := by
  induction h with
  | refl _ => exact ⟨_, part_init rfl hid⟩
  | step hre hij hjlen hc ih =>
    obtain ⟨P, hP⟩ := ih hg hid
    obtain ⟨hgmid, -⟩ := reachN_good_popcount hre hg
    exact ⟨_, part_step hij hjlen hgmid hc hP⟩

theorem flatten_nodup_class_unique {P : List (List Nat)}
    (hnd : P.flatten.Nodup) {c1 c2 : List Nat} {x : Nat} (h1 : c1 ∈ P)
    (h2 : c2 ∈ P) (hx1 : x ∈ c1) (hx2 : x ∈ c2) : c1 = c2 := by
  have hpw := (List.nodup_flatten.1 hnd).2
  by_contra hne
  exact (hpw.forall (fun _ _ hd => List.Disjoint.symm hd) h1 h2 hne) hx1 hx2

theorem two_distinct_of_countP {l : List Nat} {pr : Nat → Bool}
    (hnd : l.Nodup) (h : 2 ≤ l.countP pr) :
    ∃ a b, a ∈ l ∧ b ∈ l ∧ pr a = true ∧ pr b = true ∧ a ≠ b := by
  induction l with
  | nil => rw [List.countP_nil] at h; omega
  | cons x rest ih =>
    rw [List.countP_cons] at h
    rw [List.nodup_cons] at hnd
    by_cases hx : pr x = true
    · rw [if_pos hx] at h
      have hr0 : 0 < rest.countP pr := by omega
      obtain ⟨a, ha, hpa⟩ := List.countP_pos_iff.1 hr0
      exact ⟨x, a, List.mem_cons_self _ _, List.mem_cons_of_mem _ ha, hx, hpa,
        fun he => hnd.1 (he ▸ ha)⟩
    · rw [if_neg hx] at h
      obtain ⟨a, b, ha, hb, hpa, hpb, hab⟩ := ih hnd.2 (by omega)
      exact ⟨a, b, List.mem_cons_of_mem _ ha, List.mem_cons_of_mem _ hb, hpa,
        hpb, hab⟩

theorem carriers_in_range (ts : List Nat) (b : Nat) :
    ts.countP (fun t => t.testBit b) =
      (List.range ts.length).countP (fun p => (ts.getD p 0).testBit b) := by
  conv_lhs => rw [← map_getD_range ts]
  rw [List.countP_map]
  rfl

theorem three_distinct_mem_le_countP (pr : Nat → Bool) (n : Nat) (x y z : Nat)
    (hx : x ∈ List.range n) (hy : y ∈ List.range n) (hz : z ∈ List.range n)
    (px : pr x = true) (py : pr y = true) (pz : pr z = true)
    (hxy : x ≠ y) (hxz : x ≠ z) (hyz : y ≠ z) :
    3 ≤ (List.range n).countP pr := by
  have hx' := List.mem_range.1 hx
  have hy' := List.mem_range.1 hy
  have hz' := List.mem_range.1 hz
  have hlen : (List.range n).length = n := List.length_range _
  have hgd : ∀ w, w < n → (List.range n).getD w 0 = w := by
    intro w hw
    rw [List.getD_eq_getElem _ _ (by rw [hlen]; exact hw)]
    exact List.getElem_range _ _
  exact three_distinct_le_countP pr (List.range n) x y z hxy hxz hyz
    (by rw [hlen]; exact hx') (by rw [hlen]; exact hy')
    (by rw [hlen]; exact hz')
    (by rw [hgd x hx']; exact px) (by rw [hgd y hy']; exact py)
    (by rw [hgd z hz']; exact pz)

theorem transGen_stays {ts : List Nat} {m : Nat} {P' : List (List Nat)}
    (hflat' : P'.flatten.Perm (List.range ts.length))
    (hbits' : ∀ b : Nat, m.testBit b = true ↔
      ∃ cls ∈ P', 2 ≤ cls.countP (fun q => (ts.getD q 0).testBit b))
    (hglob : ∀ b : Nat, ts.countP (fun t => t.testBit b) ≤ 2)
    {p q : Nat} (h : Relation.TransGen (edgeRel ts m) p q) :
    ∀ cls' ∈ P', p ∈ cls' → q ∈ cls' := by
  have hnd' : P'.flatten.Nodup := hflat'.symm.nodup (List.nodup_range _)
  have hstep : ∀ x y : Nat, edgeRel ts m x y →
      ∀ cls' ∈ P', x ∈ cls' → y ∈ cls' := by
    intro x y hxy cls' hcls' hx
    unfold edgeRel at hxy
    obtain ⟨b, hb3⟩ := exists_testBit_of_ne_zero hxy
    rw [Nat.testBit_land, Nat.testBit_land, Bool.and_eq_true,
      Bool.and_eq_true] at hb3
    obtain ⟨cls2, hcls2, hcnt2⟩ := (hbits' b).1 hb3.2
    have hcls2nd : cls2.Nodup := (List.nodup_flatten.1 hnd').1 cls2 hcls2
    obtain ⟨a1, a2, ha1, ha2, hpa1, hpa2, hne12⟩ :=
      two_distinct_of_countP hcls2nd hcnt2
    have hg2 : (List.range ts.length).countP
        (fun r => (ts.getD r 0).testBit b) ≤ 2 := by
      rw [← carriers_in_range]
      exact hglob b
    have hmemrange : ∀ z ∈ cls2, z ∈ List.range ts.length := fun z hz =>
      hflat'.subset (List.mem_flatten.2 ⟨cls2, hcls2, hz⟩)
    have hxr : x ∈ List.range ts.length := by
      rw [List.mem_range]
      by_contra hge
      rw [List.getD_eq_default _ _ (by omega)] at hb3
      have hfalse := hb3.1.1
      rw [Nat.zero_testBit] at hfalse
      exact Bool.noConfusion hfalse
    have hyr : y ∈ List.range ts.length := by
      rw [List.mem_range]
      by_contra hge
      have h2 := hb3.1.2
      rw [List.getD_eq_default _ _ (by omega)] at h2
      rw [Nat.zero_testBit] at h2
      exact Bool.noConfusion h2
    have hx12 : x = a1 ∨ x = a2 := by
      by_contra hcon
      push_neg at hcon
      have h3 := three_distinct_mem_le_countP
        (fun r => (ts.getD r 0).testBit b) ts.length x a1 a2 hxr
        (hmemrange a1 ha1) (hmemrange a2 ha2) hb3.1.1 hpa1 hpa2
        hcon.1 hcon.2 hne12
      omega
    have hy12 : y = a1 ∨ y = a2 := by
      by_contra hcon
      push_neg at hcon
      have h3 := three_distinct_mem_le_countP
        (fun r => (ts.getD r 0).testBit b) ts.length y a1 a2 hyr
        (hmemrange a1 ha1) (hmemrange a2 ha2) hb3.1.2 hpa1 hpa2
        hcon.1 hcon.2 hne12
      omega
    have hxc2 : x ∈ cls2 := by
      rcases hx12 with h' | h' <;> rw [h']
      · exact ha1
      · exact ha2
    have hyc2 : y ∈ cls2 := by
      rcases hy12 with h' | h' <;> rw [h']
      · exact ha1
      · exact ha2
    have hceq := flatten_nodup_class_unique hnd' hcls' hcls2 hx hxc2
    rw [hceq]
    exact hyc2
  induction h with
  | single hxy => exact fun cls' hc hp => hstep _ _ hxy cls' hc hp
  | tail hxy hlast ih =>
    exact fun cls' hc hp => hstep _ _ hlast cls' hc (ih cls' hc hp)

theorem partition_map_perm {α : Type} (f : List Nat → α)
    (hf : ∀ a b : List Nat, a.Perm b → f a = f b) :
    ∀ (P : List (List Nat)) (P' : List (List Nat)) (U : List Nat),
      P.flatten.Perm U → P'.flatten.Perm U →
      (∀ cls ∈ P, cls ≠ []) → (∀ cls' ∈ P', cls' ≠ []) →
      (∀ cls ∈ P, ∀ cls' ∈ P', ∀ x, x ∈ cls → x ∈ cls' → cls.Perm cls') →
      (P.map f).Perm (P'.map f) := by
  intro P
  induction P with
  | nil =>
    intro P' U hU hU' hne hne' hmatch
    have hU0 : U = [] := hU.symm.eq_nil
    subst hU0
    have hP'f : P'.flatten = [] := hU'.eq_nil
    cases P' with
    | nil => exact List.Perm.refl _
    | cons c' rest' =>
      exfalso
      rw [List.flatten_cons, List.append_eq_nil] at hP'f
      exact hne' c' (List.mem_cons_self _ _) hP'f.1
  | cons cls rest ih =>
    intro P' U hU hU' hne hne' hmatch
    obtain ⟨x0, hx0⟩ :=
      List.exists_mem_of_ne_nil cls (hne cls (List.mem_cons_self _ _))
    have hx0U : x0 ∈ U := hU.subset
      (by rw [List.flatten_cons]; exact List.mem_append.2 (Or.inl hx0))
    have hx0P' : x0 ∈ P'.flatten := hU'.symm.subset hx0U
    obtain ⟨cls', hcls', hx0'⟩ := List.mem_flatten.1 hx0P'
    have hperm : cls.Perm cls' :=
      hmatch cls (List.mem_cons_self _ _) cls' hcls' x0 hx0 hx0'
    obtain ⟨l1, l2, hsplit⟩ := List.append_of_mem hcls'
    subst hsplit
    have hP'p : (l1 ++ cls' :: l2).Perm (cls' :: (l1 ++ l2)) :=
      List.perm_middle
    have hmem12 : ∀ c ∈ l1 ++ l2, c ∈ l1 ++ cls' :: l2 := by
      intro c hc
      rw [List.mem_append] at hc
      rw [List.mem_append]
      rcases hc with hc | hc
      · exact Or.inl hc
      · exact Or.inr (List.mem_cons_of_mem _ hc)
    have hef : (l1 ++ l2).flatten.Perm rest.flatten := by
      have hA := hP'p.flatten
      rw [List.flatten_cons] at hA
      have hB : (cls' ++ (l1 ++ l2).flatten).Perm
          (cls' ++ rest.flatten) := by
        have hC : (cls ++ rest.flatten).Perm (cls' ++ rest.flatten) :=
          hperm.append_right _
        have hD : (cls' ++ (l1 ++ l2).flatten).Perm U := hA.symm.trans hU'
        have hE : (cls ++ rest.flatten).Perm U := by
          have := hU
          rw [List.flatten_cons] at this
          exact this
        exact hD.trans (hE.symm.trans hC)
      exact (List.perm_append_left_iff _).1 hB
    have hrec := ih (l1 ++ l2) rest.flatten (List.Perm.refl _) hef
      (fun c hc => hne c (List.mem_cons_of_mem _ hc))
      (fun c hc => hne' c (hmem12 c hc))
      (fun c hc c' hc' x hx hx' =>
        hmatch c (List.mem_cons_of_mem _ hc) c' (hmem12 c' hc')
          x hx hx')
    have h1 : ((cls :: rest).map f).Perm
        (f cls' :: (l1 ++ l2).map f) := by
      rw [List.map_cons, hf cls cls' hperm]
      exact hrec.cons _
    have h2 : ((l1 ++ cls' :: l2).map f).Perm
        (f cls' :: (l1 ++ l2).map f) := by
      have := hP'p.map f
      rw [List.map_cons] at this
      exact this
    exact h1.trans h2.symm

theorem part_unique {ts : List Nat} {s s' : TensorNetwork}
    {P P' : List (List Nat)}
    (hP : PartOk ts s P) (hP' : PartOk ts s' P') (hid : s.id = s'.id)
    (hglob : ∀ b : Nat, ts.countP (fun t => t.testBit b) ≤ 2) :
    s.tensors.Perm s'.tensors := by
  obtain ⟨a1, a2, a3, a4, a5⟩ := hP
  obtain ⟨b1, b2, b3, b4, b5⟩ := hP'
  rw [a1, b1]
  have hndP : P.flatten.Nodup := a2.symm.nodup (List.nodup_range _)
  have hndP' : P'.flatten.Nodup := b2.symm.nodup (List.nodup_range _)
  have hmatch : ∀ cls ∈ P, ∀ cls' ∈ P', ∀ x, x ∈ cls → x ∈ cls' →
      cls.Perm cls' := by
    intro cls hcls cls' hcls' x hx hx'
    have hsub1 : cls ⊆ cls' := by
      intro q hq
      rcases a5 cls hcls x hx q hq with he | hpath
      · rw [← he]
        exact hx'
      · exact transGen_stays b2 (fun b => by rw [hid]; exact b4 b) hglob
          hpath cls' hcls' hx'
    have hsub2 : cls' ⊆ cls := by
      intro q hq
      rcases b5 cls' hcls' x hx' q hq with he | hpath
      · rw [← he]
        exact hx
      · exact transGen_stays a2 (fun b => by rw [← hid]; exact a4 b) hglob
          hpath cls hcls hx
    have hnd1 : cls.Nodup := (List.nodup_flatten.1 hndP).1 cls hcls
    have hnd2 : cls'.Nodup := (List.nodup_flatten.1 hndP').1 cls' hcls'
    exact (hnd1.subperm hsub1).antisymm (hnd2.subperm hsub2)
  exact partition_map_perm (posXor ts)
    (fun a b hp => xorSum_perm (hp.map _)) P P' (List.range ts.length)
    a2 b2 a3 b3 hmatch

theorem reach_id_perm {root s1 s2 : TensorNetwork}
    (hg : goodState root) (hid : root.id = 0)
    (h1 : Reaches root s1) (h2 : Reaches root s2) (heq : s1.id = s2.id) :
    s1.tensors.Perm s2.tensors := by
  obtain ⟨n1, hn1⟩ := h1
  obtain ⟨n2, hn2⟩ := h2
  obtain ⟨P1, hP1⟩ := part_reach hn1 hg hid
  obtain ⟨P2, hP2⟩ := part_reach hn2 hg hid
  exact part_unique hP1 hP2 heq hg.2.1

/-! ### Transporting one greedy step onto a table entry with the same id -/

theorem reachN_legs_dim {n : Nat} {root tn : TensorNetwork}
    (h : ReachN n root tn) : tn.legs_dim = root.legs_dim := by
  induction h with
  | refl _ => rfl
  | step hre hij hjlen hc ih =>
    rw [(contract_tensors_some_elim hij hc).2.2.2.1, ih]

theorem perm_pair_positions {v : List Nat} {ta tb : Nat} {R : List Nat}
    (h : v.Perm (ta :: tb :: R)) :
    ∃ i' j', i' < j' ∧ j' < v.length ∧
      ((v.getD i' 0 = ta ∧ v.getD j' 0 = tb) ∨
       (v.getD i' 0 = tb ∧ v.getD j' 0 = ta)) ∧
      ((v.eraseIdx j').eraseIdx i').Perm R := by
  have hta : ta ∈ v := h.mem_iff.2 (List.mem_cons_self _ _)
  obtain ⟨w1, w2, hsplit⟩ := List.append_of_mem hta
  subst hsplit
  have hmid : (w1 ++ ta :: w2).Perm (ta :: (w1 ++ w2)) := List.perm_middle
  have h12 : (w1 ++ w2).Perm (tb :: R) := (hmid.symm.trans h).cons_inv
  have hlen : (w1 ++ ta :: w2).length = w1.length + w2.length + 1 := by
    rw [List.length_append, List.length_cons]
    omega
  have htb : tb ∈ w1 ++ w2 := h12.mem_iff.2 (List.mem_cons_self _ _)
  rw [List.mem_append] at htb
  rcases htb with htb | htb
  · obtain ⟨k, hk, hkv⟩ := List.getElem_of_mem htb
    have hkl : k < (w1 ++ ta :: w2).length := by omega
    have hwl : w1.length < (w1 ++ ta :: w2).length := by omega
    have hgk : (w1 ++ ta :: w2).getD k 0 = tb := by
      rw [List.getD_eq_getElem _ _ hkl, List.getElem_append_left hk]
      exact hkv
    have hga : (w1 ++ ta :: w2).getD w1.length 0 = ta := by
      rw [List.getD_eq_getElem _ _ hwl,
        List.getElem_append_right (le_refl w1.length)]
      simp
    refine ⟨k, w1.length, hk, hwl, Or.inr ⟨hgk, hga⟩, ?_⟩
    have hp2 := perm_two_eraseIdx (w1 ++ ta :: w2) k w1.length hk hwl
    rw [hgk, hga] at hp2
    have hcomb : (ta :: tb :: R).Perm
        (tb :: ta :: (((w1 ++ ta :: w2).eraseIdx w1.length).eraseIdx k)) :=
      h.symm.trans hp2
    have hsw := List.Perm.swap ta tb
      (((w1 ++ ta :: w2).eraseIdx w1.length).eraseIdx k)
    have := (hcomb.trans hsw).cons_inv.cons_inv
    exact this.symm
  · obtain ⟨k, hk, hkv⟩ := List.getElem_of_mem htb
    have hjv : w1.length + 1 + k < (w1 ++ ta :: w2).length := by omega
    have hwl : w1.length < (w1 ++ ta :: w2).length := by omega
    have hga : (w1 ++ ta :: w2).getD w1.length 0 = ta := by
      rw [List.getD_eq_getElem _ _ hwl,
        List.getElem_append_right (le_refl w1.length)]
      simp
    have hgk : (w1 ++ ta :: w2).getD (w1.length + 1 + k) 0 = tb := by
      rw [List.getD_eq_getElem _ _ hjv,
        List.getElem_append_right (by omega : w1.length ≤ w1.length + 1 + k)]
      have : w1.length + 1 + k - w1.length = k + 1 := by omega
      simp only [this, List.getElem_cons_succ]
      exact hkv
    refine ⟨w1.length, w1.length + 1 + k, by omega, hjv,
      Or.inl ⟨hga, hgk⟩, ?_⟩
    have hp2 := perm_two_eraseIdx (w1 ++ ta :: w2) w1.length
      (w1.length + 1 + k) (by omega) hjv
    rw [hga, hgk] at hp2
    have hcomb : (ta :: tb :: R).Perm (ta :: tb ::
        (((w1 ++ ta :: w2).eraseIdx (w1.length + 1 + k)).eraseIdx
          w1.length)) := h.symm.trans hp2
    exact hcomb.cons_inv.cons_inv.symm

theorem mirror_step {p s v : TensorNetwork} {i j : Nat}
    (hij : i < j) (hjl : j < p.tensors.length)
    (hc : p.contract_tensors i j = some s)
    (hvp : v.tensors.Perm p.tensors) (hvid : v.id = p.id)
    (hvld : v.legs_dim = p.legs_dim) (hvcpu : v.cpu ≤ p.cpu) :
    ∃ c'', Generates v c'' ∧ c''.id = s.id ∧ c''.cpu ≤ s.cpu ∧
      c''.tensors.Perm s.tensors := by
  obtain ⟨hct, hsid, -, -, hne, -⟩ := contract_tensors_some_elim hij hc
  obtain ⟨m, hm, hscpu, hslim⟩ := contract_tensors_cpu_elim hij hc
  have hperm2 := perm_two_eraseIdx p.tensors i j hij hjl
  obtain ⟨i', j', hij', hjl', hvals, hR⟩ :=
    perm_pair_positions (hvp.trans hperm2)
  have hand : v.tensors.getD i' 0 &&& v.tensors.getD j' 0 =
      p.tensors.getD i 0 &&& p.tensors.getD j 0 := by
    rcases hvals with ⟨h1, h2⟩ | ⟨h1, h2⟩
    · rw [h1, h2]
    · rw [h1, h2, Nat.land_comm]
  have hor : v.tensors.getD i' 0 ||| v.tensors.getD j' 0 =
      p.tensors.getD i 0 ||| p.tensors.getD j 0 := by
    rcases hvals with ⟨h1, h2⟩ | ⟨h1, h2⟩
    · rw [h1, h2]
    · rw [h1, h2, Nat.lor_comm]
  have hxor : v.tensors.getD i' 0 ^^^ v.tensors.getD j' 0 =
      p.tensors.getD i 0 ^^^ p.tensors.getD j 0 := by
    rcases hvals with ⟨h1, h2⟩ | ⟨h1, h2⟩
    · rw [h1, h2]
    · rw [h1, h2, Nat.xor_comm]
  have hvm : v.checked_measure
      (v.tensors.getD i' 0 ||| v.tensors.getD j' 0) = some m := by
    rw [hor, TensorNetwork.checked_measure, hvld]
    exact hm
  cases hres : v.contract_tensors i' j' with
  | some ch =>
    obtain ⟨hct', hcid', -, -, -, -⟩ := contract_tensors_some_elim hij' hres
    obtain ⟨m2, hm2, hccpu, -⟩ := contract_tensors_cpu_elim hij' hres
    have hm2m : m2 = m := Option.some.inj (hm2.symm.trans hvm)
    refine ⟨ch, ⟨i', j', hij', hjl', hres⟩, ?_, ?_, ?_⟩
    · rw [hcid', hand, hvid, hsid]
    · rw [hccpu, hm2m, hscpu]
      omega
    · rw [hct', hxor, hct]
      rw [List.concat_eq_append, List.concat_eq_append]
      exact hR.append_right _
  | none =>
    exfalso
    have hmin : min i' j' = i' := Nat.min_eq_left (le_of_lt hij')
    have hmax : max i' j' = j' := Nat.max_eq_right (le_of_lt hij')
    simp only [TensorNetwork.contract_tensors, hmin, hmax] at hres
    split at hres
    · rename_i h0
      rw [hand] at h0
      exact hne h0
    · split at hres
      · rename_i hmn
        rw [hvm] at hmn
        exact Option.noConfusion hmn
      · rename_i m2 hm2
        split at hres
        · exact Option.noConfusion hres
        · rename_i hov
          have hm2m : m2 = m := Option.some.inj (hm2.symm.trans hvm)
          rw [hm2m] at hov
          omega

theorem range_split {g n : Nat} (h : g < n) :
    List.range n = List.range' 0 g ++ g :: List.range' (g + 1) (n - g - 1) := by
  rw [List.range_eq_range']
  have h2 : g :: List.range' (g + 1) (n - g - 1) = List.range' g (n - g) := by
    have h3 : n - g = (n - g - 1) + 1 := by omega
    conv_rhs => rw [h3]
    rw [List.range'_succ]
  rw [h2]
  have h4 := List.range'_append 0 g (n - g) 1
  simp only [Nat.zero_add, Nat.one_mul] at h4
  rw [h4]
  congr 1
  omega

theorem foldPP_presence {n_c gen G K : Nat} {l : List TensorNetwork}
    {a b : List GenMap × TensorNetwork} {v : TensorNetwork}
    (hp : (a.1.getD G []).lookup K = some v)
    (h : l.foldlM (processParent n_c gen) a = some b) :
    ∃ v', (b.1.getD G []).lookup K = some v' ∧ v'.cpu ≤ v.cpu :=
  foldlM_option_inv
    (fun x => ∃ v', (x.1.getD G []).lookup K = some v' ∧ v'.cpu ≤ v.cpu)
    (processParent n_c gen)
    (fun acc p acc' hpa hstep => by
      obtain ⟨v1, hv1, hc1⟩ := hpa
      obtain ⟨v2, hv2, hc2⟩ := processParent_presence hv1 hstep
      exact ⟨v2, hv2, le_trans hc2 hc1⟩)
    l a b h ⟨v, hp, le_refl _⟩

theorem foldPC_presence {n_c gen G K : Nat} {l : List TensorNetwork}
    {a b : List GenMap × TensorNetwork} {v : TensorNetwork}
    (hp : (a.1.getD G []).lookup K = some v)
    (h : l.foldlM (processChild n_c gen) a = some b) :
    ∃ v', (b.1.getD G []).lookup K = some v' ∧ v'.cpu ≤ v.cpu :=
  foldlM_option_inv
    (fun x => ∃ v', (x.1.getD G []).lookup K = some v' ∧ v'.cpu ≤ v.cpu)
    (processChild n_c gen)
    (fun acc c acc' hpa hstep => by
      obtain ⟨v1, hv1, hc1⟩ := hpa
      obtain ⟨v2, hv2, hc2⟩ := processChild_presence hv1 hstep
      exact ⟨v2, hv2, le_trans hc2 hc1⟩)
    l a b h ⟨v, hp, le_refl _⟩

theorem mirror_entry {ts ld : List Nat} {root g0 : TensorNetwork}
    {n_c : Nat} {mapsF : List GenMap} {bestF : TensorNetwork}
    (hgr : goodState root) (hid : root.id = 0)
    (hld : root.legs_dim = ld) (hdims : ∀ d ∈ ld, 1 ≤ d)
    (hnc : 0 < n_c)
    (hfold : (List.range n_c).foldlM (processGeneration n_c)
      ((List.replicate n_c ([] : GenMap)).set 0 [(0, root)], g0) =
      some (mapsF, bestF))
    (hbestF : bestF.cpu = g0.cpu) :
    ∀ {s : TensorNetwork} {ms : List Nat}, GenChain root s ms →
      s.cpu < g0.cpu → countOnes s.id < n_c →
      ∃ v, (mapsF.getD (countOnes s.id) []).lookup s.id = some v ∧
        v.cpu ≤ s.cpu := by
  intro s ms hch
  induction hch with
  | nil =>
    intro hcpu hcnt
    have hfold' : (List.range' 0 n_c).foldlM (processGeneration n_c)
        ((List.replicate n_c ([] : GenMap)).set 0 [(0, root)], g0) =
        some (mapsF, bestF) := by
      rw [← List.range_eq_range']
      exact hfold
    have hSF := searchFold_preserve n_c 0 _ _ (by omega)
      (@searchInv_init root g0 n_c hgr hid hnc) hfold'
    have hzt : mapsF.getD 0 [] = [(0, root)] := hSF.1.zero_table
    rw [hid, countOnes_zero, hzt]
    have h0 : ([((0 : Nat), root)] : GenMap).lookup 0 = some root := rfl
    exact ⟨root, h0, le_refl _⟩
  | @snoc p c ms' hch' hgen ih =>
    intro hcpu hcnt
    obtain ⟨i, j, hij, hjl, hcstep⟩ := hgen
    have hpreach : Reaches root p := genChain_reaches hch'
    have hpgood : goodState p := reaches_good hpreach hgr
    have hdims_p : ∀ d ∈ p.legs_dim, 1 ≤ d := fun d hd =>
      hdims d (by rw [← hld, ← genChain_legs_dim hch']; exact hd)
    have hcpu_step : p.cpu < c.cpu :=
      generates_cpu_lt hdims_p ⟨i, j, hij, hjl, hcstep⟩
    have hpop := contract_step_popcount hij hjl hpgood.1 hpgood.2.2.2 hcstep
    have hgen_lt : countOnes p.id < countOnes c.id := by omega
    have hpcnt : countOnes p.id < n_c := by omega
    obtain ⟨vp, hvp_look, hvp_cpu⟩ := ih (by omega) hpcnt
    have hfold2 : ((List.range' 0 (countOnes p.id) ++ countOnes p.id ::
        List.range' (countOnes p.id + 1) (n_c - countOnes p.id - 1))).foldlM
        (processGeneration n_c)
        ((List.replicate n_c ([] : GenMap)).set 0 [(0, root)], g0) =
        some (mapsF, bestF) := by
      rw [← range_split hpcnt]
      exact hfold
    obtain ⟨acc1, hfold_l1, hfold_rest⟩ :=
      foldlM_option_append _ _ _ _ _ hfold2
    rw [List.foldlM_cons] at hfold_rest
    cases hpg : processGeneration n_c acc1 (countOnes p.id) with
    | none => rw [hpg] at hfold_rest; exact Option.noConfusion hfold_rest
    | some acc2 =>
    rw [hpg] at hfold_rest
    simp only [Option.bind_eq_bind, Option.some_bind] at hfold_rest
    have hSI1 : SearchInv root g0 n_c (countOnes p.id) acc1 := by
      have hx := searchFold_preserve (countOnes p.id) 0 _ acc1 (by omega)
        (@searchInv_init root g0 n_c hgr hid hnc) hfold_l1
      rw [Nat.zero_add] at hx
      exact hx
    have hMI1 := hSI1.1
    have hfr2 := processGeneration_freeze (le_refl (countOnes p.id)) hpg
    have hfr3 := @foldPG_freeze n_c (countOnes p.id) _ acc2 (mapsF, bestF)
      (fun g hg => by
        have := List.mem_range'_1.1 hg
        omega) hfold_rest
    have hvp_acc1 : (acc1.1.getD (countOnes p.id) []).lookup p.id =
        some vp := by
      rw [← hfr2.1, ← hfr3.1]
      exact hvp_look
    have hkey := hMI1.entry_key (countOnes p.id) (p.id, vp)
      (lookup_mem hvp_acc1)
    have hstate := hMI1.entry_state (countOnes p.id) (p.id, vp)
      (lookup_mem hvp_acc1)
    have hvpid : vp.id = p.id := hkey.1
    have hperm : vp.tensors.Perm p.tensors :=
      reach_id_perm hgr hid hstate.2 hpreach hvpid
    have hvld : vp.legs_dim = p.legs_dim := by
      obtain ⟨nv, hnv⟩ := hstate.2
      rw [reachN_legs_dim hnv, ← genChain_legs_dim hch']
    obtain ⟨c'', hgen'', hcid'', hccpu'', -⟩ :=
      mirror_step hij hjl hcstep hperm hvpid hvld hvp_cpu
    have hle_acc1 : acc1.2.cpu ≤ g0.cpu := foldPG_cpu_le hfold_l1
    have hge_acc2 : bestF.cpu ≤ acc2.2.cpu := foldPG_cpu_le hfold_rest
    have hpg_le : acc2.2.cpu ≤ acc1.2.cpu :=
      processGeneration_cpu_le (le_refl _) hpg
    have hpg2 := hpg
    simp only [processGeneration] at hpg2
    have hvp_mem : vp ∈ (acc1.1.getD (countOnes p.id) []).map Prod.snd :=
      List.mem_map.2 ⟨(p.id, vp), lookup_mem hvp_acc1, rfl⟩
    obtain ⟨pl1, pl2, pacc1, pacc2, hpleq, hfold_pl1, hpp, hfold_pl2⟩ :=
      foldlM_option_split _ hvp_mem _ _ hpg2
    have hle_pacc1 : pacc1.2.cpu ≤ acc1.2.cpu := foldPP_cpu_le hfold_pl1
    have hge_pacc2 : acc2.2.cpu ≤ pacc2.2.cpu := foldPP_cpu_le hfold_pl2
    have hpp_le : pacc2.2.cpu ≤ pacc1.2.cpu :=
      processParent_cpu_le (le_refl _) hpp
    have hpp2 := hpp
    simp only [processParent] at hpp2
    rw [if_pos (show vp.cpu < pacc1.2.cpu by omega)] at hpp2
    have hc_mem : c'' ∈ vp.generate_children := mem_generate_children.2 hgen''
    obtain ⟨cl1, cl2, cacc1, cacc2, hcleq, hfold_cl1, hpc, hfold_cl2⟩ :=
      foldlM_option_split _ hc_mem _ _ hpp2
    have hle_cacc1 : cacc1.2.cpu ≤ pacc1.2.cpu := foldPC_cpu_le hfold_cl1
    have hge_cacc2 : pacc2.2.cpu ≤ cacc2.2.cpu := foldPC_cpu_le hfold_cl2
    have hpc_le : cacc2.2.cpu ≤ cacc1.2.cpu :=
      processChild_cpu_le (le_refl _) hpc
    have hlen_acc1 : acc1.1.length = n_c := hMI1.len_eq
    have hlen_pacc1 : pacc1.1.length = n_c := by
      have hx := foldlM_option_inv (fun x => x.1.length = n_c)
        (processParent n_c (countOnes p.id))
        (fun a q a' hpa hstep =>
          (processParent_freeze (Nat.zero_le _) hstep).2.trans hpa)
        pl1 acc1 pacc1 hfold_pl1 hlen_acc1
      exact hx
    have hlen_cacc1 : cacc1.1.length = n_c := by
      have hx := foldlM_option_inv (fun x => x.1.length = n_c)
        (processChild n_c (countOnes p.id))
        (fun a q a' hpa hstep =>
          (processChild_freeze (Nat.zero_le _) hstep).2.trans hpa)
        cl1 pacc1 cacc1 hfold_cl1 hlen_pacc1
      exact hx
    have hpc2 := hpc
    simp only [processChild] at hpc2
    split at hpc2
    · split at hpc2
      · rename_i hcg
        rw [hcid''] at hcg
        omega
      · split at hpc2
        · have hcacc2 : cacc2.1 = cacc1.1.set (countOnes c''.id)
              (insertChild (cacc1.1.getD (countOnes c''.id) []) c'') :=
            (congrArg Prod.fst (Option.some.inj hpc2)).symm
          obtain ⟨v1, hv1look, hv1cpu⟩ :=
            insertChild_lookup_self
              (cacc1.1.getD (countOnes c''.id) []) c''
          have hv1_cacc2 : (cacc2.1.getD (countOnes c.id) []).lookup c.id =
              some v1 := by
            rw [hcacc2, hcid'', getD_set_self _
              (by rw [hlen_cacc1]; exact hcnt)]
            rw [hcid''] at hv1look
            exact hv1look
          obtain ⟨v2, hv2, hc2⟩ := foldPC_presence hv1_cacc2 hfold_cl2
          obtain ⟨v3, hv3, hc3⟩ := foldPP_presence hv2 hfold_pl2
          obtain ⟨v4, hv4, hc4⟩ := foldPG_presence hv3 hfold_rest
          refine ⟨v4, hv4, ?_⟩
          omega
        · rename_i hr
          rw [hcid''] at hr
          exact absurd ⟨hgen_lt, hcnt⟩ hr
    · rename_i hgate
      omega

theorem terminal_child_forces {root g0 : TensorNetwork} {n_c : Nat}
    {mapsF : List GenMap} {bestF : TensorNetwork}
    (hgr : goodState root) (hid : root.id = 0) (hnc : 0 < n_c)
    (hfold : (List.range n_c).foldlM (processGeneration n_c)
      ((List.replicate n_c ([] : GenMap)).set 0 [(0, root)], g0) =
      some (mapsF, bestF))
    {pid : Nat} {vp : TensorNetwork}
    (hpcnt : countOnes pid < n_c)
    (hvp_look : (mapsF.getD (countOnes pid) []).lookup pid = some vp)
    (hvp_lt : vp.cpu < bestF.cpu)
    {cT : TensorNetwork} (hc_mem : cT ∈ vp.generate_children)
    (hcg : countOnes cT.id = n_c) :
    bestF.cpu ≤ cT.cpu := by
  have hfold2 : ((List.range' 0 (countOnes pid) ++ countOnes pid ::
      List.range' (countOnes pid + 1) (n_c - countOnes pid - 1))).foldlM
      (processGeneration n_c)
      ((List.replicate n_c ([] : GenMap)).set 0 [(0, root)], g0) =
      some (mapsF, bestF) := by
    rw [← range_split hpcnt]
    exact hfold
  obtain ⟨acc1, hfold_l1, hfold_rest⟩ := foldlM_option_append _ _ _ _ _ hfold2
  rw [List.foldlM_cons] at hfold_rest
  cases hpg : processGeneration n_c acc1 (countOnes pid) with
  | none => rw [hpg] at hfold_rest; exact Option.noConfusion hfold_rest
  | some acc2 =>
  rw [hpg] at hfold_rest
  simp only [Option.bind_eq_bind, Option.some_bind] at hfold_rest
  have hfr2 := processGeneration_freeze (le_refl (countOnes pid)) hpg
  have hfr3 := @foldPG_freeze n_c (countOnes pid) _ acc2 (mapsF, bestF)
    (fun g hg => by
      have := List.mem_range'_1.1 hg
      omega) hfold_rest
  have hvp_acc1 : (acc1.1.getD (countOnes pid) []).lookup pid = some vp := by
    rw [← hfr2.1, ← hfr3.1]
    exact hvp_look
  have hge_acc2 : bestF.cpu ≤ acc2.2.cpu := foldPG_cpu_le hfold_rest
  have hpg2 := hpg
  simp only [processGeneration] at hpg2
  have hvp_mem : vp ∈ (acc1.1.getD (countOnes pid) []).map Prod.snd :=
    List.mem_map.2 ⟨(pid, vp), lookup_mem hvp_acc1, rfl⟩
  obtain ⟨pl1, pl2, pacc1, pacc2, hpleq, hfold_pl1, hpp, hfold_pl2⟩ :=
    foldlM_option_split _ hvp_mem _ _ hpg2
  have hge_pacc2 : acc2.2.cpu ≤ pacc2.2.cpu := foldPP_cpu_le hfold_pl2
  have hpp2 := hpp
  simp only [processParent] at hpp2
  split at hpp2
  · obtain ⟨cl1, cl2, cacc1, cacc2, hcleq, hfold_cl1, hpc, hfold_cl2⟩ :=
      foldlM_option_split _ hc_mem _ _ hpp2
    have hforce : cacc2.2.cpu ≤ cT.cpu := processChild_forces hcg hpc
    have hge_cacc2 : pacc2.2.cpu ≤ cacc2.2.cpu := foldPC_cpu_le hfold_cl2
    omega
  · rename_i hgate
    rw [Option.pure_def] at hpp2
    have hpe : pacc1 = pacc2 := Option.some.inj hpp2
    have hge_pacc1 : pacc2.2.cpu ≤ pacc1.2.cpu := le_of_eq (by rw [hpe])
    exfalso
    have : bestF.cpu ≤ pacc1.2.cpu := by omega
    exact hgate (by omega)

theorem genChain_nil_inv {root x : TensorNetwork} (h : GenChain root x []) :
    x = root := by
  have haux : ∀ ms : List Nat, GenChain root x ms → ms = [] → x = root := by
    intro ms h2
    cases h2 with
    | nil => intro h3; rfl
    | snoc hch hgen =>
      intro habs
      rw [List.concat_eq_append] at habs
      simp at habs
  exact haux [] h rfl

theorem exhaustiveSearch_eq {ld ts : List Nat}
    {gres : List Nat × TensorNetwork} {root bestF : TensorNetwork}
    {mapsF : List GenMap} {seq : List Nat}
    (hgreedy : greedySearch ld ts = some gres)
    (hroot : TensorNetwork.new ld ts = some root)
    (hnc : ncOf ts ≠ 0)
    (hfold : (List.range (ncOf ts)).foldlM (processGeneration (ncOf ts))
      ((List.replicate (ncOf ts) ([] : GenMap)).set 0 [(0, root)], gres.2) =
      some (mapsF, bestF))
    (hloop : reconstructLoop mapsF 65 bestF.parent
      [bestF.id, bestF.parent] = some seq) :
    exhaustiveSearch ld ts = some (seq.reverse, bestF) := by
  simp only [exhaustiveSearch]
  rw [hgreedy]
  simp only [Option.some_bind]
  rw [hroot]
  simp only [Option.some_bind]
  rw [if_neg hnc, hfold]
  simp only [Option.some_bind]
  rw [hloop]
  rfl

theorem seq_reverse_drop {bid k : Nat} {ms : List Nat}
    (hsplit : ms.dropLast ++ [k] = ms) :
    (([bid, k] ++ (ms.dropLast.reverse ++ [0])).reverse).drop 1 =
      ms ++ [bid] := by
  rw [List.reverse_append, List.reverse_append, List.reverse_reverse]
  have h1 : ([0] : List Nat).reverse = [0] := rfl
  have h2 : ([bid, k] : List Nat).reverse = [k, bid] := rfl
  rw [h1, h2]
  have h3 : (([0] ++ ms.dropLast) ++ [k, bid]) =
      0 :: (ms.dropLast ++ [k, bid]) := by
    rw [List.cons_append]
    rfl
  rw [h3]
  have h4 : (0 :: (ms.dropLast ++ [k, bid])).drop 1 =
      ms.dropLast ++ [k, bid] := rfl
  rw [h4]
  have h5 : ([k, bid] : List Nat) = [k] ++ [bid] := rfl
  rw [h5, ← List.append_assoc, hsplit]

theorem c5_assemble {ld ts : List Nat} {gres : List Nat × TensorNetwork}
    {root bestF : TensorNetwork} {mapsF : List GenMap} {v fin : TensorNetwork}
    (hgr : goodState root)
    (hMIF : MapsInv root (ncOf ts) (ncOf ts) mapsF)
    (hgreedy : greedySearch ld ts = some gres)
    (hroot : TensorNetwork.new ld ts = some root)
    (hnc : ncOf ts ≠ 0)
    (hfold : (List.range (ncOf ts)).foldlM (processGeneration (ncOf ts))
      ((List.replicate (ncOf ts) ([] : GenMap)).set 0 [(0, root)], gres.2) =
      some (mapsF, bestF))
    (hvlook : (mapsF.getD (countOnes bestF.parent) []).lookup bestF.parent =
      some v)
    (hgenfin : Generates v fin)
    (hfin_id : fin.id = bestF.id) (hfin_cpu : fin.cpu = bestF.cpu) :
    ∃ seq : List Nat,
      reconstructLoop mapsF 65 bestF.parent [bestF.id, bestF.parent] =
        some seq ∧
      exhaustiveSearch ld ts = some (seq.reverse, bestF) ∧
      ∃ final : TensorNetwork,
        replay root (seq.reverse.drop 1) = some final ∧
        final.id = bestF.id ∧ final.cpu = bestF.cpu := by
  obtain ⟨ms, hchain, hz, hnz⟩ := reconstruct_walk hMIF 65 bestF.parent v
    (by have := countOnes_le_64 bestF.parent; omega) hvlook
  by_cases hk : bestF.parent = 0
  · obtain ⟨hms0, hrl⟩ := hz hk
    subst hms0
    refine ⟨[bestF.id, bestF.parent], hrl _,
      exhaustiveSearch_eq hgreedy hroot hnc hfold (hrl _), fin, ?_,
      hfin_id, hfin_cpu⟩
    have hrd : (([bestF.id, bestF.parent] : List Nat).reverse).drop 1 =
        [bestF.id] := rfl
    rw [hrd]
    have hvroot : v = root := genChain_nil_inv hchain
    rw [replay_cons]
    have hrs : replayStep root bestF.id = some fin := by
      rw [← hfin_id]
      exact replayStep_of_generates hgr (hvroot ▸ hgenfin)
    rw [hrs]
    simp only [Option.some_bind]
    rfl
  · obtain ⟨hlast, hrl⟩ := hnz hk
    refine ⟨[bestF.id, bestF.parent] ++ (ms.dropLast.reverse ++ [0]),
      hrl _, exhaustiveSearch_eq hgreedy hroot hnc hfold (hrl _), fin, ?_,
      hfin_id, hfin_cpu⟩
    have hne : ms ≠ [] := by
      intro hh
      rw [hh] at hlast
      exact Option.noConfusion hlast
    have hsplitms : ms.dropLast ++ [bestF.parent] = ms := by
      have hd := List.dropLast_append_getLast hne
      have hget : ms.getLast hne = bestF.parent := by
        have hx := List.getLast?_eq_getLast ms hne
        rw [hx] at hlast
        exact Option.some.inj hlast
      rw [hget] at hd
      exact hd
    rw [seq_reverse_drop hsplitms]
    rw [replay_append, genChain_replay hgr hchain]
    simp only [Option.some_bind]
    rw [replay_cons]
    have hrs : replayStep v bestF.id = some fin := by
      rw [← hfin_id]
      exact replayStep_of_generates
        (reaches_good (genChain_reaches hchain) hgr) hgenfin
    rw [hrs]
    simp only [Option.some_bind]
    rfl

/-- C5: for every valid, sorted, bounded input on which the search pipeline
runs (the greedy phase succeeds, the root builds, the closed-leg count is
nonzero and the generation fold of `exhaustive_search` completes), the
reconstruction loop that starts from `[best.id, best.parent]` and repeatedly
looks the current id up in the generation table indexed by its popcount
always succeeds — every lookup finds an entry — `exhaustive_search` returns
the reversed sequence together with `best`, and reapplying from the root the
step decoded from each pair of consecutive sequence entries (their XOR names
the contracted pair) reproduces exactly `best`'s terminal `id` and terminal
`cpu`. -/
theorem c5_reconstruction {ld ts : List Nat}
    {gres : List Nat × TensorNetwork} {root bestF : TensorNetwork}
    {mapsF : List GenMap}
    (hb : ∀ t ∈ ts, t < 2 ^ 64)
    (hinc : ∀ b : Nat, ts.countP (fun t => t.testBit b) ≤ 2)
    (hsorted : ∀ b : Nat, ncOf ts ≤ b → ts.countP (fun t => t.testBit b) ≤ 1)
    (hdims : ∀ d ∈ ld, 1 ≤ d)
    (hgreedy : greedySearch ld ts = some gres)
    (hroot : TensorNetwork.new ld ts = some root)
    (hnc : ncOf ts ≠ 0)
    (hfold : (List.range (ncOf ts)).foldlM (processGeneration (ncOf ts))
      ((List.replicate (ncOf ts) ([] : GenMap)).set 0 [(0, root)], gres.2) =
      some (mapsF, bestF)) :
    ∃ seq : List Nat,
      reconstructLoop mapsF 65 bestF.parent [bestF.id, bestF.parent] =
        some seq ∧
      exhaustiveSearch ld ts = some (seq.reverse, bestF) ∧
      ∃ final : TensorNetwork,
        replay root (seq.reverse.drop 1) = some final ∧
        final.id = bestF.id ∧ final.cpu = bestF.cpu := by
  obtain ⟨hid, hpar0, hcpu0, hts, hldeq⟩ := new_elim hroot
  have hgr : goodState root := new_goodState hroot hb hinc
  have hfold' := hfold
  rw [List.range_eq_range'] at hfold'
  have hSF := searchFold_preserve (ncOf ts) 0 _ (mapsF, bestF)
    (by omega) (searchInv_init hgr hid (Nat.pos_of_ne_zero hnc)) hfold'
  rw [Nat.zero_add] at hSF
  have hMIF : MapsInv root (ncOf ts) (ncOf ts) mapsF := hSF.1
  have hBI : BestInv root gres.2 (ncOf ts) (ncOf ts) mapsF bestF := hSF.2
  rcases hBI with hbg | hbetter
  · -- the fold never improved on the greedy result: `bestF = gres.2`
    obtain ⟨g0', msG, hchG, hcore, hterm⟩ := greedySearch_chain hroot hgreedy
    obtain ⟨hcld, hccpu, hcid, hcpar, hcts⟩ := hcore
    have hsorted' : ∀ b, ncOf root.tensors ≤ b →
        root.tensors.countP (fun t => t.testBit b) ≤ 1 := by
      rw [hts]
      exact hsorted
    have hterm' : ¬ g0'.id < 2 ^ ncOf root.tensors - 1 := by
      rw [hts, ← hcid]
      exact hterm
    obtain ⟨-, hgcnt⟩ := greedy_terminal_id hchG hgr hid hsorted' hterm'
    rw [hts] at hgcnt
    cases hchG with
    | nil =>
      rw [hid, countOnes_zero] at hgcnt
      exact absurd hgcnt.symm hnc
    | snoc hch2 hgen =>
      rename_i p2 ms2
      obtain ⟨i, j, hij, hjl, hclast⟩ := hgen
      have helim := contract_tensors_some_elim hij hclast
      have hpgood2 : goodState p2 := reaches_good (genChain_reaches hch2) hgr
      have hpop := contract_step_popcount hij hjl hpgood2.1 hpgood2.2.2.2 hclast
      have hpcnt : countOnes p2.id < ncOf ts := by omega
      have hdims_p : ∀ d ∈ p2.legs_dim, 1 ≤ d := by
        rw [genChain_legs_dim hch2, hldeq]
        exact hdims
      have hstep_cpu : p2.cpu < g0'.cpu :=
        generates_cpu_lt hdims_p ⟨i, j, hij, hjl, hclast⟩
      obtain ⟨vp, hvp_look, hvp_cpu⟩ := @mirror_entry ts ld root gres.2
        (ncOf ts) mapsF bestF hgr hid hldeq hdims
        (Nat.pos_of_ne_zero hnc) hfold (by rw [hbg]) p2 ms2 hch2
        (by omega) hpcnt
      have hmem := lookup_mem hvp_look
      have hkey := hMIF.entry_key (countOnes p2.id) (p2.id, vp) hmem
      have hstate := hMIF.entry_state (countOnes p2.id) (p2.id, vp) hmem
      have hvpid : vp.id = p2.id := hkey.1
      have hperm : vp.tensors.Perm p2.tensors :=
        reach_id_perm hgr hid hstate.2 (genChain_reaches hch2) hvpid
      have hvld : vp.legs_dim = p2.legs_dim := by
        obtain ⟨nv, hnv⟩ := hstate.2
        rw [reachN_legs_dim hnv, genChain_legs_dim hch2]
      obtain ⟨fin, hgenfin, hfinid, hfincpu_le, -⟩ :=
        mirror_step hij hjl hclast hperm hvpid hvld hvp_cpu
      have hbf2 : bestF.cpu = g0'.cpu := by
        rw [hbg]
        exact hccpu
      have hforce := terminal_child_forces hgr hid (Nat.pos_of_ne_zero hnc)
        hfold hpcnt hvp_look (by omega) (mem_generate_children.2 hgenfin)
        (by rw [hfinid]; exact hgcnt)
      have hfincpu : fin.cpu = bestF.cpu := by omega
      have hfinid2 : fin.id = bestF.id := by
        rw [hbg, hcid]
        exact hfinid
      have hbpar : bestF.parent = p2.id := by
        rw [hbg, hcpar]
        exact helim.2.2.1
      refine c5_assemble hgr hMIF hgreedy hroot hnc hfold ?_ hgenfin
        hfinid2 hfincpu
      rw [hbpar]
      exact hvp_look
  · -- the fold found a strictly cheaper terminal state
    obtain ⟨-, -, -, -, -, pe, hpelook, hpegen⟩ := hbetter
    exact c5_assemble hgr hMIF hgreedy hroot hnc hfold hpelook hpegen rfl rfl

theorem c5_witness :
    (∀ b : Nat, List.countP (fun t => t.testBit b) [3, 5] ≤ 2) ∧
    (∀ b : Nat, ncOf [3, 5] ≤ b →
      List.countP (fun t => t.testBit b) [3, 5] ≤ 1) ∧
    ∃ seq : List Nat,
      reconstructLoop
        [[((0 : Nat), (⟨[4, 3, 5], 0, 32, 0, 0, [3, 5], [true, true]⟩ :
          TensorNetwork))]] 65
        (⟨[4, 3, 5], 60, 52, 1, 0, [6], [false]⟩ : TensorNetwork).parent
        [(⟨[4, 3, 5], 60, 52, 1, 0, [6], [false]⟩ : TensorNetwork).id,
          (⟨[4, 3, 5], 60, 52, 1, 0, [6], [false]⟩ : TensorNetwork).parent] =
        some seq ∧
      exhaustiveSearch [4, 3, 5] [3, 5] = some (seq.reverse,
        (⟨[4, 3, 5], 60, 52, 1, 0, [6], [false]⟩ : TensorNetwork)) ∧
      ∃ final : TensorNetwork,
        replay (⟨[4, 3, 5], 0, 32, 0, 0, [3, 5], [true, true]⟩ :
            TensorNetwork) (seq.reverse.drop 1) = some final ∧
        final.id = (⟨[4, 3, 5], 60, 52, 1, 0, [6], [false]⟩ :
          TensorNetwork).id ∧
        final.cpu = (⟨[4, 3, 5], 60, 52, 1, 0, [6], [false]⟩ :
          TensorNetwork).cpu := by
  have hinc : ∀ b : Nat, List.countP (fun t => t.testBit b) [3, 5] ≤ 2 :=
    fun b => le_trans (List.countP_le_length _) (by decide)
  have hsorted : ∀ b : Nat, ncOf [3, 5] ≤ b →
      List.countP (fun t => t.testBit b) [3, 5] ≤ 1 := by
    intro b hb
    have hnc1 : ncOf [3, 5] = 1 := by decide
    rw [hnc1] at hb
    by_cases h3 : b < 3
    · interval_cases b <;> decide
    · have hp : (2 : Nat) ^ 3 ≤ 2 ^ b :=
        Nat.pow_le_pow_right (by decide) (by omega)
      have h35 : List.countP (fun t => t.testBit b) [3, 5] = 0 := by
        rw [List.countP_eq_zero]
        intro t ht
        have htlt : t < 2 ^ b := by fin_cases ht <;> omega
        simp [Nat.testBit_lt_two_pow htlt]
      omega
  refine ⟨hinc, hsorted, ?_⟩
  exact @c5_reconstruction [4, 3, 5] [3, 5]
    ([0, 1], ⟨[4, 3, 5], 60, 52, 1, 0, [6], [false]⟩)
    ⟨[4, 3, 5], 0, 32, 0, 0, [3, 5], [true, true]⟩
    ⟨[4, 3, 5], 60, 52, 1, 0, [6], [false]⟩
    [[((0 : Nat), ⟨[4, 3, 5], 0, 32, 0, 0, [3, 5], [true, true]⟩)]]
    (by decide) hinc hsorted (by decide) (by decide) (by decide) (by decide)
    (by decide)
